import Mathlib

/-!
# Rag-Based-Chatbot: retrieval core

A shallow embedding of the algorithmic core of the backend
(`backend/embeddings.js`, `backend/rag.js`, `backend/imageStore.js`).

Conventions of the embedding.

* JavaScript numbers are modelled twice.  For the structure of the results
  (order, ties, thresholds) they are an ordered field `F` together with a
  square-root function `sqrt : F → F`; the definitions are generic in both and
  therefore computable, and theorems are stated for `F = ℝ` and
  `sqrt = Real.sqrt`, that is, for exact real arithmetic (no rounding, no
  `NaN`, no infinities other than the `-Infinity` of an empty `Math.max`, which
  is modelled by `none`).  For the numeric range of `cosineSimilarity` they are
  IEEE-754 doubles (`Double`), with every operation correctly rounded, and with
  `NaN`, the infinities and signed zeros.
* JavaScript arrays are lists; a JavaScript string is the list of its
  characters (`JSString`).
* `async` functions are modelled by their sequential result; the external
  embedding model and the external text generator are parameters.
-/

namespace RagChatbot

/-! ## backend/embeddings.js -/

section Embeddings

variable {F : Type} [LinearOrderedField F]

/-- The three accumulators `dot`, `na`, `nb` of the loop of `cosineSimilarity`. -/
structure CosAcc (F : Type) where
  dot : F
  na : F
  nb : F

/-- One iteration of the loop body of `cosineSimilarity` at index `i`:
`dot += a[i] * b[i]; na += a[i] * a[i]; nb += b[i] * b[i]`. -/
def cosineStep (a b : List F) (acc : CosAcc F) (i : Nat) : CosAcc F :=
  { dot := acc.dot + a.getD i 0 * b.getD i 0
    na := acc.na + a.getD i 0 * a.getD i 0
    nb := acc.nb + b.getD i 0 * b.getD i 0 }

/-- The loop `for (let i = 0; i < len; i++) { ... }` of `cosineSimilarity`,
started from `dot = 0, na = 0, nb = 0`. -/
def cosineLoop (a b : List F) (len : Nat) : CosAcc F :=
  (List.range len).foldl (cosineStep a b) { dot := 0, na := 0, nb := 0 }

/-- The function `cosineSimilarity(a, b)` of `backend/embeddings.js`:
```
const len = Math.min(a.length, b.length);
for (...) {...}
if (!na || !nb) return 0;
return dot / (Math.sqrt(na) * Math.sqrt(nb));
```
Over an ordered field this is the function in exact arithmetic;
`cosineSimilarityDouble` below is the same function in the doubles it runs in.
-/
def cosineSimilarity (sqrt : F → F) (a b : List F) : F :=
  let len := min a.length b.length
  let acc := cosineLoop a b len
  if acc.na = 0 ∨ acc.nb = 0 then 0
  else acc.dot / (sqrt acc.na * sqrt acc.nb)

end Embeddings

/-! ## JavaScript numbers as IEEE-754 doubles

The arithmetic the code runs: every JavaScript number is an IEEE-754 binary64
value and every operation rounds its exact result to the nearest such value,
ties to the even significand. -/

/-- An IEEE-754 binary64 value.  A finite value is
`(-1)^neg * mant * 2^exp` with `-1074 ≤ exp ≤ 971` and `mant < 2^53`, where
`2^52 ≤ mant` unless `exp = -1074` (zero and the subnormal numbers); `+0` and
`-0` are `fin false 0 (-1074)` and `fin true 0 (-1074)`. -/
inductive Double
  | nan
  | inf (neg : Bool)
  | fin (neg : Bool) (mant : Nat) (exp : Int)
  deriving DecidableEq, Repr

namespace Double

/-- The number of binary digits of `n`, counted with `fuel` halvings at most. -/
def bitLengthFuel : Nat → Nat → Nat
  | 0, _ => 0
  | fuel + 1, n => if n = 0 then 0 else bitLengthFuel fuel (n / 2) + 1

/-- The number of binary digits of `n`: `0` for `0`, else the `k` with
`2^(k-1) ≤ n < 2^k`. -/
def bitLength (n : Nat) : Nat :=
  bitLengthFuel n n

/-- Positive zero, the initial value `0` of the accumulators. -/
def zero : Double := fin false 0 (-1074)

/-- Rounding to the nearest double, ties to even: the double nearest to the
number `x` with `m * 2^e ≤ |x| < (m + 1) * 2^e` and sign `neg`, where `sticky`
says that `|x|` is not `m * 2^e` itself.  A caller that sets `sticky` passes
an `m` of at least 55 bits, so that the bits cut off decide the direction. -/
def round (neg : Bool) (m : Nat) (e : Int) (sticky : Bool) : Double :=
  if m = 0 then fin neg 0 (-1074)
  else
    let t : Int := max (e + (bitLength m : Int) - 53) (-1074)
    if t ≤ e then
      if 971 < t then inf neg else fin neg (m * 2 ^ (e - t).toNat) t
    else
      let shift : Nat := (t - e).toNat
      let q : Nat := m / 2 ^ shift
      let rest : Nat := m % 2 ^ shift
      let half : Nat := 2 ^ (shift - 1)
      let up : Bool := decide (half < rest) || (decide (rest = half) && (sticky || decide (q % 2 = 1)))
      let q1 : Nat := if up then q + 1 else q
      let mant : Nat := if q1 = 2 ^ 53 then 2 ^ 52 else q1
      let exp : Int := if q1 = 2 ^ 53 then t + 1 else t
      if 971 < exp then inf neg else fin neg mant exp

/-- The double nearest to the fraction `num / den` (`den > 0`), with sign
`neg`: the value of a decimal literal such as `0.8` (`8 / 10`) or `1e-200`. -/
def ofFraction (neg : Bool) (num den : Nat) : Double :=
  if num = 0 then fin neg 0 (-1074)
  else
    let k : Nat := bitLength den + 55
    round neg (num * 2 ^ k / den) (-(k : Int)) (decide (num * 2 ^ k % den ≠ 0))

/-- The product `x * y`. -/
def mul : Double → Double → Double
  | nan, _ => nan
  | _, nan => nan
  | inf n1, inf n2 => inf (xor n1 n2)
  | inf n1, fin n2 m2 _ => if m2 = 0 then nan else inf (xor n1 n2)
  | fin n1 m1 _, inf n2 => if m1 = 0 then nan else inf (xor n1 n2)
  | fin n1 m1 e1, fin n2 m2 e2 => round (xor n1 n2) (m1 * m2) (e1 + e2) false

/-- The sum `x + y`. -/
def add : Double → Double → Double
  | nan, _ => nan
  | _, nan => nan
  | inf n1, inf n2 => if n1 = n2 then inf n1 else nan
  | inf n1, fin _ _ _ => inf n1
  | fin _ _ _, inf n2 => inf n2
  | fin n1 m1 e1, fin n2 m2 e2 =>
    let e : Int := min e1 e2
    let z1 : Int := (if n1 then -1 else 1) * ((m1 * 2 ^ (e1 - e).toNat : Nat) : Int)
    let z2 : Int := (if n2 then -1 else 1) * ((m2 * 2 ^ (e2 - e).toNat : Nat) : Int)
    let z : Int := z1 + z2
    if z = 0 then fin (n1 && n2) 0 (-1074)
    else round (decide (z < 0)) z.natAbs e false

/-- The quotient `x / y`. -/
def div : Double → Double → Double
  | nan, _ => nan
  | _, nan => nan
  | inf _, inf _ => nan
  | inf n1, fin n2 _ _ => inf (xor n1 n2)
  | fin n1 _ _, inf n2 => fin (xor n1 n2) 0 (-1074)
  | fin n1 m1 e1, fin n2 m2 e2 =>
    if m2 = 0 then (if m1 = 0 then nan else inf (xor n1 n2))
    else if m1 = 0 then fin (xor n1 n2) 0 (-1074)
    else
      let k : Nat := bitLength m2 + 55
      round (xor n1 n2) (m1 * 2 ^ k / m2) (e1 - e2 - (k : Int)) (decide (m1 * 2 ^ k % m2 ≠ 0))

/-- The integer square root, bit by bit: with `r` a multiple of `2^k` and
`r^2 ≤ n`, the largest `r + d`, `d < 2^k`, whose square is at most `n`. -/
def isqrtBits : Nat → Nat → Nat → Nat
  | 0, _, r => r
  | k + 1, n, r => if (r + 2 ^ k) * (r + 2 ^ k) ≤ n then isqrtBits k n (r + 2 ^ k) else isqrtBits k n r

/-- The integer square root `⌊√n⌋`. -/
def isqrt (n : Nat) : Nat :=
  isqrtBits (bitLength n / 2 + 1) n 0

/-- The square root `Math.sqrt(x)`. -/
def sqrt : Double → Double
  | nan => nan
  | inf n => if n then nan else inf false
  | fin n m e =>
    if m = 0 then fin n 0 (-1074)
    else if n then nan
    else
      let s : Nat := if (e - 110) % 2 = 0 then 110 else 111
      let r : Nat := isqrt (m * 2 ^ s)
      round false r ((e - (s : Int)) / 2) (decide (r * r ≠ m * 2 ^ s))

/-- The test `!x`: a number is falsy when it is `0`, `-0` or `NaN`. -/
def falsy : Double → Bool
  | nan => true
  | inf _ => false
  | fin _ m _ => decide (m = 0)

/-- The rational value of a finite double; `none` for `NaN` and the infinities. -/
def value : Double → Option ℚ
  | nan => none
  | inf _ => none
  | fin n m e => some ((if n then -1 else 1) * (m : ℚ) * (2 : ℚ) ^ e)

end Double

/-- One iteration of the loop of `cosineSimilarity` in double arithmetic. -/
def cosineStepDouble (a b : List Double) (acc : CosAcc Double) (i : Nat) : CosAcc Double :=
  { dot := Double.add acc.dot (Double.mul (a.getD i Double.nan) (b.getD i Double.nan))
    na := Double.add acc.na (Double.mul (a.getD i Double.nan) (a.getD i Double.nan))
    nb := Double.add acc.nb (Double.mul (b.getD i Double.nan) (b.getD i Double.nan)) }

/-- The loop of `cosineSimilarity` in double arithmetic, from `dot = 0, na = 0, nb = 0`. -/
def cosineLoopDouble (a b : List Double) (len : Nat) : CosAcc Double :=
  (List.range len).foldl (cosineStepDouble a b)
    { dot := Double.zero, na := Double.zero, nb := Double.zero }

/-- The function `cosineSimilarity(a, b)` of `backend/embeddings.js` in the
arithmetic it runs in, IEEE-754 doubles. -/
def cosineSimilarityDouble (a b : List Double) : Double :=
  let len := min a.length b.length
  let acc := cosineLoopDouble a b len
  if Double.falsy acc.na || Double.falsy acc.nb then Double.zero
  else Double.div acc.dot (Double.mul (Double.sqrt acc.na) (Double.sqrt acc.nb))

/-- The double `d` is a finite number between `lo` and `hi` (`NaN` and the
infinities are not). -/
def Double.within (lo hi : ℚ) (d : Double) : Prop :=
  ∃ q : ℚ, d.value = some q ∧ lo ≤ q ∧ q ≤ hi

namespace Double

/-- The rational value of a finite double; `0` for `NaN` and the infinities. -/
def toRat : Double → ℚ
  | fin n m e => (if n then -1 else 1) * (m : ℚ) * (2 : ℚ) ^ e
  | _ => 0

/-- The value of a double as a real number (`0` for `NaN` and the infinities). -/
def toReal (d : Double) : ℝ :=
  (d.toRat : ℝ)

/-- The double is finite and within the format: significand below `2^53`,
exponent of the last place between `-1074` and `971`. -/
def Canon (d : Double) : Prop :=
  ∃ n m e, d = fin n m e ∧ m < 2 ^ 53 ∧ -1074 ≤ e ∧ e ≤ 971

/-- A finite double within the format that is `0` or has its magnitude in
`[2^-500, 2^500)`: squares and products of such numbers neither underflow nor
overflow. -/
def moderate : Double → Bool
  | fin _ m e =>
    decide (m < 2 ^ 53) && decide (-1074 ≤ e) && decide (e ≤ 971) &&
      (decide (m = 0) ||
        (decide (-500 ≤ e + (bitLength m : Int) - 1) && decide (e + (bitLength m : Int) ≤ 500)))
  | _ => false

/-- The negation `-x`. -/
def neg : Double → Double
  | nan => nan
  | inf n => inf (!n)
  | fin n m e => fin (!n) m e

/-- The difference `x - y`. -/
def sub (x y : Double) : Double :=
  add x (neg y)

/-- The test `v ≤ 0` on the result `v` of a sort comparator, where `NaN` counts
as `+0`. -/
def nonpos : Double → Bool
  | nan => true
  | inf n => n
  | fin n m _ => n || decide (m = 0)

end Double

/-! ### The lazy model load of `embedText`

`embedText` and `loadEmbedder` are `async` functions on one thread: a call runs
without interruption up to its next `await`, and is resumed later, when the
awaited promise settles.  Other calls may run in between.  The module variable
`embedder` and the calls in flight form the state; an event runs one call from
one suspension point to the next. -/

/-- A loaded model, named by the number of the `pipeline(...)` call that
produced it (the first call is number 0). -/
abbrev ModelId := Nat

/-- Where one call `embedText(text)` stands. -/
inductive CallState
  /-- The call has not been made yet. -/
  | notCalled
  /-- Suspended in `loadEmbedder` at `embedder = await pipeline(...)`, waiting
  for the load `load` that this call started. -/
  | awaitingPipeline (load : ModelId)
  /-- The body of `loadEmbedder` has returned `embedder`; suspended in
  `embedText` at `await loadEmbedder()`, which will yield `extractor`. -/
  | awaitingLoadEmbedder (extractor : ModelId)
  /-- Suspended in `embedText` at `await extractor(text, ...)`. -/
  | awaitingExtractor (extractor : ModelId)
  /-- The call has returned the vector computed by `extractor`. -/
  | returnedVector (extractor : ModelId)
  /-- The `catch` branch: the call has returned `[]`. -/
  | returnedEmpty
  deriving DecidableEq, Repr

/-- The module state of `backend/embeddings.js` together with the calls of
`embedText`: the variable `embedder` (`none` is `null`), the number of
`pipeline(...)` calls made so far, and the state of every call. -/
structure EmbedderState where
  embedder : Option ModelId
  pipelineCalls : Nat
  calls : List CallState
  deriving DecidableEq, Repr

/-- What can happen next: a call of `embedText` is made, or a promise awaited
by call `i` settles and the call is resumed. -/
inductive EmbedderEvent
  /-- The call number `i` of `embedText` is made. -/
  | call (i : Nat)
  /-- The promise `pipeline(...)` awaited by call `i` is fulfilled. -/
  | pipelineResolved (i : Nat)
  /-- The promise `pipeline(...)` awaited by call `i` is rejected. -/
  | pipelineRejected (i : Nat)
  /-- The promise `loadEmbedder()` awaited by call `i` is fulfilled. -/
  | loadEmbedderResolved (i : Nat)
  /-- The promise `extractor(text, ...)` awaited by call `i` is fulfilled. -/
  | extractorResolved (i : Nat)
  /-- The promise `extractor(text, ...)` awaited by call `i` is rejected. -/
  | extractorRejected (i : Nat)
  deriving DecidableEq, Repr

/-- The function `loadEmbedder()` from its entry to its first suspension or
return, for a call made in state `s`:
```
if (!embedder) { console.log(...); embedder = await pipeline(...); ... }
return embedder;
```
With `embedder` still `null` it calls `pipeline(...)` and suspends; otherwise
it returns `embedder`. -/
def loadEmbedder (s : EmbedderState) : EmbedderState × CallState :=
  match s.embedder with
  | none =>
    ({ s with pipelineCalls := s.pipelineCalls + 1 }, CallState.awaitingPipeline s.pipelineCalls)
  | some m => (s, CallState.awaitingLoadEmbedder m)

/-- The rest of `loadEmbedder()` once `pipeline(...)` is fulfilled with the
model `m`: `embedder = m; console.log(...); return embedder;`. -/
def loadEmbedderResume (s : EmbedderState) (m : ModelId) : EmbedderState × CallState :=
  ({ s with embedder := some m }, CallState.awaitingLoadEmbedder m)

/-- One event on the state; `none` when the event cannot happen in `s` (call
`i` is not at that point).  The function `embedText(text)`:
```
try {
  const extractor = await loadEmbedder();
  const output = await extractor(text, ...);
  return Array.from(output.data);
} catch (err) { console.error(...); return []; }
```
-/
def embedderStep (s : EmbedderState) : EmbedderEvent → Option EmbedderState
  | EmbedderEvent.call i =>
    match s.calls.get? i with
    | some CallState.notCalled =>
      let r := loadEmbedder s
      some { r.1 with calls := r.1.calls.set i r.2 }
    | _ => none
  | EmbedderEvent.pipelineResolved i =>
    match s.calls.get? i with
    | some (CallState.awaitingPipeline m) =>
      let r := loadEmbedderResume s m
      some { r.1 with calls := r.1.calls.set i r.2 }
    | _ => none
  | EmbedderEvent.pipelineRejected i =>
    match s.calls.get? i with
    | some (CallState.awaitingPipeline _) =>
      some { s with calls := s.calls.set i CallState.returnedEmpty }
    | _ => none
  | EmbedderEvent.loadEmbedderResolved i =>
    match s.calls.get? i with
    | some (CallState.awaitingLoadEmbedder m) =>
      some { s with calls := s.calls.set i (CallState.awaitingExtractor m) }
    | _ => none
  | EmbedderEvent.extractorResolved i =>
    match s.calls.get? i with
    | some (CallState.awaitingExtractor m) =>
      some { s with calls := s.calls.set i (CallState.returnedVector m) }
    | _ => none
  | EmbedderEvent.extractorRejected i =>
    match s.calls.get? i with
    | some (CallState.awaitingExtractor _) =>
      some { s with calls := s.calls.set i CallState.returnedEmpty }
    | _ => none

/-- An interleaving: the events are run in order; `none` when one of them
cannot happen. -/
def embedderRun (s : EmbedderState) : List EmbedderEvent → Option EmbedderState
  | [] => some s
  | e :: es =>
    match embedderStep s e with
    | some t => embedderRun t es
    | none => none

/-- The state of a fresh process in which `n` calls of `embedText` are going
to be made: `embedder = null`, no `pipeline(...)` call yet. -/
def embedderInit (n : Nat) : EmbedderState :=
  { embedder := none, pipelineCalls := 0, calls := List.replicate n CallState.notCalled }

/-- The event is a call of `embedText`. -/
def EmbedderEvent.isCall : EmbedderEvent → Bool
  | EmbedderEvent.call _ => true
  | _ => false

/-! ## JavaScript strings and arrays -/

/-- A UTF-16 code unit, the element of a JavaScript string (a number below
`0x10000`; nothing in the code depends on the bound). -/
abbrev CodeUnit := Nat

/-- A JavaScript string: the list of its UTF-16 code units, so that `.length`
is the length of the list. -/
abbrev JSString := List CodeUnit

/-- The JavaScript string written as the literal `s` (for literals within the
basic multilingual plane, where a character is one code unit). -/
def str (s : String) : JSString :=
  s.toList.map Char.toNat

/-- The characters matched by the regular expression class `\s` and removed by
`String.prototype.trim`: ECMAScript WhiteSpace and LineTerminator. -/
def isWhiteSpace (c : CodeUnit) : Bool :=
  c = 0x09 || c = 0x0A || c = 0x0B || c = 0x0C || c = 0x0D ||
  c = 0x20 || c = 0xA0 || c = 0x1680 ||
  (0x2000 ≤ c && c ≤ 0x200A) ||
  c = 0x2028 || c = 0x2029 || c = 0x202F || c = 0x205F ||
  c = 0x3000 || c = 0xFEFF

/-- The method `s.trim()`: leading and trailing white space removed. -/
def trim (s : JSString) : JSString :=
  (s.dropWhile isWhiteSpace).rdropWhile isWhiteSpace

/-- The method `s.includes(pat)`: `pat` occurs in `s` as a contiguous substring. -/
def includes (s pat : JSString) : Bool :=
  decide (pat <:+: s)

/-- The method `parts.join(sep)`. -/
def joinWith (sep : JSString) (parts : List JSString) : JSString :=
  sep.intercalate parts

/-- The character class `[.!?]` of the sentence-splitting regular expression. -/
def isSentenceEnd (c : CodeUnit) : Bool :=
  c = Char.toNat '.' || c = Char.toNat '!' || c = Char.toNat '?'

/-- Where the left-to-right scan of `text.split(/(?<=[.!?])\s+/)` stands. -/
inductive ScanState
  /-- The previous character (if any) is no sentence end: no separator can start here. -/
  | plain
  /-- The previous character is one of `.`, `!`, `?`: white space here starts a separator. -/
  | afterEnd
  /-- Inside a separator: the greedy `\s+` is still consuming white space. -/
  | inSeparator
  deriving DecidableEq, Repr

/-- The scan of `text.split(/(?<=[.!?])\s+/)`: `cur` is the piece collected
since the last separator.  A separator matches at a white-space character that
directly follows `.`, `!` or `?` (the lookbehind) and extends over the whole
run of white space (`\s+` is greedy); the piece before it is emitted and the
separator is left out.  At the end of the text the last piece is emitted, also
when it is empty. -/
def splitScan : ScanState → JSString → JSString → List JSString
  | _, cur, [] => [cur]
  | st, cur, c :: rest =>
    if st = ScanState.inSeparator && isWhiteSpace c then
      splitScan ScanState.inSeparator cur rest
    else if st = ScanState.afterEnd && isWhiteSpace c then
      cur :: splitScan ScanState.inSeparator [] rest
    else
      splitScan (if isSentenceEnd c then ScanState.afterEnd else ScanState.plain) (cur ++ [c]) rest

/-- The call `text.split(/(?<=[.!?])\s+/)` of `chunkText`. -/
def splitSentences (text : JSString) : List JSString :=
  splitScan ScanState.plain [] text

/-- The call `xs.slice(0, k)` for an integer `k`: a negative `k` counts from
the end of the array. -/
def slice0 {α : Type} (xs : List α) (k : Int) : List α :=
  if k < 0 then xs.take ((xs.length : Int) + k).toNat else xs.take k.toNat

section ArrayOps

variable {F : Type} [LinearOrderedField F] {α : Type}

/-- Insertion of `x` in front of the first element `y` with `cmp x y ≤ 0`. -/
def sortInsert (cmp : α → α → F) (x : α) : List α → List α
  | [] => [x]
  | y :: ys => if cmp x y ≤ 0 then x :: y :: ys else y :: sortInsert cmp x ys

/-- The method `xs.sort(cmp)` (`Array.prototype.sort` with a comparator): a
stable sort, here by insertion from the right.  For a consistent comparator
the result of a stable sort does not depend on the algorithm. -/
def arraySort (cmp : α → α → F) : List α → List α
  | [] => []
  | x :: xs => sortInsert cmp x (arraySort cmp xs)

/-- The call `Math.max(...xs)`; `none` stands for `-Infinity`, the value for an
empty argument list. -/
def mathMax (xs : List F) : Option F :=
  xs.foldl (fun m x => match m with
    | none => some x
    | some v => some (max v x)) none

/-- The comparison `m > t` for `m` a result of `Math.max`. -/
def maxGt (m : Option F) (t : F) : Bool :=
  match m with
  | none => false
  | some v => decide (t < v)

end ArrayOps

/-! ## backend/rag.js -/

/-- The state of the loop of `chunkText`: the array `chunks` and the buffer `current`. -/
structure ChunkState where
  chunks : List JSString
  current : JSString
  deriving DecidableEq, Repr

/-- The statement `if (current) chunks.push(current.trim());`. -/
def flush (chunks : List JSString) (current : JSString) : List JSString :=
  if current ≠ [] then chunks ++ [trim current] else chunks

/-- One iteration of the loop `for (const s of sentences)` of `chunkText`. -/
def chunkStep (maxChars : Int) (st : ChunkState) (s : JSString) : ChunkState :=
  if ((st.current ++ (str " ") ++ s).length : Int) > maxChars then
    { chunks := flush st.chunks st.current, current := s }
  else
    { chunks := st.chunks
      current := st.current ++ ((if st.current ≠ [] then (str " ") else []) ++ s) }

/-- The loop of `chunkText` over the sentences, from `chunks = [], current = ""`,
followed by the final `if (current) chunks.push(current.trim())`. -/
def chunkSentences (sentences : List JSString) (maxChars : Int) : List JSString :=
  let st := sentences.foldl (chunkStep maxChars) { chunks := [], current := [] }
  flush st.chunks st.current

/-- The function `chunkText(text, maxChars)` of `backend/rag.js`. -/
def chunkText (text : JSString) (maxChars : Int) : List JSString :=
  chunkSentences (splitSentences text) maxChars

/-- A stored chunk `{ id, text, embedding }`. -/
structure Chunk (F : Type) where
  id : Nat
  text : JSString
  embedding : List F

/-- A retrieval result `{ id, text, score }`. -/
structure ScoredChunk (F : Type) where
  id : Nat
  text : JSString
  score : F

/-- Requests to the external generator: `generateContent([...])` with an array
of parts, or `generateContent(text)` with one string. -/
inductive GenRequest
  | parts (ps : List JSString)
  | text (p : JSString)

/-- The object returned by `answerWithRAG`. -/
structure AnswerResult (F : Type) where
  answer : JSString
  usedChunks : List (ScoredChunk F)
  fallbackUsed : Bool

section Rag

variable {F : Type} [LinearOrderedField F]

/-- The expression `chunks.map((c) => ({ id, text, score }))` of `retrieveTopKChunks`. -/
def scoreChunks (sqrt : F → F) (queryEmbedding : List F) (chunks : List (Chunk F)) :
    List (ScoredChunk F) :=
  chunks.map fun c =>
    { id := c.id, text := c.text, score := cosineSimilarity sqrt queryEmbedding c.embedding }

/-- The function `retrieveTopKChunks(queryEmbedding, chunks, k)` of `backend/rag.js`:
```
const scored = chunks.map(...);
scored.sort((a, b) => b.score - a.score);
return scored.slice(0, k);
```
-/
def retrieveTopKChunks (sqrt : F → F) (queryEmbedding : List F) (chunks : List (Chunk F))
    (k : Int) : List (ScoredChunk F) :=
  let scored := scoreChunks sqrt queryEmbedding chunks
  let sorted := arraySort (fun a b => b.score - a.score) scored
  slice0 sorted k

/-- The template of `systemPrompt` of `answerWithRAG`, before `.trim()`. -/
def systemPromptTemplate (contextBlocks : JSString) : JSString :=
  str ("\n  You are an AI Tutor for a specific textbook chapter." ++
   "\n  You must answer ONLY using the provided context chunks." ++
   "\n  If the answer is not clearly supported by the context, say:" ++
   "\n  \"I am not sure based on this chapter.\"" ++
   "\n" ++
   "\n  Context:" ++
   "\n  ") ++ contextBlocks ++ str "\n  "

/-- The template of `generalPrompt` of `answerWithRAG`. -/
def generalPromptTemplate (question : JSString) : JSString :=
  str ("\n  You are a tutor. Answer this question clearly and factually:" ++
   "\n  Q: ") ++ question ++ str "\n  A:"

/-- The note appended to a fallback answer. -/
def fallbackNote : JSString :=
  str ("\n\n*Note: This answer was generated outside the chapter context " ++
   "and may be open-ended.*")

/-- The first request of `answerWithRAG` to the generator: the query is
embedded, the top 4 chunks are retrieved and labelled `Chunk 1`, `Chunk 2`, ...
in the system prompt, which is sent together with the question. -/
def primaryRequest (sqrt : F → F) (embedText : JSString → List F) (question : JSString)
    (chunks : List (Chunk F)) : GenRequest :=
  let queryEmbedding := embedText question
  let top := retrieveTopKChunks sqrt queryEmbedding chunks 4
  let contextBlocks := joinWith (str "\n\n")
    (top.enum.map fun ic =>
      str "Chunk " ++ str (Nat.repr (ic.1 + 1)) ++ str ":\n" ++ ic.2.text)
  let systemPrompt := trim (systemPromptTemplate contextBlocks)
  GenRequest.parts
    [systemPrompt,
     (str "Question: ") ++ question ++ (str "\nAnswer in a clear, student-friendly way.")]

/-- The function `answerWithRAG(question, topicData, geminiClient)` of
`backend/rag.js`.  The embedding model (`embedText`) and the generator
(`generate`, the text of the response of `model.generateContent`) are
parameters; `chunks` is `topicData.chunks`. -/
def answerWithRAG (sqrt : F → F) (embedText : JSString → List F)
    (generate : GenRequest → JSString) (question : JSString) (chunks : List (Chunk F)) :
    AnswerResult F :=
  let queryEmbedding := embedText question
  let top := retrieveTopKChunks sqrt queryEmbedding chunks 4
  let result := generate (primaryRequest sqrt embedText question chunks)
  let answer := trim result
  let failedRAG := includes answer (str "I am not sure")
  let relevanceThreshold : F := 0.3
  let maxSimilarity := mathMax
    (chunks.map fun c => cosineSimilarity sqrt queryEmbedding c.embedding)
  if failedRAG && maxGt maxSimilarity relevanceThreshold then
    let fallbackResult := generate (GenRequest.text (generalPromptTemplate question))
    let fallbackAnswer := trim fallbackResult ++ fallbackNote
    { answer := fallbackAnswer, usedChunks := top, fallbackUsed := true }
  else
    { answer := answer, usedChunks := top, fallbackUsed := false }

end Rag

/-! ### `retrieveTopKChunks` in double arithmetic -/

/-- Insertion of `x` in front of the first element `y` with `cmp x y ≤ 0`, for
a comparator with double results. -/
def sortInsertDouble {α : Type} (cmp : α → α → Double) (x : α) : List α → List α
  | [] => [x]
  | y :: ys => if Double.nonpos (cmp x y) then x :: y :: ys else y :: sortInsertDouble cmp x ys

/-- The method `xs.sort(cmp)` for a comparator with double results, by insertion
from the right. -/
def arraySortDouble {α : Type} (cmp : α → α → Double) : List α → List α
  | [] => []
  | x :: xs => sortInsertDouble cmp x (arraySortDouble cmp xs)

/-- The expression `chunks.map((c) => ({ id, text, score }))` of
`retrieveTopKChunks` in double arithmetic. -/
def scoreChunksDouble (queryEmbedding : List Double) (chunks : List (Chunk Double)) :
    List (ScoredChunk Double) :=
  chunks.map fun c =>
    { id := c.id, text := c.text, score := cosineSimilarityDouble queryEmbedding c.embedding }

/-- The function `retrieveTopKChunks(queryEmbedding, chunks, k)` of
`backend/rag.js` in double arithmetic. -/
def retrieveTopKChunksDouble (queryEmbedding : List Double) (chunks : List (Chunk Double))
    (k : Int) : List (ScoredChunk Double) :=
  let scored := scoreChunksDouble queryEmbedding chunks
  let sorted := arraySortDouble (fun a b => Double.sub b.score a.score) scored
  slice0 sorted k

/-! ## backend/imageStore.js -/

/-- An entry of the image catalog, with its precomputed embedding. -/
structure ImageAsset (F : Type) where
  id : JSString
  title : JSString
  description : JSString
  keywords : List JSString
  topicId : JSString
  filename : JSString
  embedding : List F

/-- The module state `imageStore = { images, ready }`. -/
structure ImageStore (F : Type) where
  images : List (ImageAsset F)
  ready : Bool

/-- The two variables `best`, `bestScore` of the scan of `findBestImageForText`. -/
structure BestState (F : Type) where
  best : Option (ImageAsset F)
  bestScore : F

section Images

variable {F : Type} [LinearOrderedField F]

/-- The candidates of `findBestImageForText`:
`topicId ? images.filter((img) => img.topicId === topicId) : images`.
The argument `none` stands for `null`; an empty string is falsy as well. -/
def imageCandidates (images : List (ImageAsset F)) (topicId : Option JSString) :
    List (ImageAsset F) :=
  match topicId with
  | none => images
  | some t => if t ≠ [] then images.filter (fun img => decide (img.topicId = t)) else images

/-- One iteration of the loop `for (const img of candidates)`. -/
def bestStep (sqrt : F → F) (queryEmbedding : List F) (st : BestState F) (img : ImageAsset F) :
    BestState F :=
  let score := cosineSimilarity sqrt queryEmbedding img.embedding
  if score > st.bestScore then { best := some img, bestScore := score } else st

/-- The function `findBestImageForText(text, topicId)` of `backend/imageStore.js`;
`none` stands for `null`. -/
def findBestImageForText (sqrt : F → F) (embedText : JSString → List F) (store : ImageStore F)
    (text : JSString) (topicId : Option JSString) : Option (ImageAsset F) :=
  if !store.ready then none
  else
    let queryEmbedding := embedText text
    let candidates := imageCandidates store.images topicId
    if candidates.length = 0 then none
    else (candidates.foldl (bestStep sqrt queryEmbedding) { best := none, bestScore := -1 }).best

end Images

/-! ## Notions used to state the properties -/

section SpecNotions

variable {F : Type} [LinearOrderedField F] {α : Type}

/-- The list `out` is `xs` sorted by descending `score` with a stable sort: it
is a rearrangement of `xs`, its scores never increase from left to right, and
for every score value the elements with that score appear in `out` in the same
order as in `xs`. -/
def StableSortedDesc (score : α → F) (xs out : List α) : Prop :=
  out.Perm xs ∧
  out.Pairwise (fun x y => score y ≤ score x) ∧
  ∀ s : F, out.filter (fun x => decide (score x = s)) = xs.filter (fun x => decide (score x = s))

end SpecNotions

/-- The scan behind `wsWords`: `cur` is the word collected so far. -/
def wordsScan : JSString → JSString → List JSString
  | cur, [] => if cur ≠ [] then [cur] else []
  | cur, c :: rest =>
    if isWhiteSpace c then
      if cur ≠ [] then cur :: wordsScan [] rest else wordsScan [] rest
    else wordsScan (cur ++ [c]) rest

/-- The words of a string: its maximal runs of characters that are not white
space, from left to right. -/
def wsWords (s : JSString) : List JSString :=
  wordsScan [] s

/-- White-space normalization: leading and trailing white space is removed and
every other run of white space becomes one space, that is, the words of the
string are joined by single spaces. -/
def normalizeSpace (s : JSString) : JSString :=
  joinWith (str " ") (wsWords s)

/-! ### Facts about `cosineSimilarity` -/

section EmbeddingsFacts

variable {F : Type} [LinearOrderedField F]

theorem cosineLoop_succ (a b : List F) (n : Nat) :
    cosineLoop a b (n + 1) = cosineStep a b (cosineLoop a b n) n := by
  simp [cosineLoop, List.range_succ, List.foldl_append]

theorem cosineLoop_dot (a b : List F) (n : Nat) :
    (cosineLoop a b n).dot = ∑ i in Finset.range n, a.getD i 0 * b.getD i 0 := by
  induction n with
  | zero => simp [cosineLoop]
  | succ n ih => rw [cosineLoop_succ, Finset.sum_range_succ, ← ih]; rfl

theorem cosineLoop_na (a b : List F) (n : Nat) :
    (cosineLoop a b n).na = ∑ i in Finset.range n, a.getD i 0 ^ 2 := by
  induction n with
  | zero => simp [cosineLoop]
  | succ n ih => rw [cosineLoop_succ, Finset.sum_range_succ, ← ih, sq]; rfl

theorem cosineLoop_nb (a b : List F) (n : Nat) :
    (cosineLoop a b n).nb = ∑ i in Finset.range n, b.getD i 0 ^ 2 := by
  induction n with
  | zero => simp [cosineLoop]
  | succ n ih => rw [cosineLoop_succ, Finset.sum_range_succ, ← ih, sq]; rfl

end EmbeddingsFacts

/-- C1. Over the reals, with `n = min(len a, len b)`, `cosineSimilarity(a, b)`
is the truncated dot product divided by the product of the square roots of the
two truncated sums of squares when both sums are non-zero, and is `0`
otherwise; in particular it is `0` when `a` or `b` is empty. -/
theorem cosineSimilarity_formula (a b : List ℝ) :
    cosineSimilarity Real.sqrt a b =
        (if (∑ i in Finset.range (min a.length b.length), a.getD i 0 ^ 2) ≠ 0 ∧
            (∑ i in Finset.range (min a.length b.length), b.getD i 0 ^ 2) ≠ 0
         then (∑ i in Finset.range (min a.length b.length), a.getD i 0 * b.getD i 0) /
            (Real.sqrt (∑ i in Finset.range (min a.length b.length), a.getD i 0 ^ 2) *
             Real.sqrt (∑ i in Finset.range (min a.length b.length), b.getD i 0 ^ 2))
         else 0) ∧
      cosineSimilarity Real.sqrt ([] : List ℝ) b = 0 ∧
      cosineSimilarity Real.sqrt a ([] : List ℝ) = 0 := by
  refine ⟨?_, ?_, ?_⟩
  · unfold cosineSimilarity
    simp only [cosineLoop_dot, cosineLoop_na, cosineLoop_nb]
    split_ifs with h1 h2 h2
    · exact absurd h1 (by tauto)
    · rfl
    · rfl
    · exact absurd h2 (by tauto)
  · simp [cosineSimilarity, cosineLoop]
  · simp [cosineSimilarity, cosineLoop]

/-! ### Facts about sorting and slicing -/

section SortFacts

variable {F : Type} [LinearOrderedField F] {α : Type}

theorem sortInsert_perm (cmp : α → α → F) (x : α) (l : List α) :
    (sortInsert cmp x l).Perm (x :: l) := by
  induction l with
  | nil => simp [sortInsert]
  | cons y ys ih =>
    simp only [sortInsert]
    split_ifs
    · exact List.Perm.refl _
    · exact (List.Perm.cons y ih).trans (List.Perm.swap x y ys)

theorem arraySort_perm (cmp : α → α → F) (l : List α) : (arraySort cmp l).Perm l := by
  induction l with
  | nil => simp [arraySort]
  | cons x xs ih =>
    simp only [arraySort]
    exact (sortInsert_perm cmp x _).trans (List.Perm.cons x ih)

theorem sortInsert_pairwise (key : α → F) (x : α) (l : List α)
    (hl : l.Pairwise (fun u v => key v ≤ key u)) :
    (sortInsert (fun u v => key v - key u) x l).Pairwise (fun u v => key v ≤ key u) := by
  induction l with
  | nil => simp [sortInsert]
  | cons y ys ih =>
    simp only [sortInsert]
    rw [List.pairwise_cons] at hl
    split_ifs with h
    · have hyx : key y ≤ key x := by linarith
      refine List.Pairwise.cons ?_ (List.Pairwise.cons hl.1 hl.2)
      intro z hz
      rcases List.mem_cons.mp hz with rfl | hz
      · exact hyx
      · exact (hl.1 z hz).trans hyx
    · have hxy : key x ≤ key y := by
        have : ¬ key y - key x ≤ 0 := h
        linarith [not_le.mp this]
      refine List.Pairwise.cons ?_ (ih hl.2)
      intro z hz
      rcases List.mem_cons.mp ((sortInsert_perm _ x ys).mem_iff.mp hz) with rfl | hz
      · exact hxy
      · exact hl.1 z hz

theorem arraySort_pairwise (key : α → F) (l : List α) :
    (arraySort (fun u v => key v - key u) l).Pairwise (fun u v => key v ≤ key u) := by
  induction l with
  | nil => simp [arraySort]
  | cons x xs ih => exact sortInsert_pairwise key x _ ih

theorem sortInsert_filter (key : α → F) (s : F) (x : α) (l : List α) :
    (sortInsert (fun u v => key v - key u) x l).filter (fun u => decide (key u = s)) =
      (x :: l).filter (fun u => decide (key u = s)) := by
  induction l with
  | nil => simp [sortInsert]
  | cons y ys ih =>
    simp only [sortInsert]
    split_ifs with h
    · rfl
    · have hxy : key x < key y := by
        have : ¬ key y - key x ≤ 0 := h
        linarith [not_le.mp this]
      rw [List.filter_cons, ih]
      by_cases hy : key y = s
      · have hx : key x ≠ s := fun hx => by rw [hx, hy] at hxy; exact lt_irrefl _ hxy
        simp [List.filter_cons, hy, hx]
      · simp [List.filter_cons, hy]

theorem arraySort_filter (key : α → F) (s : F) (l : List α) :
    (arraySort (fun u v => key v - key u) l).filter (fun u => decide (key u = s)) =
      l.filter (fun u => decide (key u = s)) := by
  induction l with
  | nil => simp [arraySort]
  | cons x xs ih =>
    simp only [arraySort]
    rw [sortInsert_filter, List.filter_cons, List.filter_cons, ih]

theorem arraySort_stableSortedDesc (key : α → F) (l : List α) :
    StableSortedDesc key l (arraySort (fun u v => key v - key u) l) :=
  ⟨arraySort_perm _ l, arraySort_pairwise key l, fun s => arraySort_filter key s l⟩

/-- Two lists sorted by descending key that agree, for every key value, on the
sublist of elements with that key are equal. -/
theorem eq_of_pairwise_of_filter_eq (key : α → F) :
    ∀ l₁ l₂ : List α,
      l₁.Pairwise (fun u v => key v ≤ key u) → l₂.Pairwise (fun u v => key v ≤ key u) →
      (∀ s : F, l₁.filter (fun u => decide (key u = s)) =
        l₂.filter (fun u => decide (key u = s))) → l₁ = l₂ := by
  intro l₁
  induction l₁ with
  | nil =>
    intro l₂ _ _ hf
    cases l₂ with
    | nil => rfl
    | cons y t => have := hf (key y); simp at this
  | cons x t₁ ih =>
    intro l₂ h₁ h₂ hf
    cases l₂ with
    | nil => have := hf (key x); simp at this
    | cons y t₂ =>
      rw [List.pairwise_cons] at h₁ h₂
      have hxmem : x ∈ y :: t₂ := by
        have : x ∈ (y :: t₂).filter (fun u => decide (key u = key x)) := by
          rw [← hf (key x)]; simp
        exact (List.mem_filter.mp this).1
      have hymem : y ∈ x :: t₁ := by
        have : y ∈ (x :: t₁).filter (fun u => decide (key u = key y)) := by
          rw [hf (key y)]; simp
        exact (List.mem_filter.mp this).1
      have hxy : key x ≤ key y := by
        rcases List.mem_cons.mp hxmem with h | h
        · rw [h]
        · exact h₂.1 x h
      have hyx : key y ≤ key x := by
        rcases List.mem_cons.mp hymem with h | h
        · rw [h]
        · exact h₁.1 y h
      have hk : key y = key x := le_antisymm hyx hxy
      have hhead := hf (key x)
      simp only [List.filter_cons, hk, decide_True, if_true] at hhead
      have hx : x = y := (List.cons.inj hhead).1
      subst hx
      congr 1
      apply ih t₂ h₁.2 h₂.2
      intro s
      have := hf s
      simp only [List.filter_cons] at this
      split_ifs at this with hs
      · exact (List.cons.inj this).2
      · exact this

theorem length_slice0_le {β : Type} (xs : List β) (k : Int) : (slice0 xs k).length ≤ xs.length := by
  unfold slice0
  split_ifs <;> simp [List.length_take]

theorem slice0_of_nonneg {β : Type} (xs : List β) (k : Int) (hk : 0 ≤ k) :
    slice0 xs k = xs.take k.toNat := by
  unfold slice0
  rw [if_neg (not_lt.mpr hk)]

theorem slice0_sublist {β : Type} (xs : List β) (k : Int) : (slice0 xs k).Sublist xs := by
  unfold slice0
  split_ifs <;> exact List.take_sublist _ _

end SortFacts

theorem cosineSimilarity_abs_le_one (a b : List ℝ) : |cosineSimilarity Real.sqrt a b| ≤ 1 := by
  unfold cosineSimilarity
  simp only [cosineLoop_dot, cosineLoop_na, cosineLoop_nb]
  set n := min a.length b.length
  set D := ∑ i in Finset.range n, a.getD i 0 * b.getD i 0
  set A := ∑ i in Finset.range n, a.getD i 0 ^ 2
  set B := ∑ i in Finset.range n, b.getD i 0 ^ 2
  split_ifs with h
  · simp
  · have hA0 : 0 ≤ A := Finset.sum_nonneg fun i _ => sq_nonneg _
    have hB0 : 0 ≤ B := Finset.sum_nonneg fun i _ => sq_nonneg _
    have hA : 0 < A := lt_of_le_of_ne hA0 (fun e => h (Or.inl e.symm))
    have hB : 0 < B := lt_of_le_of_ne hB0 (fun e => h (Or.inr e.symm))
    have hcs : D ^ 2 ≤ A * B := Finset.sum_mul_sq_le_sq_mul_sq _ _ _
    have hD : |D| ≤ Real.sqrt A * Real.sqrt B := by
      rw [← Real.sqrt_mul hA0]
      exact Real.abs_le_sqrt hcs
    have hpos : 0 < Real.sqrt A * Real.sqrt B :=
      mul_pos (Real.sqrt_pos.mpr hA) (Real.sqrt_pos.mpr hB)
    rw [abs_div, abs_of_pos hpos]
    exact (div_le_one hpos).mpr hD

theorem mem_retrieveTopKChunks {F : Type} [LinearOrderedField F] (sqrt : F → F) (q : List F)
    (chunks : List (Chunk F)) (k : Int) (r : ScoredChunk F)
    (hr : r ∈ retrieveTopKChunks sqrt q chunks k) :
    ∃ c ∈ chunks, r = { id := c.id, text := c.text, score := cosineSimilarity sqrt q c.embedding } := by
  unfold retrieveTopKChunks at hr
  have h1 := (slice0_sublist _ k).subset hr
  have h2 := (arraySort_perm _ _).mem_iff.mp h1
  unfold scoreChunks at h2
  obtain ⟨c, hc, rfl⟩ := List.mem_map.mp h2
  exact ⟨c, hc, rfl⟩

/-- In exact real arithmetic `cosineSimilarity(a, b)` lies in `[-1, 1]` for
vectors of any lengths, and so does every score in a result of
`retrieveTopKChunks`.  (In the doubles the code computes with, the value can
leave the interval by rounding or be `NaN`.) -/
theorem cosineSimilarity_mem_Icc (a b q : List ℝ) (chunks : List (Chunk ℝ)) (k : Int) :
    (-1 ≤ cosineSimilarity Real.sqrt a b ∧ cosineSimilarity Real.sqrt a b ≤ 1) ∧
      ∀ r ∈ retrieveTopKChunks Real.sqrt q chunks k, -1 ≤ r.score ∧ r.score ≤ 1 := by
  refine ⟨abs_le.mp (cosineSimilarity_abs_le_one a b), ?_⟩
  intro r hr
  obtain ⟨c, _, rfl⟩ := mem_retrieveTopKChunks Real.sqrt q chunks k r hr
  exact abs_le.mp (cosineSimilarity_abs_le_one q c.embedding)

/-- In exact real arithmetic, a vector with at least one non-zero component
has cosine similarity exactly `1` with itself.  (In the doubles the code
computes with, the value is only close to `1`, and is `0` or `NaN` when the sum
of squares underflows or overflows.) -/
theorem cosineSimilarity_self (a : List ℝ) (h : ∃ x ∈ a, x ≠ 0) :
    cosineSimilarity Real.sqrt a a = 1 := by
  obtain ⟨x, hx, hx0⟩ := h
  obtain ⟨i, hi, rfl⟩ := List.getElem_of_mem hx
  unfold cosineSimilarity
  simp only [cosineLoop_dot, cosineLoop_na, cosineLoop_nb, min_self]
  have hA0 : 0 ≤ ∑ j in Finset.range a.length, a.getD j 0 ^ 2 :=
    Finset.sum_nonneg fun j _ => sq_nonneg _
  have hpos : 0 < ∑ j in Finset.range a.length, a.getD j 0 ^ 2 := by
    apply Finset.sum_pos' (fun j _ => sq_nonneg _)
    refine ⟨i, Finset.mem_range.mpr hi, ?_⟩
    rw [List.getD_eq_getElem _ _ hi]
    positivity
  have hdot : ∑ j in Finset.range a.length, a.getD j 0 * a.getD j 0 =
      ∑ j in Finset.range a.length, a.getD j 0 ^ 2 :=
    Finset.sum_congr rfl fun j _ => (sq _).symm
  rw [hdot, if_neg (fun h => hpos.ne' (h.elim id id)), Real.mul_self_sqrt hA0]
  exact div_self hpos.ne'

theorem cosineSimilarity_self_witness :
    (∃ x ∈ ([3, 4] : List ℝ), x ≠ 0) ∧ cosineSimilarity Real.sqrt ([3, 4] : List ℝ) [3, 4] = 1 :=
  ⟨⟨3, by simp, by norm_num⟩, cosineSimilarity_self [3, 4] ⟨3, by simp, by norm_num⟩⟩

/-- C2. For `k ≥ 0`, `retrieveTopKChunks(query, chunks, k)` is the first `k`
elements of the stable descending sort of the scored chunks, where each scored
chunk carries the id and the text of its chunk and the cosine similarity of the
query to its embedding; that sorted list is unique, and all of it is returned
when `chunks` has at most `k` (in particular fewer than `k`) elements. -/
theorem retrieveTopKChunks_topK (q : List ℝ) (chunks : List (Chunk ℝ)) (k : Int) (hk : 0 ≤ k) :
    ∃ sorted : List (ScoredChunk ℝ),
      StableSortedDesc ScoredChunk.score
        (chunks.map fun c =>
          { id := c.id, text := c.text, score := cosineSimilarity Real.sqrt q c.embedding })
        sorted ∧
      (∀ other : List (ScoredChunk ℝ),
        StableSortedDesc ScoredChunk.score
          (chunks.map fun c =>
            { id := c.id, text := c.text, score := cosineSimilarity Real.sqrt q c.embedding })
          other → other = sorted) ∧
      retrieveTopKChunks Real.sqrt q chunks k = sorted.take k.toNat ∧
      ((chunks.length : Int) ≤ k → retrieveTopKChunks Real.sqrt q chunks k = sorted) := by
  refine ⟨arraySort (fun a b => b.score - a.score) (scoreChunks Real.sqrt q chunks),
    arraySort_stableSortedDesc ScoredChunk.score _, ?_, ?_, ?_⟩
  · intro other ho
    have hs := arraySort_stableSortedDesc ScoredChunk.score (scoreChunks Real.sqrt q chunks)
    apply eq_of_pairwise_of_filter_eq ScoredChunk.score _ _ ho.2.1 hs.2.1
    intro s
    rw [ho.2.2 s, hs.2.2 s]
    rfl
  · unfold retrieveTopKChunks
    exact slice0_of_nonneg _ k hk
  · intro hlen
    unfold retrieveTopKChunks
    simp only
    rw [slice0_of_nonneg _ k hk]
    apply List.take_of_length_le
    rw [(arraySort_perm _ _).length_eq]
    simp only [scoreChunks, List.length_map]
    omega

theorem cos_one_one : cosineSimilarity Real.sqrt ([1] : List ℝ) [1] = 1 := by
  simp [cosineSimilarity, cosineLoop, cosineStep, List.range_succ]

theorem cos_one_zero : cosineSimilarity Real.sqrt ([1] : List ℝ) [0] = 0 := by
  simp [cosineSimilarity, cosineLoop, cosineStep, List.range_succ]

theorem retrieveTopKChunks_topK_witness :
    (0 : Int) ≤ 1 ∧
    retrieveTopKChunks Real.sqrt ([1] : List ℝ)
      [{ id := 0, text := (str "a"), embedding := [0] },
       { id := 1, text := (str "b"), embedding := [1] }] 1 =
      [{ id := 1, text := (str "b"), score := 1 }] := by
  refine ⟨by decide, ?_⟩
  obtain ⟨sorted, _, huniq, htake, _⟩ := retrieveTopKChunks_topK ([1] : List ℝ)
    [{ id := 0, text := (str "a"), embedding := [0] },
     { id := 1, text := (str "b"), embedding := [1] }] 1 (by decide)
  have hs : ([{ id := 1, text := (str "b"), score := 1 },
      { id := 0, text := (str "a"), score := 0 }] : List (ScoredChunk ℝ)) = sorted := by
    apply huniq
    refine ⟨?_, ?_, ?_⟩
    · simp only [List.map, cos_one_one, cos_one_zero]
      exact List.Perm.swap _ _ _
    · simp
    · intro s
      simp only [List.map, cos_one_one, cos_one_zero, List.filter_cons, List.filter_nil]
      by_cases h1 : (1 : ℝ) = s
      · have h0 : ¬ (0 : ℝ) = s := by rw [← h1]; norm_num
        simp [h1, h0]
      · simp [h1]
  rw [htake, ← hs]
  rfl

/-- C3 (amended). For every integer `k` the scores of the results of
`retrieveTopKChunks` never increase along the returned order and there are at
most `len(chunks)` results; for `k ≥ 0` there are at most `min(k, len(chunks))`
results. -/
theorem retrieveTopKChunks_bounded_sorted (q : List ℝ) (chunks : List (Chunk ℝ)) (k : Int) :
    (retrieveTopKChunks Real.sqrt q chunks k).Pairwise (fun x y => y.score ≤ x.score) ∧
      (retrieveTopKChunks Real.sqrt q chunks k).length ≤ chunks.length ∧
      (0 ≤ k →
        ((retrieveTopKChunks Real.sqrt q chunks k).length : Int) ≤ min k (chunks.length : Int)) := by
  have hlen : (arraySort (fun a b : ScoredChunk ℝ => b.score - a.score)
      (scoreChunks Real.sqrt q chunks)).length = chunks.length := by
    rw [(arraySort_perm _ _).length_eq]
    simp [scoreChunks]
  refine ⟨?_, ?_, ?_⟩
  · unfold retrieveTopKChunks
    exact (arraySort_pairwise ScoredChunk.score _).sublist (slice0_sublist _ k)
  · unfold retrieveTopKChunks
    exact (length_slice0_le _ k).trans hlen.le
  · intro hk
    unfold retrieveTopKChunks
    simp only
    rw [slice0_of_nonneg _ k hk, List.length_take, hlen]
    omega

theorem retrieveTopKChunks_bounded_sorted_witness :
    ((retrieveTopKChunks Real.sqrt ([1] : List ℝ)
      [{ id := 0, text := [], embedding := [1] }, { id := 1, text := [], embedding := [1] }]
      1).length : Int) ≤ min 1 2 :=
  (retrieveTopKChunks_bounded_sorted ([1] : List ℝ)
    [{ id := 0, text := [], embedding := [1] }, { id := 1, text := [], embedding := [1] }]
    1).2.2 (by decide)

/-- C3 fails as stated for a negative `k`: with two chunks and `k = -1`,
`slice(0, -1)` returns one result, which is more than `min(-1, 2) = -1`. -/
theorem retrieveTopKChunks_negative_k :
    (retrieveTopKChunks Real.sqrt ([1] : List ℝ)
      [{ id := 0, text := [], embedding := [1] }, { id := 1, text := [], embedding := [1] }]
      (-1)).length = 1 ∧
    ¬ ((retrieveTopKChunks Real.sqrt ([1] : List ℝ)
      [{ id := 0, text := [], embedding := [1] }, { id := 1, text := [], embedding := [1] }]
      (-1)).length : Int) ≤ min (-1) 2 := by
  have hlen : (arraySort (fun a b : ScoredChunk ℝ => b.score - a.score)
      (scoreChunks Real.sqrt ([1] : List ℝ)
        [{ id := 0, text := [], embedding := [1] },
         { id := 1, text := [], embedding := [1] }])).length = 2 := by
    rw [(arraySort_perm _ _).length_eq]
    simp [scoreChunks]
  have h1 : (retrieveTopKChunks Real.sqrt ([1] : List ℝ)
      [{ id := 0, text := [], embedding := [1] }, { id := 1, text := [], embedding := [1] }]
      (-1)).length = 1 := by
    unfold retrieveTopKChunks slice0
    simp only
    rw [if_pos (by decide), List.length_take, hlen]
    decide
  refine ⟨h1, ?_⟩
  rw [h1]
  decide

theorem maxGt_foldl {F : Type} [LinearOrderedField F] (t : F) (xs : List F) (m : Option F) :
    maxGt (xs.foldl (fun m x => match m with
      | none => some x
      | some v => some (max v x)) m) t = true ↔ (maxGt m t = true ∨ ∃ x ∈ xs, t < x) := by
  induction xs generalizing m with
  | nil => simp
  | cons y ys ih =>
    rw [List.foldl_cons, ih]
    cases m with
    | none => simp [maxGt]
    | some v =>
      simp only [maxGt, decide_eq_true_eq, lt_max_iff, List.mem_cons, exists_eq_or_imp]
      tauto

theorem maxGt_mathMax {F : Type} [LinearOrderedField F] (t : F) (xs : List F) :
    maxGt (mathMax xs) t = true ↔ ∃ x ∈ xs, t < x := by
  unfold mathMax
  rw [maxGt_foldl]
  simp [maxGt]

theorem answerWithRAG_fallbackUsed {F : Type} [LinearOrderedField F] (sqrt : F → F)
    (embedText : JSString → List F) (generate : GenRequest → JSString) (question : JSString)
    (chunks : List (Chunk F)) :
    (answerWithRAG sqrt embedText generate question chunks).fallbackUsed =
      (includes (trim (generate (primaryRequest sqrt embedText question chunks)))
          (str "I am not sure") &&
        maxGt (mathMax (chunks.map fun c =>
          cosineSimilarity sqrt (embedText question) c.embedding)) 0.3) := by
  unfold answerWithRAG
  simp only
  split_ifs with h
  · exact h.symm
  · exact ((Bool.not_eq_true _).mp h).symm

theorem answerWithRAG_answer_of_not_fallback {F : Type} [LinearOrderedField F] (sqrt : F → F)
    (embedText : JSString → List F) (generate : GenRequest → JSString) (question : JSString)
    (chunks : List (Chunk F))
    (h : (answerWithRAG sqrt embedText generate question chunks).fallbackUsed = false) :
    (answerWithRAG sqrt embedText generate question chunks).answer =
      trim (generate (primaryRequest sqrt embedText question chunks)) := by
  unfold answerWithRAG at h ⊢
  simp only at h ⊢
  split_ifs at h ⊢ with hc
  rfl

/-- C4 (amended). `answerWithRAG` returns `fallbackUsed = true` if and only if
the trimmed primary answer contains `"I am not sure"` as a substring and some
chunk of the topic (any chunk, not only the top 4) has cosine similarity to the
question embedding strictly greater than 0.3, that is, the topic has a chunk
and the maximum similarity exceeds 0.3; when `fallbackUsed = false` the
returned answer is the trimmed primary answer. -/
theorem answerWithRAG_fallback_iff (embedText : JSString → List ℝ)
    (generate : GenRequest → JSString) (question : JSString) (chunks : List (Chunk ℝ)) :
    ((answerWithRAG Real.sqrt embedText generate question chunks).fallbackUsed = true ↔
      (includes (trim (generate (primaryRequest Real.sqrt embedText question chunks)))
          (str "I am not sure") = true ∧
        ∃ c ∈ chunks, (0.3 : ℝ) < cosineSimilarity Real.sqrt (embedText question) c.embedding)) ∧
    ((answerWithRAG Real.sqrt embedText generate question chunks).fallbackUsed = false →
      (answerWithRAG Real.sqrt embedText generate question chunks).answer =
        trim (generate (primaryRequest Real.sqrt embedText question chunks))) := by
  refine ⟨?_, answerWithRAG_answer_of_not_fallback Real.sqrt embedText generate question chunks⟩
  rw [answerWithRAG_fallbackUsed, Bool.and_eq_true, maxGt_mathMax]
  simp only [List.mem_map, exists_exists_and_eq_and]

theorem answerWithRAG_fallback_iff_witness :
    (answerWithRAG Real.sqrt (fun _ => ([1] : List ℝ)) (fun _ => (str "I do not know."))
        (str "Why?") [{ id := 0, text := (str "a"), embedding := [1] }]).fallbackUsed = false ∧
      (answerWithRAG Real.sqrt (fun _ => ([1] : List ℝ)) (fun _ => (str "I do not know."))
        (str "Why?") [{ id := 0, text := (str "a"), embedding := [1] }]).answer =
        (str "I do not know.") := by
  have hf : (answerWithRAG Real.sqrt (fun _ => ([1] : List ℝ)) (fun _ => (str "I do not know."))
      (str "Why?") [{ id := 0, text := (str "a"), embedding := [1] }]).fallbackUsed = false := by
    rw [answerWithRAG_fallbackUsed]
    have : includes (trim (str "I do not know.")) (str "I am not sure") = false := by decide
    show (includes (trim (str "I do not know.")) (str "I am not sure") && _) = false
    rw [this]
    rfl
  refine ⟨hf, ?_⟩
  rw [(answerWithRAG_fallback_iff (fun _ => ([1] : List ℝ)) (fun _ => (str "I do not know."))
    (str "Why?") [{ id := 0, text := (str "a"), embedding := [1] }]).2 hf]
  decide

/-- C4 fails as stated: the code looks for `"I am not sure"`, not for the whole
refusal phrase.  The topic has one chunk, of similarity 1 to the question, and
the generator answers `"I am not sure."` to every request: the fallback is
used, although the trimmed primary answer `"I am not sure."` does not contain
`"I am not sure based on this chapter."`, so that (a) and (b) do not both hold. -/
theorem answerWithRAG_short_refusal :
    (answerWithRAG Real.sqrt (fun _ => ([1] : List ℝ)) (fun _ => str "I am not sure.")
        (str "Why?") [{ id := 0, text := str "a", embedding := [1] }]).fallbackUsed = true ∧
      ¬ (includes (trim (str "I am not sure.")) (str "I am not sure based on this chapter.") = true ∧
          ∃ c ∈ ([{ id := 0, text := str "a", embedding := [1] }] : List (Chunk ℝ)),
            (0.3 : ℝ) < cosineSimilarity Real.sqrt ([1] : List ℝ) c.embedding) := by
  constructor
  · rw [answerWithRAG_fallbackUsed, Bool.and_eq_true, maxGt_mathMax]
    refine ⟨by decide, ?_⟩
    simp only [List.map, List.mem_singleton, exists_eq_left, cos_one_one]
    norm_num
  · intro h
    have ha := h.1
    revert ha
    decide

theorem cos_one_neg_one : cosineSimilarity Real.sqrt ([1] : List ℝ) [-1] = -1 := by
  simp [cosineSimilarity, cosineLoop, cosineStep, List.range_succ]

/-- C5, at the failing input: the catalog holds one asset of topic `sound`
whose embedding `[-1]` is opposite to the query embedding `[1]`.  The candidate
list is not empty, the only score is `-1`, which is not greater than the
initial `bestScore = -1`, and `findBestImageForText` returns `null`. -/
theorem findBestImageForText_opposite :
    imageCandidates
        ([{ id := (str "img1"), title := [], description := [], keywords := [],
            topicId := (str "sound"), filename := [], embedding := [-1] }] :
          List (ImageAsset ℝ)) (some (str "sound")) ≠ [] ∧
      findBestImageForText Real.sqrt (fun _ => ([1] : List ℝ))
        { images := [{ id := (str "img1"), title := [], description := [], keywords := [],
                       topicId := (str "sound"), filename := [], embedding := [-1] }],
          ready := true }
        (str "wave") (some (str "sound")) = none := by
  have hc : imageCandidates
      ([{ id := (str "img1"), title := [], description := [], keywords := [],
          topicId := (str "sound"), filename := [], embedding := [-1] }] :
        List (ImageAsset ℝ)) (some (str "sound")) =
      [{ id := (str "img1"), title := [], description := [], keywords := [],
         topicId := (str "sound"), filename := [], embedding := [-1] }] := by
    unfold imageCandidates
    simp only
    rw [if_pos (by decide), List.filter_cons_of_pos (by simp), List.filter_nil]
  refine ⟨by rw [hc]; exact List.cons_ne_nil _ _, ?_⟩
  unfold findBestImageForText
  simp only [Bool.not_true, Bool.false_eq_true, if_false, hc, List.length_singleton,
    one_ne_zero, List.foldl_cons, List.foldl_nil, bestStep, cos_one_neg_one, gt_iff_lt,
    lt_irrefl]

section ImageFacts

variable {F : Type} [LinearOrderedField F]

theorem foldl_bestStep_of_le (sqrt : F → F) (q : List F) (l : List (ImageAsset F))
    (st : BestState F) (h : ∀ c ∈ l, cosineSimilarity sqrt q c.embedding ≤ st.bestScore) :
    l.foldl (bestStep sqrt q) st = st := by
  induction l with
  | nil => rfl
  | cons c l ih =>
    have hc : ¬ cosineSimilarity sqrt q c.embedding > st.bestScore :=
      not_lt.mpr (h c (List.mem_cons_self _ _))
    rw [List.foldl_cons]
    simp only [bestStep, if_neg hc]
    exact ih fun c' hc' => h c' (List.mem_cons_of_mem _ hc')

theorem foldl_bestStep_of_lt (sqrt : F → F) (q : List F) (l : List (ImageAsset F)) :
    ∀ st : BestState F, (∃ c ∈ l, st.bestScore < cosineSimilarity sqrt q c.embedding) →
      ∃ pre img post, l = pre ++ img :: post ∧
        (l.foldl (bestStep sqrt q) st).best = some img ∧
        st.bestScore < cosineSimilarity sqrt q img.embedding ∧
        (∀ c ∈ pre, cosineSimilarity sqrt q c.embedding < cosineSimilarity sqrt q img.embedding) ∧
        (∀ c ∈ post, cosineSimilarity sqrt q c.embedding ≤ cosineSimilarity sqrt q img.embedding) := by
  induction l with
  | nil => intro st h; obtain ⟨c, hc, _⟩ := h; cases hc
  | cons c l ih =>
    intro st h
    rw [List.foldl_cons]
    by_cases hc : cosineSimilarity sqrt q c.embedding > st.bestScore
    · simp only [bestStep, if_pos hc]
      by_cases hl : ∃ c' ∈ l, cosineSimilarity sqrt q c.embedding <
          cosineSimilarity sqrt q c'.embedding
      · obtain ⟨pre, img, post, hsplit, hbest, hlt, hpre, hpost⟩ :=
          ih { best := some c, bestScore := cosineSimilarity sqrt q c.embedding } hl
        refine ⟨c :: pre, img, post, by rw [hsplit]; rfl, hbest, lt_trans hc hlt, ?_, hpost⟩
        intro x hx
        rcases List.mem_cons.mp hx with rfl | hx
        · exact hlt
        · exact hpre x hx
      · have hle : ∀ c' ∈ l, cosineSimilarity sqrt q c'.embedding ≤
            cosineSimilarity sqrt q c.embedding := by
          intro c' hc'
          by_contra hcon
          exact hl ⟨c', hc', not_le.mp hcon⟩
        rw [foldl_bestStep_of_le sqrt q l _ hle]
        exact ⟨[], c, l, rfl, rfl, hc, fun x hx => absurd hx (List.not_mem_nil x), hle⟩
    · simp only [bestStep, if_neg hc]
      have hl : ∃ c' ∈ l, st.bestScore < cosineSimilarity sqrt q c'.embedding := by
        obtain ⟨c', hc', hlt⟩ := h
        rcases List.mem_cons.mp hc' with rfl | hc'
        · exact absurd hlt hc
        · exact ⟨c', hc', hlt⟩
      obtain ⟨pre, img, post, hsplit, hbest, hlt, hpre, hpost⟩ := ih st hl
      refine ⟨c :: pre, img, post, by rw [hsplit]; rfl, hbest, hlt, ?_, hpost⟩
      intro x hx
      rcases List.mem_cons.mp hx with rfl | hx
      · exact lt_of_le_of_lt (not_lt.mp hc) hlt
      · exact hpre x hx

/-- When the store is ready and some candidate scores above `-1`,
`findBestImageForText` returns the first candidate, in catalog order, whose
score is maximal among the candidates. -/
theorem findBestImageForText_first_max (sqrt : F → F) (embedText : JSString → List F)
    (store : ImageStore F) (hready : store.ready = true) (text : JSString)
    (topicId : Option JSString)
    (h : ∃ c ∈ imageCandidates store.images topicId,
      -1 < cosineSimilarity sqrt (embedText text) c.embedding) :
    ∃ pre img post, imageCandidates store.images topicId = pre ++ img :: post ∧
      findBestImageForText sqrt embedText store text topicId = some img ∧
      (∀ c ∈ pre, cosineSimilarity sqrt (embedText text) c.embedding <
        cosineSimilarity sqrt (embedText text) img.embedding) ∧
      (∀ c ∈ post, cosineSimilarity sqrt (embedText text) c.embedding ≤
        cosineSimilarity sqrt (embedText text) img.embedding) := by
  obtain ⟨pre, img, post, hsplit, hbest, _, hpre, hpost⟩ :=
    foldl_bestStep_of_lt sqrt (embedText text) (imageCandidates store.images topicId)
      { best := none, bestScore := -1 } h
  refine ⟨pre, img, post, hsplit, ?_, hpre, hpost⟩
  have hne : ¬ (imageCandidates store.images topicId).length = 0 := by
    rw [hsplit]; simp
  unfold findBestImageForText
  simp only [hready, Bool.not_true, Bool.false_eq_true, if_false, if_neg hne]
  exact hbest

end ImageFacts

/-- For a ready store over the reals, `findBestImageForText` returns `null`
exactly when every candidate (if any) has cosine similarity `-1` to the query. -/
theorem findBestImageForText_eq_none_iff (embedText : JSString → List ℝ)
    (store : ImageStore ℝ) (hready : store.ready = true) (text : JSString)
    (topicId : Option JSString) :
    findBestImageForText Real.sqrt embedText store text topicId = none ↔
      ∀ c ∈ imageCandidates store.images topicId,
        cosineSimilarity Real.sqrt (embedText text) c.embedding = -1 := by
  constructor
  · intro hnone c hc
    by_contra hne
    have hge : -1 ≤ cosineSimilarity Real.sqrt (embedText text) c.embedding :=
      (abs_le.mp (cosineSimilarity_abs_le_one _ _)).1
    obtain ⟨_, img, _, _, hsome, _⟩ :=
      findBestImageForText_first_max Real.sqrt embedText store hready text topicId
        ⟨c, hc, lt_of_le_of_ne hge (Ne.symm hne)⟩
    rw [hnone] at hsome
    cases hsome
  · intro hall
    unfold findBestImageForText
    simp only [hready, Bool.not_true, Bool.false_eq_true, if_false]
    split_ifs
    · rfl
    · rw [foldl_bestStep_of_le Real.sqrt (embedText text) _ _ (fun c hc => (hall c hc).le)]

section CandidateFacts

variable {F : Type} [LinearOrderedField F]

/-- With no candidate, `findBestImageForText` returns `null`. -/
theorem findBestImageForText_no_candidate (sqrt : F → F) (embedText : JSString → List F)
    (store : ImageStore F) (text : JSString) (topicId : Option JSString)
    (h : imageCandidates store.images topicId = []) :
    findBestImageForText sqrt embedText store text topicId = none := by
  unfold findBestImageForText
  simp only [h, List.length_nil, if_true]
  split_ifs <;> rfl

end CandidateFacts

/-- The candidates for a non-empty `topicId` are the assets of that topic, in
catalog order; without a `topicId` they are the whole catalog. -/
theorem imageCandidates_spec {F : Type} (images : List (ImageAsset F)) (t : JSString) (ht : t ≠ []) :
    imageCandidates images (some t) = images.filter (fun img => decide (img.topicId = t)) ∧
      imageCandidates images none = images ∧
      imageCandidates images (some []) = images := by
  refine ⟨?_, rfl, ?_⟩
  · unfold imageCandidates
    simp only [if_pos ht]
  · unfold imageCandidates
    simp

/-! ### Facts about `chunkText` -/

theorem length_trim_le (s : JSString) : (trim s).length ≤ s.length := by
  unfold trim
  exact (List.rdropWhile_prefix isWhiteSpace _).length_le.trans
    (List.dropWhile_sublist isWhiteSpace).length_le

theorem flush_bounded (maxChars : Int) (S : List JSString) (chunks : List JSString)
    (cur : JSString)
    (hch : ∀ c ∈ chunks, (c.length : Int) ≤ maxChars ∨
      ∃ s ∈ S, maxChars < (s.length : Int) ∧ c = trim s)
    (hcur : cur = [] ∨ (cur.length : Int) ≤ maxChars ∨ cur ∈ S) :
    ∀ c ∈ flush chunks cur, (c.length : Int) ≤ maxChars ∨
      ∃ s ∈ S, maxChars < (s.length : Int) ∧ c = trim s := by
  intro c hc
  unfold flush at hc
  split_ifs at hc with hne
  · rcases List.mem_append.mp hc with h | h
    · exact hch c h
    · rw [List.mem_singleton] at h
      subst h
      have hlen : ((trim cur).length : Int) ≤ (cur.length : Int) := by
        exact_mod_cast length_trim_le cur
      by_cases hle : (cur.length : Int) ≤ maxChars
      · exact Or.inl (hlen.trans hle)
      · rcases hcur with h | h | h
        · exact absurd h hne
        · exact absurd h hle
        · exact Or.inr ⟨cur, h, not_le.mp hle, rfl⟩
  · exact hch c hc

theorem foldl_chunkStep_bounded (maxChars : Int) (S : List JSString) :
    ∀ (l : List JSString) (st : ChunkState), (∀ s ∈ l, s ∈ S) →
      (∀ c ∈ st.chunks, (c.length : Int) ≤ maxChars ∨
        ∃ s ∈ S, maxChars < (s.length : Int) ∧ c = trim s) →
      (st.current = [] ∨ (st.current.length : Int) ≤ maxChars ∨ st.current ∈ S) →
      (∀ c ∈ (l.foldl (chunkStep maxChars) st).chunks, (c.length : Int) ≤ maxChars ∨
        ∃ s ∈ S, maxChars < (s.length : Int) ∧ c = trim s) ∧
      ((l.foldl (chunkStep maxChars) st).current = [] ∨
        ((l.foldl (chunkStep maxChars) st).current.length : Int) ≤ maxChars ∨
        (l.foldl (chunkStep maxChars) st).current ∈ S) := by
  intro l
  induction l with
  | nil => intro st _ hch hcur; exact ⟨hch, hcur⟩
  | cons s l ih =>
    intro st hl hch hcur
    rw [List.foldl_cons]
    by_cases h : ((st.current ++ (str " ") ++ s).length : Int) > maxChars
    · have hstep : chunkStep maxChars st s =
          { chunks := flush st.chunks st.current, current := s } := by
        unfold chunkStep; rw [if_pos h]
      rw [hstep]
      exact ih _ (fun x hx => hl x (List.mem_cons_of_mem _ hx))
        (flush_bounded maxChars S _ _ hch hcur)
        (Or.inr (Or.inr (hl s (List.mem_cons_self _ _))))
    · have hstep : chunkStep maxChars st s =
          { chunks := st.chunks
            current := st.current ++ ((if st.current ≠ [] then (str " ") else []) ++ s) } := by
        unfold chunkStep; rw [if_neg h]
      rw [hstep]
      refine ih _ (fun x hx => hl x (List.mem_cons_of_mem _ hx)) hch (Or.inr (Or.inl ?_))
      have h1 := not_lt.mp h
      simp only [List.length_append, Nat.cast_add] at h1 ⊢
      split_ifs
      · omega
      · simp only [List.length_nil, Nat.cast_zero, zero_add]
        have : (0 : Int) ≤ ((str " ").length : Int) := Int.natCast_nonneg _
        omega

/-- C6. Every chunk returned by `chunkText(text, maxChars)` has at most
`maxChars` characters or is exactly one sentence of the split, itself longer
than `maxChars`, kept whole (flushed through `trim` like every chunk). -/
theorem chunkText_bounded (text : JSString) (maxChars : Int) :
    ∀ c ∈ chunkText text maxChars,
      (c.length : Int) ≤ maxChars ∨
        ∃ s ∈ splitSentences text, maxChars < (s.length : Int) ∧ c = trim s := by
  unfold chunkText chunkSentences
  have h := foldl_chunkStep_bounded maxChars (splitSentences text) (splitSentences text)
    { chunks := [], current := [] } (fun s hs => hs)
    (fun c hc => absurd hc (List.not_mem_nil c)) (Or.inl rfl)
  exact flush_bounded maxChars _ _ _ h.1 h.2

theorem chunkText_bounded_witness :
    (str "aaaa") ∈ chunkText (str " aaaa") 2 ∧
      (((str "aaaa").length : Int) ≤ 2 ∨
        ∃ s ∈ splitSentences (str " aaaa"),
          (2 : Int) < (s.length : Int) ∧ (str "aaaa") = trim s) :=
  ⟨by decide, chunkText_bounded (str " aaaa") 2 (str "aaaa") (by decide)⟩


theorem wordsScan_nil (cur : JSString) :
    wordsScan cur [] = if cur ≠ [] then [cur] else [] := rfl

theorem wordsScan_cons (cur : JSString) (c : CodeUnit) (rest : JSString) :
    wordsScan cur (c :: rest) =
      if isWhiteSpace c then
        if cur ≠ [] then cur :: wordsScan [] rest else wordsScan [] rest
      else wordsScan (cur ++ [c]) rest := rfl

theorem wordsScan_append_ws (w : CodeUnit) (hw : isWhiteSpace w = true) (b : JSString) :
    ∀ (a cur : JSString), wordsScan cur (a ++ w :: b) = wordsScan cur a ++ wordsScan [] b := by
  intro a
  induction a with
  | nil =>
    intro cur
    rw [List.nil_append, wordsScan_cons, wordsScan_nil, if_pos hw]
    split_ifs <;> rfl
  | cons c a ih =>
    intro cur
    rw [List.cons_append, wordsScan_cons, wordsScan_cons]
    split_ifs
    · rw [ih]; rfl
    · rw [ih]
    · rw [ih]

theorem wordsScan_all_ws : ∀ (t cur : JSString), (∀ c ∈ t, isWhiteSpace c = true) →
    wordsScan cur t = wordsScan cur [] := by
  intro t
  induction t with
  | nil => intro cur _; rfl
  | cons c t ih =>
    intro cur h
    have hc := h c (List.mem_cons_self _ _)
    have ht : wordsScan [] t = [] := ih [] (fun x hx => h x (List.mem_cons_of_mem _ hx))
    rw [wordsScan_cons, if_pos hc, ht, wordsScan_nil]

theorem wordsScan_append_all_ws (t : JSString) (ht : ∀ c ∈ t, isWhiteSpace c = true) :
    ∀ (a cur : JSString), wordsScan cur (a ++ t) = wordsScan cur a := by
  intro a
  induction a with
  | nil => intro cur; simpa using wordsScan_all_ws t cur ht
  | cons c a ih =>
    intro cur
    rw [List.cons_append, wordsScan_cons, wordsScan_cons, ih, ih]

theorem wsWords_dropWhile (s : JSString) : wsWords (s.dropWhile isWhiteSpace) = wsWords s := by
  induction s with
  | nil => rfl
  | cons c s ih =>
    by_cases hc : isWhiteSpace c = true
    · rw [List.dropWhile_cons_of_pos hc, ih]
      simp [wsWords, wordsScan, hc]
    · rw [List.dropWhile_cons_of_neg hc]

theorem wsWords_rdropWhile (s : JSString) : wsWords (s.rdropWhile isWhiteSpace) = wsWords s := by
  have hsplit : s = s.rdropWhile isWhiteSpace ++ (s.reverse.takeWhile isWhiteSpace).reverse := by
    unfold List.rdropWhile
    rw [← List.reverse_append, List.takeWhile_append_dropWhile, List.reverse_reverse]
  have hws : ∀ c ∈ (s.reverse.takeWhile isWhiteSpace).reverse, isWhiteSpace c = true := by
    intro c hc
    exact List.mem_takeWhile_imp (List.mem_reverse.mp hc)
  conv_rhs => rw [hsplit]
  exact (wordsScan_append_all_ws _ hws _ _).symm

theorem wsWords_trim (s : JSString) : wsWords (trim s) = wsWords s := by
  unfold trim
  rw [wsWords_rdropWhile, wsWords_dropWhile]

theorem wsWords_append_space (a b : JSString) :
    wsWords (a ++ (str " ") ++ b) = wsWords a ++ wsWords b := by
  have : a ++ (str " ") ++ b = a ++ 32 :: b := by
    have h : str " " = [32] := rfl
    rw [h]; simp
  rw [this]
  exact wordsScan_append_ws 32 (by decide) b a []

theorem wsWords_nil : wsWords [] = [] := rfl

theorem joinWith_nil (sep : JSString) : joinWith sep [] = [] := rfl

theorem joinWith_singleton (sep x : JSString) : joinWith sep [x] = x := by
  simp [joinWith, List.intercalate]

theorem joinWith_cons_cons (sep x y : JSString) (l : List JSString) :
    joinWith sep (x :: y :: l) = x ++ sep ++ joinWith sep (y :: l) := by
  simp [joinWith, List.intercalate]

theorem wsWords_joinWith (l : List JSString) :
    wsWords (joinWith (str " ") l) = (l.map wsWords).flatten := by
  induction l with
  | nil => rfl
  | cons x l ih =>
    cases l with
    | nil => simp [joinWith_singleton]
    | cons y l =>
      rw [joinWith_cons_cons, wsWords_append_space, ih]
      simp

theorem wsWords_flush (chunks : List JSString) (cur : JSString) :
    ((flush chunks cur).map wsWords).flatten = (chunks.map wsWords).flatten ++ wsWords cur := by
  unfold flush
  split_ifs with h
  · simp [wsWords_trim]
  · have : cur = [] := not_not.mp h
    simp [this, wsWords_nil]

theorem wsWords_chunkStep (maxChars : Int) (st : ChunkState) (s : JSString) :
    ((chunkStep maxChars st s).chunks.map wsWords).flatten ++ wsWords (chunkStep maxChars st s).current =
      (st.chunks.map wsWords).flatten ++ wsWords st.current ++ wsWords s := by
  unfold chunkStep
  split_ifs with h hne
  · simp only [wsWords_flush]
  · simp only
    rw [← List.append_assoc st.current, wsWords_append_space, List.append_assoc]
  · have : st.current = [] := not_not.mp hne
    simp [this, wsWords_nil]

theorem wsWords_foldl_chunkStep (maxChars : Int) :
    ∀ (l : List JSString) (st : ChunkState),
      (((l.foldl (chunkStep maxChars) st).chunks.map wsWords).flatten ++
          wsWords (l.foldl (chunkStep maxChars) st).current) =
        (st.chunks.map wsWords).flatten ++ wsWords st.current ++ (l.map wsWords).flatten := by
  intro l
  induction l with
  | nil => intro st; simp
  | cons s l ih =>
    intro st
    rw [List.foldl_cons, ih, wsWords_chunkStep]
    simp

theorem wsWords_chunkSentences (sentences : List JSString) (maxChars : Int) :
    ((chunkSentences sentences maxChars).map wsWords).flatten = (sentences.map wsWords).flatten := by
  unfold chunkSentences
  simp only
  rw [wsWords_flush, wsWords_foldl_chunkStep]
  simp [wsWords_nil]

/-- C7. Joining the chunks of `chunkText(text, maxChars)` with single spaces
gives, after white-space normalization, the same string as joining the
sentences of the text with single spaces in their order; the words of the
rejoined chunks are the words of the first sentence, then those of the second,
and so on: no sentence is dropped, duplicated or reordered. -/
theorem chunkText_rejoin (text : JSString) (maxChars : Int) :
    normalizeSpace (joinWith (str " ") (chunkText text maxChars)) =
        normalizeSpace (joinWith (str " ") (splitSentences text)) ∧
      wsWords (joinWith (str " ") (chunkText text maxChars)) =
        ((splitSentences text).map wsWords).flatten := by
  have h : wsWords (joinWith (str " ") (chunkText text maxChars)) =
      ((splitSentences text).map wsWords).flatten := by
    rw [wsWords_joinWith]
    exact wsWords_chunkSentences _ _
  refine ⟨?_, h⟩
  unfold normalizeSpace
  rw [h, wsWords_joinWith]

theorem splitScan_cons (st : ScanState) (cur : JSString) (c : CodeUnit) (rest : JSString) :
    splitScan st cur (c :: rest) =
      if st = ScanState.inSeparator && isWhiteSpace c then
        splitScan ScanState.inSeparator cur rest
      else if st = ScanState.afterEnd && isWhiteSpace c then
        cur :: splitScan ScanState.inSeparator [] rest
      else
        splitScan (if isSentenceEnd c then ScanState.afterEnd else ScanState.plain)
          (cur ++ [c]) rest := rfl

/-- The scan always yields a first piece, which extends `cur`. -/
theorem splitScan_head : ∀ (t : JSString) (st : ScanState) (cur : JSString),
    ∃ p ps, splitScan st cur t = p :: ps ∧ cur.length ≤ p.length := by
  intro t
  induction t with
  | nil => intro st cur; exact ⟨cur, [], rfl, le_refl _⟩
  | cons c t ih =>
    intro st cur
    rw [splitScan_cons]
    split_ifs
    · exact ih _ _
    · exact ⟨cur, _, rfl, le_refl _⟩
    · obtain ⟨p, ps, hp, hlen⟩ := ih ScanState.afterEnd (cur ++ [c])
      exact ⟨p, ps, hp, by rw [List.length_append] at hlen; omega⟩
    · obtain ⟨p, ps, hp, hlen⟩ := ih ScanState.plain (cur ++ [c])
      exact ⟨p, ps, hp, by rw [List.length_append] at hlen; omega⟩

/-- The sentences joined by single spaces are no longer than the text. -/
theorem length_joinWith_splitScan : ∀ (t : JSString) (st : ScanState) (cur : JSString),
    (joinWith (str " ") (splitScan st cur t)).length ≤ cur.length + t.length := by
  intro t
  induction t with
  | nil => intro st cur; simp [splitScan, joinWith_singleton]
  | cons c t ih =>
    intro st cur
    rw [splitScan_cons]
    split_ifs
    · exact (ih _ _).trans (by simp)
    · obtain ⟨p, ps, hp, _⟩ := splitScan_head t ScanState.inSeparator []
      have h := ih ScanState.inSeparator []
      rw [hp] at h ⊢
      rw [joinWith_cons_cons]
      simp only [List.length_append, List.length_cons, List.length_nil] at h ⊢
      have : (str " ").length = 1 := rfl
      omega
    · refine (ih _ _).trans ?_
      simp only [List.length_append, List.length_cons, List.length_nil]
      omega
    · refine (ih _ _).trans ?_
      simp only [List.length_append, List.length_cons, List.length_nil]
      omega

theorem foldl_chunkStep_fits (maxChars : Int) :
    ∀ (l : List JSString) (cur : JSString) (chunks : List JSString), cur ≠ [] →
      ((joinWith (str " ") (cur :: l)).length : Int) ≤ maxChars →
      l.foldl (chunkStep maxChars) { chunks := chunks, current := cur } =
        { chunks := chunks, current := joinWith (str " ") (cur :: l) } := by
  intro l
  induction l with
  | nil => intro cur chunks _ _; rw [joinWith_singleton]; rfl
  | cons s l ih =>
    intro cur chunks hne hlen
    rw [joinWith_cons_cons] at hlen ⊢
    have hjoin : joinWith (str " ") ((cur ++ (str " ") ++ s) :: l) =
        cur ++ (str " ") ++ joinWith (str " ") (s :: l) := by
      cases l with
      | nil => rw [joinWith_singleton, joinWith_singleton]
      | cons y l => rw [joinWith_cons_cons, joinWith_cons_cons]; simp [List.append_assoc]
    have hs : (s.length : Int) ≤ ((joinWith (str " ") (s :: l)).length : Int) := by
      cases l with
      | nil => rw [joinWith_singleton]
      | cons y l => rw [joinWith_cons_cons]; simp only [List.length_append, Nat.cast_add]; omega
    have hstep : chunkStep maxChars { chunks := chunks, current := cur } s =
        { chunks := chunks, current := cur ++ (str " ") ++ s } := by
      unfold chunkStep
      have hfit : ¬ ((cur ++ (str " ") ++ s).length : Int) > maxChars := by
        simp only [List.length_append, Nat.cast_add] at hlen ⊢
        omega
      rw [if_neg hfit, if_pos hne, List.append_assoc]
    rw [List.foldl_cons, hstep,
      ih _ _ (fun h => hne (List.append_eq_nil.mp (List.append_eq_nil.mp h).1).1)
        (by rw [hjoin]; exact hlen), hjoin]

theorem chunkText_nil (maxChars : Int) : chunkText [] maxChars = [] := by
  have hsplit : splitSentences [] = [[]] := rfl
  unfold chunkText chunkSentences
  rw [hsplit, List.foldl_cons, List.foldl_nil]
  unfold chunkStep
  split_ifs with h hne
  · rfl
  · exact absurd rfl hne
  · rfl

/-- C8 (amended). For a non-empty text shorter than `maxChars`, `chunkText`
returns exactly one chunk: the sentences of the text joined by single spaces,
with leading and trailing white space removed; this is the trimmed text when
the text is already its sentences joined by single spaces.  For the empty text
it returns no chunk. -/
theorem chunkText_single (text : JSString) (maxChars : Int) (hne : text ≠ [])
    (hlen : (text.length : Int) < maxChars) :
    chunkText text maxChars = [trim (joinWith (str " ") (splitSentences text))] ∧
      (joinWith (str " ") (splitSentences text) = text →
        chunkText text maxChars = [trim text]) ∧
      chunkText [] maxChars = [] := by
  have hmain : chunkText text maxChars =
      [trim (joinWith (str " ") (splitSentences text))] := by
    obtain ⟨c, rest, rfl⟩ := List.exists_cons_of_ne_nil hne
    have hjlen := length_joinWith_splitScan (c :: rest) ScanState.plain []
    have hsplit : splitSentences (c :: rest) =
        splitScan (if isSentenceEnd c then ScanState.afterEnd else ScanState.plain) [c] rest := by
      unfold splitSentences
      rw [splitScan_cons]
      simp
    obtain ⟨p, ps, hp, hplen⟩ :=
      splitScan_head rest (if isSentenceEnd c then ScanState.afterEnd else ScanState.plain) [c]
    have hpne : p ≠ [] := by
      intro h; rw [h] at hplen; simp at hplen
    have hjoin : ((joinWith (str " ") (p :: ps)).length : Int) < maxChars := by
      have : (joinWith (str " ") (p :: ps)).length ≤ (c :: rest).length := by
        have h := hjlen
        unfold splitSentences at hsplit
        rw [hsplit, hp] at h
        simpa using h
      have : ((joinWith (str " ") (p :: ps)).length : Int) ≤ ((c :: rest).length : Int) := by
        exact_mod_cast this
      omega
    have hpl : (p.length : Int) ≤ ((joinWith (str " ") (p :: ps)).length : Int) := by
      cases ps with
      | nil => rw [joinWith_singleton]
      | cons y l => rw [joinWith_cons_cons]; simp only [List.length_append, Nat.cast_add]; omega
    unfold chunkText chunkSentences
    rw [hsplit, hp, List.foldl_cons]
    have hfirst : chunkStep maxChars { chunks := [], current := [] } p =
        { chunks := [], current := p } := by
      unfold chunkStep
      have hfit : ¬ ((([] : JSString) ++ (str " ") ++ p).length : Int) > maxChars := by
        simp only [List.length_append, Nat.cast_add, List.length_nil, Nat.cast_zero, zero_add]
        have : ((str " ").length : Int) = 1 := rfl
        omega
      simp only [if_neg hfit]
      simp
    rw [hfirst, foldl_chunkStep_fits maxChars ps p [] hpne hjoin.le]
    have hjne : joinWith (str " ") (p :: ps) ≠ [] := by
      intro h
      rw [h] at hpl
      simp only [List.length_nil, Nat.cast_zero] at hpl
      have : p.length = 0 := by omega
      exact hpne (List.length_eq_zero.mp this)
    simp only [flush, if_pos hjne, List.nil_append]
  refine ⟨hmain, ?_, chunkText_nil maxChars⟩
  intro h
  rw [hmain, h]

theorem chunkText_single_witness :
    (str "The sky is blue. Water is wet. Fire is hot.") ≠ [] ∧
      ((str "The sky is blue. Water is wet. Fire is hot.").length : Int) < 800 ∧
      chunkText (str "The sky is blue. Water is wet. Fire is hot.") 800 =
        [(str "The sky is blue. Water is wet. Fire is hot.")] := by
  refine ⟨by decide, by decide, ?_⟩
  rw [(chunkText_single (str "The sky is blue. Water is wet. Fire is hot.") 800
    (by decide) (by decide)).1]
  decide

/-- C8 fails as stated: the two spaces between the sentences of `"A.  B."` are
replaced by one, so the single chunk is `"A. B."` and not the trimmed text; and
the empty text, which is shorter than `maxChars = 800`, yields no chunk. -/
theorem chunkText_not_trimmed_text :
    ((str "A.  B.").length : Int) < 800 ∧
      chunkText (str "A.  B.") 800 = [(str "A. B.")] ∧
      chunkText (str "A.  B.") 800 ≠ [trim (str "A.  B.")] ∧
      ((([] : JSString).length : Int) < 800 ∧ chunkText [] 800 = []) := by
  decide

/-! ### Facts about the lazy model load -/

/-- A call of `embedText` made while `embedder` is still `null` calls
`pipeline(...)` and leaves `embedder` at `null`. -/
theorem embedderStep_call_of_null (s t : EmbedderState) (i : Nat) (hs : s.embedder = none)
    (h : embedderStep s (EmbedderEvent.call i) = some t) :
    t.embedder = none ∧ t.pipelineCalls = s.pipelineCalls + 1 := by
  simp only [embedderStep] at h
  split at h
  · simp only [loadEmbedder, hs, Option.some.injEq] at h
    subst h
    exact ⟨rfl, rfl⟩
  · cases h

/-- Calls of `embedText` that are all made before any load has completed start
one load each. -/
theorem embedderRun_calls_of_null (tr : List EmbedderEvent)
    (hcalls : ∀ e ∈ tr, e.isCall = true) :
    ∀ s t : EmbedderState, s.embedder = none → embedderRun s tr = some t →
      t.embedder = none ∧ t.pipelineCalls = s.pipelineCalls + tr.length := by
  induction tr with
  | nil =>
    intro s t hs h
    simp only [embedderRun, Option.some.injEq] at h
    subst h
    exact ⟨hs, rfl⟩
  | cons e es ih =>
    intro s t hs h
    have he := hcalls e (List.mem_cons_self _ _)
    cases e with
    | call i =>
      unfold embedderRun at h
      cases hstep : embedderStep s (EmbedderEvent.call i) with
      | none => rw [hstep] at h; cases h
      | some u =>
        rw [hstep] at h
        obtain ⟨hu, hn⟩ := embedderStep_call_of_null s u i hs hstep
        obtain ⟨ht, hm⟩ := ih (fun x hx => hcalls x (List.mem_cons_of_mem _ hx)) u t hu h
        refine ⟨ht, ?_⟩
        rw [hm, hn, List.length_cons]
        omega
    | pipelineResolved i => cases he
    | pipelineRejected i => cases he
    | loadEmbedderResolved i => cases he
    | extractorResolved i => cases he
    | extractorRejected i => cases he

/-- Once `embedder` is set, no event calls `pipeline(...)` and `embedder` stays set. -/
theorem embedderStep_of_loaded (s t : EmbedderState) (e : EmbedderEvent)
    (hs : s.embedder.isSome = true) (h : embedderStep s e = some t) :
    t.embedder.isSome = true ∧ t.pipelineCalls = s.pipelineCalls := by
  obtain ⟨m, hm⟩ := Option.isSome_iff_exists.mp hs
  cases e <;>
    (simp only [embedderStep] at h
     split at h
     · simp only [loadEmbedder, loadEmbedderResume, hm, Option.some.injEq] at h
       subst h
       simp [hm]
     · cases h)

/-- A call made after a load has completed starts no load: from a state in
which `embedder` is set, no interleaving calls `pipeline(...)` again. -/
theorem embedderRun_of_loaded (tr : List EmbedderEvent) :
    ∀ s t : EmbedderState, s.embedder.isSome = true → embedderRun s tr = some t →
      t.embedder.isSome = true ∧ t.pipelineCalls = s.pipelineCalls := by
  induction tr with
  | nil =>
    intro s t hs h
    simp only [embedderRun, Option.some.injEq] at h
    subst h
    exact ⟨hs, rfl⟩
  | cons e es ih =>
    intro s t hs h
    unfold embedderRun at h
    cases hstep : embedderStep s e with
    | none => rw [hstep] at h; cases h
    | some u =>
      rw [hstep] at h
      obtain ⟨hu, hn⟩ := embedderStep_of_loaded s u e hs hstep
      obtain ⟨ht, hm⟩ := ih u t hu h
      exact ⟨ht, hm.trans hn⟩

/-- C11, at the failing interleaving.  Two calls of `embedText` are made before
any load has completed: the second call still finds `embedder === null` and
calls `pipeline(...)` as well, so two loads are started and the late caller
awaits its own load, not the one in flight.  Run to the end, the two calls use
two different models and `embedder` keeps the one loaded last. -/
theorem embedText_two_first_calls_load_twice :
    embedderRun (embedderInit 2) [EmbedderEvent.call 0, EmbedderEvent.call 1] =
        some { embedder := none, pipelineCalls := 2,
               calls := [CallState.awaitingPipeline 0, CallState.awaitingPipeline 1] } ∧
      embedderRun (embedderInit 2)
        [EmbedderEvent.call 0, EmbedderEvent.call 1,
         EmbedderEvent.pipelineResolved 0, EmbedderEvent.pipelineResolved 1,
         EmbedderEvent.loadEmbedderResolved 0, EmbedderEvent.loadEmbedderResolved 1,
         EmbedderEvent.extractorResolved 0, EmbedderEvent.extractorResolved 1] =
        some { embedder := some 1, pipelineCalls := 2,
               calls := [CallState.returnedVector 0, CallState.returnedVector 1] } := by
  decide
theorem embedderRun_append (a b : List EmbedderEvent) :
    ∀ s : EmbedderState,
      embedderRun s (a ++ b) = (embedderRun s a).bind (fun t => embedderRun t b) := by
  induction a with
  | nil => intro s; rfl
  | cons e es ih =>
    intro s
    simp only [List.cons_append, embedderRun]
    cases embedderStep s e with
    | none => rfl
    | some u => exact ih u

/-- The first `k` of `n` calls, all made before any load has completed: each of
them has started its own load. -/
theorem embedderRun_first_calls (n k : Nat) (hk : k ≤ n) :
    embedderRun (embedderInit n) ((List.range k).map EmbedderEvent.call) =
      some { embedder := none, pipelineCalls := k,
             calls := (List.range k).map CallState.awaitingPipeline ++
               List.replicate (n - k) CallState.notCalled } := by
  induction k with
  | zero => simp [embedderRun, embedderInit]
  | succ k ih =>
    rw [List.range_succ, List.map_append, embedderRun_append, ih (Nat.le_of_succ_le hk)]
    obtain ⟨m, hm⟩ : ∃ m, n - k = m + 1 := ⟨n - k - 1, by omega⟩
    have hm2 : n - (k + 1) = m := by omega
    simp only [List.map_cons, List.map_nil, Option.some_bind, embedderRun, embedderStep]
    have hget : ((List.range k).map CallState.awaitingPipeline ++
        List.replicate (n - k) CallState.notCalled).get? k = some CallState.notCalled := by
      rw [hm, List.get?_eq_getElem?, List.getElem?_append_right (by simp)]
      simp [List.replicate_succ]
    rw [hget]
    simp only [loadEmbedder]
    rw [hm, hm2, List.set_append_right _ _ (by simp)]
    simp [List.replicate_succ]

/-- With `n` calls of `embedText` made before any load has completed,
`pipeline(...)` is called `n` times. -/
theorem embedderRun_all_first_calls (n : Nat) :
    ∃ t, embedderRun (embedderInit n) ((List.range n).map EmbedderEvent.call) = some t ∧
      t.embedder = none ∧ t.pipelineCalls = n :=
  ⟨_, embedderRun_first_calls n n (le_refl n), rfl, rfl⟩

/-! ### `cosineSimilarity` in double arithmetic -/

set_option maxRecDepth 100000 in
/-- The literals `0.8`, `1.5`, `1e-200` and `1e200` as doubles. -/
theorem double_literals :
    Double.ofFraction false 8 10 = Double.fin false 7205759403792794 (-53) ∧
      Double.ofFraction false 15 10 = Double.fin false 6755399441055744 (-52) ∧
      Double.ofFraction false 1 (10 ^ 200) =
        Double.fin false 6894565328877484 (-717) ∧
      Double.ofFraction false (10 ^ 200) 1 =
        Double.fin false 5883593420661338 612 := by
  decide

set_option maxRecDepth 100000 in
/-- In doubles `cosineSimilarity([0.8, 1.5], [0.8, 1.5])` is
`1.0000000000000002`, the double after `1`. -/
theorem cosineSimilarityDouble_self_08_15 :
    cosineSimilarityDouble
        [Double.ofFraction false 8 10, Double.ofFraction false 15 10]
        [Double.ofFraction false 8 10, Double.ofFraction false 15 10] =
      Double.fin false 4503599627370497 (-52) := by
  decide

set_option maxRecDepth 100000 in
/-- In doubles `cosineSimilarity([-0.8, -1.5], [0.8, 1.5])` is
`-1.0000000000000002`. -/
theorem cosineSimilarityDouble_opposite_08_15 :
    cosineSimilarityDouble
        [Double.ofFraction true 8 10, Double.ofFraction true 15 10]
        [Double.ofFraction false 8 10, Double.ofFraction false 15 10] =
      Double.fin true 4503599627370497 (-52) := by
  decide

set_option maxRecDepth 100000 in
/-- In doubles `cosineSimilarity([1e-200], [1e-200])` is `0`: the square
underflows to `0` and the guard `!na` fires. -/
theorem cosineSimilarityDouble_self_tiny :
    Double.mul (Double.ofFraction false 1 (10 ^ 200)) (Double.ofFraction false 1 (10 ^ 200)) =
        Double.zero ∧
      cosineSimilarityDouble [Double.ofFraction false 1 (10 ^ 200)]
        [Double.ofFraction false 1 (10 ^ 200)] = Double.zero := by
  decide

set_option maxRecDepth 100000 in
/-- In doubles `cosineSimilarity([1e200], [1e200])` is `NaN`: the square
overflows to `Infinity` and the result is `Infinity / Infinity`. -/
theorem cosineSimilarityDouble_self_huge :
    Double.mul (Double.ofFraction false (10 ^ 200) 1) (Double.ofFraction false (10 ^ 200) 1) =
        Double.inf false ∧
      cosineSimilarityDouble [Double.ofFraction false (10 ^ 200) 1]
        [Double.ofFraction false (10 ^ 200) 1] = Double.nan := by
  decide

theorem Double.not_within_nan (lo hi : ℚ) : ¬ Double.within lo hi Double.nan := by
  rintro ⟨q, hq, _⟩
  cases hq

/-- C9 fails as stated for the numbers the code computes with: in doubles
`cosineSimilarity([0.8, 1.5], [0.8, 1.5])` is `1 + 2^-52 > 1`, the value for
`([-0.8, -1.5], [0.8, 1.5])` is `-(1 + 2^-52) < -1`, and the value for
`([1e200], [1e200])` is `NaN`; none of them lies in `[-1, 1]`. -/
theorem cosineSimilarityDouble_outside_unit_interval :
    ¬ Double.within (-1) 1
        (cosineSimilarityDouble
          [Double.ofFraction false 8 10, Double.ofFraction false 15 10]
          [Double.ofFraction false 8 10, Double.ofFraction false 15 10]) ∧
      ¬ Double.within (-1) 1
        (cosineSimilarityDouble
          [Double.ofFraction true 8 10, Double.ofFraction true 15 10]
          [Double.ofFraction false 8 10, Double.ofFraction false 15 10]) ∧
      ¬ Double.within (-1) 1
        (cosineSimilarityDouble [Double.ofFraction false (10 ^ 200) 1]
          [Double.ofFraction false (10 ^ 200) 1]) := by
  refine ⟨?_, ?_, ?_⟩
  · rw [cosineSimilarityDouble_self_08_15]
    rintro ⟨q, hq, _, h1⟩
    simp only [Double.value, Option.some.injEq] at hq
    rw [← hq] at h1
    norm_num at h1
  · rw [cosineSimilarityDouble_opposite_08_15]
    rintro ⟨q, hq, h1, _⟩
    simp only [Double.value, Option.some.injEq] at hq
    rw [← hq] at h1
    norm_num at h1
  · rw [cosineSimilarityDouble_self_huge.2]
    exact Double.not_within_nan _ _

/-- C10 fails as stated for the numbers the code computes with: for the
non-zero vectors `[0.8, 1.5]`, `[1e-200]` and `[1e200]`, `cosineSimilarity(a, a)`
in doubles is `1 + 2^-52`, `0` and `NaN`, not `1`. -/
theorem cosineSimilarityDouble_self_ne_one :
    (Double.value (cosineSimilarityDouble
          [Double.ofFraction false 8 10, Double.ofFraction false 15 10]
          [Double.ofFraction false 8 10, Double.ofFraction false 15 10]) =
        some (1 + 1 / 2 ^ 52)) ∧
      (Double.value (Double.ofFraction false 1 (10 ^ 200)) ≠ some 0 ∧
        Double.value (cosineSimilarityDouble [Double.ofFraction false 1 (10 ^ 200)]
          [Double.ofFraction false 1 (10 ^ 200)]) = some 0) ∧
      (Double.value (Double.ofFraction false (10 ^ 200) 1) ≠ some 0 ∧
        Double.value (cosineSimilarityDouble [Double.ofFraction false (10 ^ 200) 1]
          [Double.ofFraction false (10 ^ 200) 1]) = none) := by
  refine ⟨?_, ⟨?_, ?_⟩, ⟨?_, ?_⟩⟩
  · rw [cosineSimilarityDouble_self_08_15]
    simp only [Double.value, Option.some.injEq]
    norm_num
  · rw [double_literals.2.2.1]
    simp only [Double.value, ne_eq, Option.some.injEq]
    norm_num
  · rw [cosineSimilarityDouble_self_tiny.2]
    simp [Double.value, Double.zero]
  · rw [double_literals.2.2.2]
    simp only [Double.value, ne_eq, Option.some.injEq]
    norm_num
  · rw [cosineSimilarityDouble_self_huge.2]
    rfl


/-! ### Rounding error analysis of the double operations -/

/-! ### Rounding to a double: error bounds -/

namespace Double

theorem bitLengthFuel_spec : ∀ (fuel n : Nat), n ≤ fuel → n ≠ 0 →
    2 ^ (bitLengthFuel fuel n - 1) ≤ n ∧ n < 2 ^ bitLengthFuel fuel n := by
  intro fuel
  induction fuel with
  | zero => intro n hn h0; omega
  | succ fuel ih =>
    intro n hn h0
    simp only [bitLengthFuel, if_neg h0]
    by_cases h2 : n / 2 = 0
    · have h1 : n = 1 := by omega
      subst h1
      cases fuel <;> simp [bitLengthFuel]
    · obtain ⟨hlo, hhi⟩ := ih (n / 2) (by omega) h2
      have hpos : 0 < bitLengthFuel fuel (n / 2) := by
        by_contra hc
        have : bitLengthFuel fuel (n / 2) = 0 := by omega
        rw [this] at hhi
        simp at hhi
        exact h2 hhi
      constructor
      · have : bitLengthFuel fuel (n / 2) + 1 - 1 = (bitLengthFuel fuel (n / 2) - 1) + 1 := by omega
        rw [this, pow_succ]
        omega
      · rw [pow_succ]
        omega

theorem bitLength_spec (n : Nat) (h0 : n ≠ 0) :
    2 ^ (bitLength n - 1) ≤ n ∧ n < 2 ^ bitLength n :=
  bitLengthFuel_spec n n (le_refl n) h0

theorem bitLength_pos (n : Nat) (h0 : n ≠ 0) : 0 < bitLength n := by
  by_contra hc
  have h := (bitLength_spec n h0).2
  have : bitLength n = 0 := by omega
  rw [this] at h
  omega

theorem le_bitLength (n k : Nat) (h : 2 ^ k ≤ n) : k + 1 ≤ bitLength n := by
  have h0 : n ≠ 0 := by
    intro hn; rw [hn] at h; have : 0 < 2 ^ k := Nat.two_pow_pos k; omega
  by_contra hc
  have hlt := (bitLength_spec n h0).2
  have : 2 ^ bitLength n ≤ 2 ^ k := Nat.pow_le_pow_right (by norm_num) (by omega)
  omega

end Double

namespace Double

theorem two_zpow_pos (e : Int) : (0 : ℝ) < (2 : ℝ) ^ e := zpow_pos (by norm_num) e

theorem two_zpow_toNat (k : Int) (hk : 0 ≤ k) : ((2 : ℝ) ^ k.toNat) = (2 : ℝ) ^ k := by
  rw [← zpow_natCast, Int.toNat_of_nonneg hk]

theorem two_zpow_split (e t : Int) (h : e ≤ t) :
    (2 : ℝ) ^ t = (2 : ℝ) ^ (t - e).toNat * (2 : ℝ) ^ e := by
  rw [two_zpow_toNat _ (by omega), ← zpow_add₀ (by norm_num : (2 : ℝ) ≠ 0)]
  congr 1
  omega

/-- The result of `round` on a number `v` given by `m`, `e` and `sticky`:
infinity, or a canonical finite double within half a unit in the last place. -/
theorem round_spec (neg : Bool) (m : Nat) (e : Int) (sticky : Bool) (v : ℝ) (hm : m ≠ 0)
    (hlo : (m : ℝ) * (2 : ℝ) ^ e ≤ v) (hhi : v < ((m : ℝ) + 1) * (2 : ℝ) ^ e)
    (hexact : sticky = false → v = (m : ℝ) * (2 : ℝ) ^ e)
    (hst : sticky = true → 2 ^ 54 ≤ m) :
    (round neg m e sticky = inf neg ∧ 971 ≤ max (e + (bitLength m : Int) - 53) (-1074)) ∨
      ∃ mant exp, round neg m e sticky = fin neg mant exp ∧ mant < 2 ^ 53 ∧
        -1074 ≤ exp ∧ exp ≤ 971 ∧
        |(mant : ℝ) * (2 : ℝ) ^ exp - v| ≤
          (2 : ℝ) ^ (max (e + (bitLength m : Int) - 53) (-1074) - 1) ∧
        (max (e + (bitLength m : Int) - 53) (-1074) ≤ e → (mant : ℝ) * (2 : ℝ) ^ exp = v) := by
  obtain ⟨hblo, hbhi⟩ := bitLength_spec m hm
  have hbpos := bitLength_pos m hm
  set T : Int := max (e + (bitLength m : Int) - 53) (-1074) with hT
  have hT1 : e + (bitLength m : Int) - 53 ≤ T := le_max_left _ _
  have hT2 : -1074 ≤ T := le_max_right _ _
  have hP : (0 : ℝ) < (2 : ℝ) ^ e := two_zpow_pos e
  unfold round
  rw [if_neg hm]
  simp only [← hT]
  by_cases hte : T ≤ e
  · rw [if_pos hte]
    have hsf : sticky = false := by
      cases sticky with
      | false => rfl
      | true =>
        exfalso
        have h55 := le_bitLength m 54 (hst rfl)
        omega
    by_cases hov : 971 < T
    · left; rw [if_pos hov]; exact ⟨rfl, hov.le⟩
    · right
      rw [if_neg hov]
      refine ⟨m * 2 ^ (e - T).toNat, T, rfl, ?_, hT2, not_lt.mp hov, ?_, ?_⟩
      · have hk : bitLength m + (e - T).toNat ≤ 53 := by omega
        calc m * 2 ^ (e - T).toNat < 2 ^ bitLength m * 2 ^ (e - T).toNat :=
              Nat.mul_lt_mul_of_pos_right hbhi (Nat.two_pow_pos _)
          _ = 2 ^ (bitLength m + (e - T).toNat) := (pow_add 2 _ _).symm
          _ ≤ 2 ^ 53 := Nat.pow_le_pow_right (by norm_num) hk
      · have hval : ((m * 2 ^ (e - T).toNat : Nat) : ℝ) * (2 : ℝ) ^ T = v := by
          rw [hexact hsf, two_zpow_split T e hte]
          push_cast
          ring
        rw [hval, sub_self, abs_zero]
        exact (two_zpow_pos _).le
      · intro _
        rw [hexact hsf, two_zpow_split T e hte]
        push_cast
        ring
  · rw [if_neg hte]
    have hlt : e < T := not_le.mp hte
    set shift : Nat := (T - e).toNat with hshift
    have hs1 : 1 ≤ shift := by omega
    set q : Nat := m / 2 ^ shift with hq
    set rest : Nat := m % 2 ^ shift with hrest
    set half : Nat := 2 ^ (shift - 1) with hhalf
    have hdm : 2 ^ shift * q + rest = m := Nat.div_add_mod m (2 ^ shift)
    have hrlt : rest < 2 ^ shift := Nat.mod_lt _ (Nat.two_pow_pos _)
    have h2h : 2 ^ shift = 2 * half := by
      rw [hhalf, ← pow_succ']
      congr 1
      omega
    have hTe : (2 : ℝ) ^ T = (2 : ℝ) ^ shift * (2 : ℝ) ^ e := two_zpow_split e T hlt.le
    have hT1e : (2 : ℝ) ^ (T - 1) = (half : ℝ) * (2 : ℝ) ^ e := by
      have : (2 : ℝ) ^ T = 2 * (2 : ℝ) ^ (T - 1) := by
        rw [show T = (T - 1) + 1 by ring, zpow_add_one₀ (by norm_num : (2 : ℝ) ≠ 0)]
        ring_nf
      have h3 : ((2 : ℝ) ^ shift) = 2 * (half : ℝ) := by exact_mod_cast h2h
      rw [hTe, h3] at this
      linarith
    have hmR : (m : ℝ) = (2 : ℝ) ^ shift * (q : ℝ) + (rest : ℝ) := by
      have : ((2 ^ shift * q + rest : Nat) : ℝ) = (m : ℝ) := by rw [hdm]
      push_cast at this
      linarith
    have h2hR : ((2 : ℝ) ^ shift) = 2 * (half : ℝ) := by exact_mod_cast h2h
    -- the fraction cut off
    set f : ℝ := v - (m : ℝ) * (2 : ℝ) ^ e with hf
    have hf0 : 0 ≤ f := by rw [hf]; linarith
    have hf1 : f < (2 : ℝ) ^ e := by rw [hf]; linarith
    have hq53 : q < 2 ^ 53 := by
      rw [hq, Nat.div_lt_iff_lt_mul (Nat.two_pow_pos _)]
      calc m < 2 ^ bitLength m := hbhi
        _ ≤ 2 ^ (53 + shift) := Nat.pow_le_pow_right (by norm_num) (by omega)
        _ = 2 ^ 53 * 2 ^ shift := pow_add 2 _ _
    -- the error of the rounded significand `q1`
    have herr : ∀ q1 : Nat,
        q1 = (if (decide (half < rest) ||
          (decide (rest = half) && (sticky || decide (q % 2 = 1)))) = true then q + 1 else q) →
        |(q1 : ℝ) * (2 : ℝ) ^ T - v| ≤ (2 : ℝ) ^ (T - 1) ∧ q1 ≤ 2 ^ 53 := by
      intro q1 hq1
      have hv : v = (m : ℝ) * (2 : ℝ) ^ e + f := by rw [hf]; ring
      have hr0 : (0 : ℝ) ≤ (rest : ℝ) := Nat.cast_nonneg _
      by_cases hup : (decide (half < rest) ||
          (decide (rest = half) && (sticky || decide (q % 2 = 1)))) = true
      · rw [if_pos hup] at hq1
        have hge : half ≤ rest := by
          simp only [Bool.or_eq_true, decide_eq_true_eq, Bool.and_eq_true] at hup
          rcases hup with h | ⟨h, _⟩
          · exact h.le
          · exact h.ge
        have hgeR : (half : ℝ) ≤ (rest : ℝ) := by exact_mod_cast hge
        have hrltR : (rest : ℝ) + 1 ≤ (2 : ℝ) ^ shift := by exact_mod_cast hrlt
        refine ⟨?_, by rw [hq1]; exact hq53⟩
        have hd : (q1 : ℝ) * (2 : ℝ) ^ T - v =
            ((2 : ℝ) ^ shift - (rest : ℝ)) * (2 : ℝ) ^ e - f := by
          rw [hq1, hTe, hv, hmR]
          push_cast
          ring
        have h1 : ((2 : ℝ) ^ shift - (rest : ℝ)) * (2 : ℝ) ^ e ≤ (half : ℝ) * (2 : ℝ) ^ e :=
          mul_le_mul_of_nonneg_right (by linarith) hP.le
        have h2 : 1 * (2 : ℝ) ^ e ≤ ((2 : ℝ) ^ shift - (rest : ℝ)) * (2 : ℝ) ^ e :=
          mul_le_mul_of_nonneg_right (by linarith) hP.le
        have h3 : (0 : ℝ) ≤ (half : ℝ) * (2 : ℝ) ^ e :=
          mul_nonneg (Nat.cast_nonneg _) hP.le
        rw [hd, hT1e, abs_le]
        constructor <;> linarith
      · rw [if_neg hup] at hq1
        simp only [Bool.or_eq_true, decide_eq_true_eq, Bool.and_eq_true, not_or, not_and,
          not_lt] at hup
        obtain ⟨hle, hnot⟩ := hup
        refine ⟨?_, by rw [hq1]; exact hq53.le⟩
        have hd : (q1 : ℝ) * (2 : ℝ) ^ T - v = -((rest : ℝ) * (2 : ℝ) ^ e) - f := by
          rw [hq1, hTe, hv, hmR]
          ring
        have h0 : (0 : ℝ) ≤ (rest : ℝ) * (2 : ℝ) ^ e := mul_nonneg hr0 hP.le
        rw [hd, hT1e, abs_le]
        by_cases heq : rest = half
        · have hsf : sticky = false := by
            cases sticky with
            | false => rfl
            | true => exact absurd rfl (hnot heq).1
          have hf00 : f = 0 := by rw [hf, hexact hsf]; ring
          have heqR : (rest : ℝ) = (half : ℝ) := by exact_mod_cast heq
          have hrh : (rest : ℝ) * (2 : ℝ) ^ e = (half : ℝ) * (2 : ℝ) ^ e := by rw [heqR]
          constructor <;> linarith
        · have hlt2 : rest + 1 ≤ half := Nat.succ_le_of_lt (lt_of_le_of_ne hle heq)
          have hlt2R : (rest : ℝ) + 1 ≤ (half : ℝ) := by exact_mod_cast hlt2
          have h1 : ((rest : ℝ) + 1) * (2 : ℝ) ^ e ≤ (half : ℝ) * (2 : ℝ) ^ e :=
            mul_le_mul_of_nonneg_right hlt2R hP.le
          constructor <;> linarith
    set q1 : Nat := (if (decide (half < rest) ||
          (decide (rest = half) && (sticky || decide (q % 2 = 1)))) = true then q + 1 else q)
      with hq1def
    obtain ⟨he1, he2⟩ := herr q1 rfl
    show (if (971 : Int) < (if q1 = 2 ^ 53 then T + 1 else T) then inf neg
        else fin neg (if q1 = 2 ^ 53 then 2 ^ 52 else q1) (if q1 = 2 ^ 53 then T + 1 else T)) =
          inf neg ∧ _ ∨ _
    by_cases hov : (971 : Int) < (if q1 = 2 ^ 53 then T + 1 else T)
    · left
      rw [if_pos hov]
      refine ⟨rfl, ?_⟩
      by_cases h53 : q1 = 2 ^ 53
      · rw [if_pos h53] at hov; omega
      · rw [if_neg h53] at hov; omega
    · right
      rw [if_neg hov]
      refine ⟨_, _, rfl, ?_, ?_, not_lt.mp hov, ?_, fun h => absurd h hte⟩
      · by_cases h53 : q1 = 2 ^ 53
        · rw [if_pos h53]; norm_num
        · rw [if_neg h53]; exact lt_of_le_of_ne he2 h53
      · by_cases h53 : q1 = 2 ^ 53
        · rw [if_pos h53]; omega
        · rw [if_neg h53]; exact hT2
      · by_cases h53 : q1 = 2 ^ 53
        · rw [if_pos h53, if_pos h53]
          have : ((2 ^ 52 : Nat) : ℝ) * (2 : ℝ) ^ (T + 1) = (q1 : ℝ) * (2 : ℝ) ^ T := by
            rw [h53, zpow_add_one₀ (by norm_num : (2 : ℝ) ≠ 0)]
            push_cast
            ring
          rw [this]
          exact he1
        · rw [if_neg h53, if_neg h53]
          exact he1


/-- The unit roundoff times `v` bounds half a unit in the last place of a
normal number `v`. -/
theorem half_ulp_le (m : Nat) (e : Int) (v : ℝ) (hm : m ≠ 0)
    (hlo : (m : ℝ) * (2 : ℝ) ^ e ≤ v) :
    (2 : ℝ) ^ (e + (bitLength m : Int) - 53 - 1) ≤ (2 : ℝ) ^ (-53 : Int) * v := by
  obtain ⟨hblo, _⟩ := bitLength_spec m hm
  have hbpos := bitLength_pos m hm
  have h1 : (2 : ℝ) ^ (e + (bitLength m : Int) - 53 - 1) =
      (2 : ℝ) ^ (-53 : Int) * ((2 : ℝ) ^ (bitLength m - 1) * (2 : ℝ) ^ e) := by
    rw [← zpow_natCast, ← zpow_add₀ (by norm_num : (2 : ℝ) ≠ 0),
      ← zpow_add₀ (by norm_num : (2 : ℝ) ≠ 0)]
    congr 1
    omega
  rw [h1]
  have h2 : ((2 : ℝ) ^ (bitLength m - 1)) ≤ (m : ℝ) := by exact_mod_cast hblo
  have h3 : (2 : ℝ) ^ (bitLength m - 1) * (2 : ℝ) ^ e ≤ v :=
    (mul_le_mul_of_nonneg_right h2 (two_zpow_pos e).le).trans hlo
  exact mul_le_mul_of_nonneg_left h3 (two_zpow_pos _).le

/-- The number `v` is below `2^(e + bitLength m)`. -/
theorem lt_two_zpow_bitLength (m : Nat) (e : Int) (v : ℝ) (hm : m ≠ 0)
    (hhi : v < ((m : ℝ) + 1) * (2 : ℝ) ^ e) :
    v < (2 : ℝ) ^ (e + (bitLength m : Int)) := by
  obtain ⟨_, hbhi⟩ := bitLength_spec m hm
  have h1 : ((m : ℝ) + 1) ≤ (2 : ℝ) ^ (bitLength m) := by exact_mod_cast hbhi
  have h2 : (2 : ℝ) ^ (e + (bitLength m : Int)) = (2 : ℝ) ^ (bitLength m) * (2 : ℝ) ^ e := by
    rw [← zpow_natCast, ← zpow_add₀ (by norm_num : (2 : ℝ) ≠ 0)]
    congr 1
    omega
  rw [h2]
  exact hhi.trans_le (mul_le_mul_of_nonneg_right h1 (two_zpow_pos e).le)

theorem two_zpow_le_of_le_bitLength (m : Nat) (e : Int) (v : ℝ) (hm : m ≠ 0)
    (hlo : (m : ℝ) * (2 : ℝ) ^ e ≤ v) :
    (2 : ℝ) ^ (e + (bitLength m : Int) - 1) ≤ v := by
  obtain ⟨hblo, _⟩ := bitLength_spec m hm
  have hbpos := bitLength_pos m hm
  have h1 : (2 : ℝ) ^ (e + (bitLength m : Int) - 1) =
      (2 : ℝ) ^ (bitLength m - 1) * (2 : ℝ) ^ e := by
    rw [← zpow_natCast, ← zpow_add₀ (by norm_num : (2 : ℝ) ≠ 0)]
    congr 1
    omega
  rw [h1]
  have h2 : ((2 : ℝ) ^ (bitLength m - 1)) ≤ (m : ℝ) := by exact_mod_cast hblo
  exact (mul_le_mul_of_nonneg_right h2 (two_zpow_pos e).le).trans hlo

/-- Rounding a number below `2^1023`: the result is a canonical finite double
with a relative error of at most `2^-53`, or, for a number below `2^-1022`, an
absolute error of at most `2^-1075`. -/
theorem round_cases (neg : Bool) (m : Nat) (e : Int) (sticky : Bool) (v : ℝ) (hm : m ≠ 0)
    (hlo : (m : ℝ) * (2 : ℝ) ^ e ≤ v) (hhi : v < ((m : ℝ) + 1) * (2 : ℝ) ^ e)
    (hexact : sticky = false → v = (m : ℝ) * (2 : ℝ) ^ e)
    (hst : sticky = true → 2 ^ 54 ≤ m) (hv : v < (2 : ℝ) ^ (1023 : Int)) :
    ∃ mant exp, round neg m e sticky = fin neg mant exp ∧ mant < 2 ^ 53 ∧
      -1074 ≤ exp ∧ exp ≤ 971 ∧
      (|(mant : ℝ) * (2 : ℝ) ^ exp - v| ≤ (2 : ℝ) ^ (-53 : Int) * v ∨
        (v < (2 : ℝ) ^ (-1022 : Int) ∧ e < -1074 ∧
          |(mant : ℝ) * (2 : ℝ) ^ exp - v| ≤ (2 : ℝ) ^ (-1075 : Int))) := by
  have hvpos : 0 < v := lt_of_lt_of_le
    (mul_pos (Nat.cast_pos.mpr (Nat.pos_of_ne_zero hm)) (two_zpow_pos e)) hlo
  have hbig := two_zpow_le_of_le_bitLength m e v hm hlo
  have hexp : e + (bitLength m : Int) - 1 < 1023 := by
    by_contra hc
    have : (2 : ℝ) ^ (1023 : Int) ≤ (2 : ℝ) ^ (e + (bitLength m : Int) - 1) :=
      zpow_le_zpow_right₀ (by norm_num) (not_lt.mp hc)
    linarith
  rcases round_spec neg m e sticky v hm hlo hhi hexact hst with ⟨_, hT⟩ | h
  · exfalso
    have := le_max_iff.mp hT
    omega
  · obtain ⟨mant, exp, hr, hm53, he1, he2, herr, hex⟩ := h
    refine ⟨mant, exp, hr, hm53, he1, he2, ?_⟩
    by_cases hte : max (e + (bitLength m : Int) - 53) (-1074) ≤ e
    · left
      rw [hex hte, sub_self, abs_zero]
      exact mul_nonneg (two_zpow_pos _).le hvpos.le
    · by_cases hcl : -1074 ≤ e + (bitLength m : Int) - 53
      · left
        rw [max_eq_left hcl] at herr
        exact herr.trans (half_ulp_le m e v hm hlo)
      · right
        have hmax : max (e + (bitLength m : Int) - 53) (-1074) = -1074 :=
          max_eq_right (not_le.mp hcl).le
        rw [hmax] at herr hte
        refine ⟨?_, by omega, by simpa using herr⟩
        have h1 := lt_two_zpow_bitLength m e v hm hhi
        have h2 : (2 : ℝ) ^ (e + (bitLength m : Int)) ≤ (2 : ℝ) ^ (-1022 : Int) :=
          zpow_le_zpow_right₀ (by norm_num) (by omega)
        linarith

end Double

namespace Double

theorem toReal_fin (n : Bool) (m : Nat) (e : Int) :
    toReal (fin n m e) = (if n then -1 else 1) * (m : ℝ) * (2 : ℝ) ^ e := by
  cases n <;> simp [toReal, toRat]

theorem abs_toReal_fin (n : Bool) (m : Nat) (e : Int) :
    |toReal (fin n m e)| = (m : ℝ) * (2 : ℝ) ^ e := by
  have h : (0 : ℝ) ≤ (m : ℝ) * (2 : ℝ) ^ e := mul_nonneg (Nat.cast_nonneg _) (two_zpow_pos e).le
  rw [toReal_fin]
  cases n
  · simp only [Bool.false_eq_true, if_false, one_mul]
    exact abs_of_nonneg h
  · simp only [if_true, neg_mul, one_mul, abs_neg]
    exact abs_of_nonneg h

theorem sign_xor (a b : Bool) :
    (if xor a b then (-1 : ℝ) else 1) = (if a then -1 else 1) * (if b then -1 else 1) := by
  cases a <;> cases b <;> simp

theorem canon_fin_zero (n : Bool) : Canon (fin n 0 (-1074)) :=
  ⟨n, 0, -1074, rfl, by norm_num, by norm_num, by norm_num⟩

/-- The product of two finite doubles whose exact product neither underflows
nor overflows is a canonical double with relative error at most `2^-53`. -/
theorem mul_fin_approx (n1 : Bool) (m1 : Nat) (e1 : Int) (n2 : Bool) (m2 : Nat) (e2 : Int)
    (hnu : toReal (fin n1 m1 e1) * toReal (fin n2 m2 e2) = 0 ∨
      (2 : ℝ) ^ (-1022 : Int) ≤ |toReal (fin n1 m1 e1) * toReal (fin n2 m2 e2)|)
    (hov : |toReal (fin n1 m1 e1) * toReal (fin n2 m2 e2)| < (2 : ℝ) ^ (1023 : Int)) :
    Canon (mul (fin n1 m1 e1) (fin n2 m2 e2)) ∧
      |toReal (mul (fin n1 m1 e1) (fin n2 m2 e2)) -
          toReal (fin n1 m1 e1) * toReal (fin n2 m2 e2)| ≤
        (2 : ℝ) ^ (-53 : Int) * |toReal (fin n1 m1 e1) * toReal (fin n2 m2 e2)| := by
  have habs : |toReal (fin n1 m1 e1) * toReal (fin n2 m2 e2)| =
      ((m1 * m2 : Nat) : ℝ) * (2 : ℝ) ^ (e1 + e2) := by
    rw [abs_mul, abs_toReal_fin, abs_toReal_fin, zpow_add₀ (by norm_num : (2 : ℝ) ≠ 0)]
    push_cast
    ring
  have hprod : toReal (fin n1 m1 e1) * toReal (fin n2 m2 e2) =
      (if xor n1 n2 then -1 else 1) * (((m1 * m2 : Nat) : ℝ) * (2 : ℝ) ^ (e1 + e2)) := by
    rw [toReal_fin, toReal_fin, sign_xor, zpow_add₀ (by norm_num : (2 : ℝ) ≠ 0)]
    push_cast
    ring
  show Canon (round (xor n1 n2) (m1 * m2) (e1 + e2) false) ∧
    |toReal (round (xor n1 n2) (m1 * m2) (e1 + e2) false) - _| ≤ _
  by_cases hm : m1 * m2 = 0
  · have hr : round (xor n1 n2) (m1 * m2) (e1 + e2) false = fin (xor n1 n2) 0 (-1074) := by
      unfold round; rw [if_pos hm]
    have hz : toReal (fin n1 m1 e1) * toReal (fin n2 m2 e2) = 0 := by
      rw [hprod, hm]; simp
    rw [hr, hz]
    refine ⟨canon_fin_zero _, ?_⟩
    simp [toReal_fin]
  · rw [habs] at hov hnu
    have hnu2 : (2 : ℝ) ^ (-1022 : Int) ≤ ((m1 * m2 : Nat) : ℝ) * (2 : ℝ) ^ (e1 + e2) := by
      rcases hnu with h | h
      · exfalso
        rw [hprod] at h
        have hpos : (0 : ℝ) < ((m1 * m2 : Nat) : ℝ) * (2 : ℝ) ^ (e1 + e2) :=
          mul_pos (Nat.cast_pos.mpr (Nat.pos_of_ne_zero hm)) (two_zpow_pos _)
        rcases mul_eq_zero.mp h with h0 | h0
        · split_ifs at h0 <;> norm_num at h0
        · linarith
      · exact h
    obtain ⟨mant, exp, hr, hm53, he1, he2, herr⟩ :=
      round_cases (xor n1 n2) (m1 * m2) (e1 + e2) false
        (((m1 * m2 : Nat) : ℝ) * (2 : ℝ) ^ (e1 + e2)) hm (le_refl _)
        (by
          have := two_zpow_pos (e1 + e2)
          nlinarith) (fun _ => rfl) (fun h => by cases h) hov
    rw [hr]
    refine ⟨⟨_, mant, exp, rfl, hm53, he1, he2⟩, ?_⟩
    rw [habs, hprod, toReal_fin, mul_assoc, ← mul_sub, abs_mul]
    have hs : |(if xor n1 n2 = true then (-1 : ℝ) else 1)| = 1 := by
      split_ifs <;> simp
    rw [hs, one_mul]
    rcases herr with h | ⟨h, _, _⟩
    · exact h
    · linarith

end Double

namespace Double

/-- The sum of two canonical doubles, when it does not overflow, is a canonical
double with relative error at most `2^-53`. -/
theorem add_fin_approx (n1 : Bool) (m1 : Nat) (e1 : Int) (n2 : Bool) (m2 : Nat) (e2 : Int)
    (h1 : -1074 ≤ e1) (h2 : -1074 ≤ e2)
    (hov : |toReal (fin n1 m1 e1) + toReal (fin n2 m2 e2)| < (2 : ℝ) ^ (1023 : Int)) :
    Canon (add (fin n1 m1 e1) (fin n2 m2 e2)) ∧
      |toReal (add (fin n1 m1 e1) (fin n2 m2 e2)) -
          (toReal (fin n1 m1 e1) + toReal (fin n2 m2 e2))| ≤
        (2 : ℝ) ^ (-53 : Int) * |toReal (fin n1 m1 e1) + toReal (fin n2 m2 e2)| := by
  set e : Int := min e1 e2 with he
  set z1 : Int := (if n1 then -1 else 1) * ((m1 * 2 ^ (e1 - e).toNat : Nat) : Int) with hz1
  set z2 : Int := (if n2 then -1 else 1) * ((m2 * 2 ^ (e2 - e).toNat : Nat) : Int) with hz2
  set z : Int := z1 + z2 with hz
  have hee1 : e ≤ e1 := min_le_left _ _
  have hee2 : e ≤ e2 := min_le_right _ _
  have hemin : -1074 ≤ e := le_min h1 h2
  have hx : toReal (fin n1 m1 e1) = (z1 : ℝ) * (2 : ℝ) ^ e := by
    rw [toReal_fin, hz1, two_zpow_split e e1 hee1]
    cases n1 <;> push_cast <;> simp <;> ring
  have hy : toReal (fin n2 m2 e2) = (z2 : ℝ) * (2 : ℝ) ^ e := by
    rw [toReal_fin, hz2, two_zpow_split e e2 hee2]
    cases n2 <;> push_cast <;> simp <;> ring
  have hsum : toReal (fin n1 m1 e1) + toReal (fin n2 m2 e2) = (z : ℝ) * (2 : ℝ) ^ e := by
    rw [hx, hy, hz]
    push_cast
    ring
  show Canon (if z = 0 then fin (n1 && n2) 0 (-1074) else round (decide (z < 0)) z.natAbs e false) ∧
    |toReal (if z = 0 then fin (n1 && n2) 0 (-1074)
        else round (decide (z < 0)) z.natAbs e false) - _| ≤ _
  rw [hsum] at hov ⊢
  by_cases hz0 : z = 0
  · rw [if_pos hz0, hz0]
    refine ⟨canon_fin_zero _, ?_⟩
    simp [toReal_fin]
  · rw [if_neg hz0]
    have hP := two_zpow_pos e
    have habs : |(z : ℝ) * (2 : ℝ) ^ e| = ((z.natAbs : Nat) : ℝ) * (2 : ℝ) ^ e := by
      rw [abs_mul, abs_of_pos hP, Nat.cast_natAbs, Int.cast_abs]
    rw [habs] at hov ⊢
    have hna : z.natAbs ≠ 0 := Int.natAbs_ne_zero.mpr hz0
    obtain ⟨mant, exp, hr, hm53, hx1, hx2, herr⟩ :=
      round_cases (decide (z < 0)) z.natAbs e false
        (((z.natAbs : Nat) : ℝ) * (2 : ℝ) ^ e) hna (le_refl _)
        (by nlinarith) (fun _ => rfl) (fun h => by cases h) hov
    rw [hr]
    refine ⟨⟨_, mant, exp, rfl, hm53, hx1, hx2⟩, ?_⟩
    have hzs : (z : ℝ) * (2 : ℝ) ^ e =
        (if decide (z < 0) = true then (-1 : ℝ) else 1) *
          (((z.natAbs : Nat) : ℝ) * (2 : ℝ) ^ e) := by
      rw [Nat.cast_natAbs, Int.cast_abs]
      by_cases hneg : z < 0
      · have : (z : ℝ) < 0 := by exact_mod_cast hneg
        simp only [hneg, decide_True, if_true]
        rw [abs_of_neg this]
        ring
      · have : (0 : ℝ) ≤ (z : ℝ) := by exact_mod_cast not_lt.mp hneg
        simp only [hneg, decide_False, Bool.false_eq_true, if_false]
        rw [abs_of_nonneg this]
        ring
    rw [hzs, toReal_fin, mul_assoc, ← mul_sub, abs_mul]
    have hs : |(if decide (z < 0) = true then (-1 : ℝ) else 1)| = 1 := by
      split_ifs <;> simp
    rw [hs, one_mul]
    rcases herr with h | ⟨_, h, _⟩
    · exact h
    · omega

end Double

namespace Double

theorem isqrtBits_spec : ∀ (k n r : Nat), r * r ≤ n → n < (r + 2 ^ k) * (r + 2 ^ k) →
    isqrtBits k n r * isqrtBits k n r ≤ n ∧
      n < (isqrtBits k n r + 1) * (isqrtBits k n r + 1) := by
  intro k
  induction k with
  | zero =>
    intro n r h1 h2
    simpa [isqrtBits] using ⟨h1, h2⟩
  | succ k ih =>
    intro n r h1 h2
    simp only [isqrtBits]
    split_ifs with hc
    · apply ih n (r + 2 ^ k) hc
      have : r + 2 ^ k + 2 ^ k = r + 2 ^ (k + 1) := by rw [pow_succ]; ring
      rw [this]
      exact h2
    · exact ih n r h1 (not_le.mp hc)

theorem isqrt_spec (n : Nat) :
    isqrt n * isqrt n ≤ n ∧ n < (isqrt n + 1) * (isqrt n + 1) := by
  unfold isqrt
  apply isqrtBits_spec _ n 0 (Nat.zero_le _)
  have hlt : n < 2 ^ bitLength n := by
    by_cases h0 : n = 0
    · rw [h0]; exact Nat.two_pow_pos _
    · exact (bitLength_spec n h0).2
  have hle : 2 ^ bitLength n ≤ 2 ^ (bitLength n / 2 + 1) * 2 ^ (bitLength n / 2 + 1) := by
    rw [← pow_add]
    exact Nat.pow_le_pow_right (by norm_num) (by omega)
  simpa using hlt.trans_le hle

/-- The square root of a positive canonical double is a canonical double with
relative error at most `2^-53`. -/
theorem sqrt_fin_approx (m : Nat) (e : Int) (hm : m ≠ 0) (hm53 : m < 2 ^ 53)
    (he1 : -1074 ≤ e) (he2 : e ≤ 971) :
    Canon (sqrt (fin false m e)) ∧
      |toReal (sqrt (fin false m e)) - Real.sqrt (toReal (fin false m e))| ≤
        (2 : ℝ) ^ (-53 : Int) * Real.sqrt (toReal (fin false m e)) := by
  set s : Nat := if (e - 110) % 2 = 0 then 110 else 111 with hs
  have hs' : (s = 110 ∨ s = 111) ∧ (e - (s : Int)) % 2 = 0 := by
    rw [hs]
    split_ifs with h
    · exact ⟨Or.inl rfl, by push_cast; exact h⟩
    · refine ⟨Or.inr rfl, ?_⟩
      push_cast
      omega
  set N : Nat := m * 2 ^ s with hN
  set r : Nat := isqrt N with hr
  set E : Int := (e - (s : Int)) / 2 with hE
  have h2E : e - (s : Int) = 2 * E := by omega
  obtain ⟨hr1, hr2⟩ := isqrt_spec N
  rw [← hr] at hr1 hr2
  show Canon (if m = 0 then fin false 0 (-1074) else if false = true then nan
      else round false r E (decide (r * r ≠ N))) ∧
    |toReal (if m = 0 then fin false 0 (-1074) else if false = true then nan
      else round false r E (decide (r * r ≠ N))) - _| ≤ _
  rw [if_neg hm, if_neg (by simp)]
  have hP := two_zpow_pos E
  -- the value
  have hval : toReal (fin false m e) = (N : ℝ) * ((2 : ℝ) ^ E * (2 : ℝ) ^ E) := by
    rw [toReal_fin, hN, ← zpow_add₀ (by norm_num : (2 : ℝ) ≠ 0)]
    have : e = (s : Int) + (E + E) := by omega
    rw [this, zpow_add₀ (by norm_num : (2 : ℝ) ≠ 0), zpow_natCast]
    push_cast
    ring
  have hsq : Real.sqrt (toReal (fin false m e)) = Real.sqrt (N : ℝ) * (2 : ℝ) ^ E := by
    rw [hval, Real.sqrt_mul (Nat.cast_nonneg _), Real.sqrt_mul_self hP.le]
  have hrle : (r : ℝ) ≤ Real.sqrt (N : ℝ) := by
    apply Real.le_sqrt_of_sq_le
    have : ((r * r : Nat) : ℝ) ≤ (N : ℝ) := by exact_mod_cast hr1
    rw [sq]
    exact_mod_cast this
  have hrlt : Real.sqrt (N : ℝ) < (r : ℝ) + 1 := by
    rw [Real.sqrt_lt' (by positivity)]
    have : ((N : Nat) : ℝ) < (((r + 1) * (r + 1) : Nat) : ℝ) := by exact_mod_cast hr2
    rw [sq]
    exact_mod_cast this
  have hNbig : 2 ^ 110 ≤ N := by
    rw [hN]
    have h1 : 1 ≤ m := Nat.pos_of_ne_zero hm
    have h2 : 2 ^ 110 ≤ 2 ^ s := Nat.pow_le_pow_right (by norm_num) (by rcases hs'.1 with h | h <;> omega)
    calc 2 ^ 110 = 1 * 2 ^ 110 := (one_mul _).symm
      _ ≤ m * 2 ^ s := Nat.mul_le_mul h1 h2
  have hrbig : 2 ^ 54 ≤ r := by
    by_contra hc
    have h1 : r + 1 ≤ 2 ^ 54 := by omega
    have h2 : (r + 1) * (r + 1) ≤ 2 ^ 54 * 2 ^ 54 := Nat.mul_le_mul h1 h1
    have h3 : (2 : Nat) ^ 54 * 2 ^ 54 ≤ 2 ^ 110 := by norm_num
    omega
  have hr0 : r ≠ 0 := by
    intro h
    rw [h] at hrbig
    norm_num at hrbig
  have hvlt : Real.sqrt (toReal (fin false m e)) < (2 : ℝ) ^ (1023 : Int) := by
    have h1 : toReal (fin false m e) ≤ ((2 : ℝ) ^ (512 : Int)) ^ 2 := by
      rw [toReal_fin]
      simp only [Bool.false_eq_true, if_false, one_mul]
      have hm' : (m : ℝ) ≤ (2 : ℝ) ^ (53 : Int) := by
        have : (m : ℝ) ≤ ((2 ^ 53 : Nat) : ℝ) := by exact_mod_cast hm53.le
        rw [show ((2 : ℝ) ^ (53 : Int)) = ((2 ^ 53 : Nat) : ℝ) by norm_num]
        exact this
      have he' : (2 : ℝ) ^ e ≤ (2 : ℝ) ^ (971 : Int) := zpow_le_zpow_right₀ (by norm_num) he2
      have : (m : ℝ) * (2 : ℝ) ^ e ≤ (2 : ℝ) ^ (53 : Int) * (2 : ℝ) ^ (971 : Int) :=
        mul_le_mul hm' he' (two_zpow_pos e).le (two_zpow_pos _).le
      rw [← zpow_add₀ (by norm_num : (2 : ℝ) ≠ 0)] at this
      rw [← zpow_natCast, ← zpow_mul]
      norm_num at this ⊢
      exact this
    have h2 : Real.sqrt (toReal (fin false m e)) ≤ (2 : ℝ) ^ (512 : Int) :=
      Real.sqrt_le_iff.mpr ⟨(two_zpow_pos _).le, h1⟩
    have h3 : (2 : ℝ) ^ (512 : Int) < (2 : ℝ) ^ (1023 : Int) :=
      zpow_lt_zpow_right₀ (by norm_num) (by norm_num)
    linarith
  obtain ⟨mant, exp, hres, hmant, hx1, hx2, herr⟩ :=
    round_cases false r E (decide (r * r ≠ N)) (Real.sqrt (toReal (fin false m e))) hr0
      (by rw [hsq]; exact mul_le_mul_of_nonneg_right hrle hP.le)
      (by rw [hsq]; exact mul_lt_mul_of_pos_right hrlt hP)
      (by
        intro hst
        have hrr : r * r = N := by simpa using hst
        have : (N : ℝ) = (r : ℝ) * (r : ℝ) := by exact_mod_cast hrr.symm
        rw [hsq, this, Real.sqrt_mul_self (Nat.cast_nonneg _)])
      (fun _ => hrbig) hvlt
  rw [hres]
  refine ⟨⟨_, mant, exp, rfl, hmant, hx1, hx2⟩, ?_⟩
  rw [toReal_fin]
  simp only [Bool.false_eq_true, if_false, one_mul]
  rcases herr with h | ⟨_, h, _⟩
  · exact h
  · exfalso
    rcases hs'.1 with h110 | h111 <;> omega

end Double

namespace Double

/-- The quotient of two finite doubles with a non-zero divisor, when it does not
overflow, is a canonical double with relative error at most `2^-53`, or, for a
quotient below `2^-1022`, an absolute error of at most `2^-1075`. -/
theorem div_fin_approx (n1 : Bool) (m1 : Nat) (e1 : Int) (n2 : Bool) (m2 : Nat) (e2 : Int)
    (hm2 : m2 ≠ 0)
    (hov : |toReal (fin n1 m1 e1) / toReal (fin n2 m2 e2)| < (2 : ℝ) ^ (1023 : Int)) :
    Canon (div (fin n1 m1 e1) (fin n2 m2 e2)) ∧
      (|toReal (div (fin n1 m1 e1) (fin n2 m2 e2)) -
          toReal (fin n1 m1 e1) / toReal (fin n2 m2 e2)| ≤
        (2 : ℝ) ^ (-53 : Int) * |toReal (fin n1 m1 e1) / toReal (fin n2 m2 e2)| ∨
       (|toReal (fin n1 m1 e1) / toReal (fin n2 m2 e2)| < (2 : ℝ) ^ (-1022 : Int) ∧
        |toReal (div (fin n1 m1 e1) (fin n2 m2 e2)) -
          toReal (fin n1 m1 e1) / toReal (fin n2 m2 e2)| ≤ (2 : ℝ) ^ (-1075 : Int))) := by
  set k : Nat := bitLength m2 + 55 with hk
  set Q : Nat := m1 * 2 ^ k / m2 with hQ
  set E : Int := e1 - e2 - (k : Int) with hE
  show Canon (if m2 = 0 then (if m1 = 0 then nan else inf (xor n1 n2))
      else if m1 = 0 then fin (xor n1 n2) 0 (-1074)
      else round (xor n1 n2) Q E (decide (m1 * 2 ^ k % m2 ≠ 0))) ∧
    (|toReal (if m2 = 0 then (if m1 = 0 then nan else inf (xor n1 n2))
      else if m1 = 0 then fin (xor n1 n2) 0 (-1074)
      else round (xor n1 n2) Q E (decide (m1 * 2 ^ k % m2 ≠ 0))) - _| ≤ _ ∨
     (_ ∧ |toReal (if m2 = 0 then (if m1 = 0 then nan else inf (xor n1 n2))
      else if m1 = 0 then fin (xor n1 n2) 0 (-1074)
      else round (xor n1 n2) Q E (decide (m1 * 2 ^ k % m2 ≠ 0))) - _| ≤ _))
  rw [if_neg hm2]
  by_cases hm1 : m1 = 0
  · rw [if_pos hm1]
    refine ⟨canon_fin_zero _, Or.inl ?_⟩
    have : toReal (fin n1 m1 e1) = 0 := by rw [toReal_fin, hm1]; simp
    rw [this]
    simp [toReal_fin]
  · rw [if_neg hm1]
    have hm2pos : 0 < m2 := Nat.pos_of_ne_zero hm2
    have hm2R : (0 : ℝ) < (m2 : ℝ) := Nat.cast_pos.mpr hm2pos
    have hP1 := two_zpow_pos e1
    have hP2 := two_zpow_pos e2
    have hPE := two_zpow_pos E
    have h2k : ((2 : ℝ) ^ k) = (2 : ℝ) ^ (k : Int) := (zpow_natCast _ _).symm
    -- the magnitude of the quotient
    set v : ℝ := ((m1 : ℝ) * (2 : ℝ) ^ k / (m2 : ℝ)) * (2 : ℝ) ^ E with hv
    have hvE : (2 : ℝ) ^ E = (2 : ℝ) ^ e1 / (2 : ℝ) ^ e2 / (2 : ℝ) ^ k := by
      rw [hE, zpow_sub₀ (by norm_num : (2 : ℝ) ≠ 0), zpow_sub₀ (by norm_num : (2 : ℝ) ≠ 0), h2k]
    have hvval : v = (m1 : ℝ) * (2 : ℝ) ^ e1 / ((m2 : ℝ) * (2 : ℝ) ^ e2) := by
      rw [hv, hvE]
      have : ((2 : ℝ) ^ k) ≠ 0 := pow_ne_zero _ (by norm_num)
      field_simp
      ring
    have habs : |toReal (fin n1 m1 e1) / toReal (fin n2 m2 e2)| = v := by
      rw [abs_div, abs_toReal_fin, abs_toReal_fin, hvval]
    have hquot : toReal (fin n1 m1 e1) / toReal (fin n2 m2 e2) =
        (if xor n1 n2 then -1 else 1) * v := by
      rw [toReal_fin, toReal_fin, sign_xor, hvval]
      cases n1 <;> cases n2 <;> simp <;> field_simp
    -- the integer quotient
    have hdm : m2 * Q + m1 * 2 ^ k % m2 = m1 * 2 ^ k := Nat.div_add_mod _ _
    have hrem : m1 * 2 ^ k % m2 < m2 := Nat.mod_lt _ hm2pos
    have hdmR : (m2 : ℝ) * (Q : ℝ) + ((m1 * 2 ^ k % m2 : Nat) : ℝ) = (m1 : ℝ) * (2 : ℝ) ^ k := by
      have := congrArg (Nat.cast : Nat → ℝ) hdm
      push_cast at this ⊢
      exact this
    have hremR : ((m1 * 2 ^ k % m2 : Nat) : ℝ) < (m2 : ℝ) := by exact_mod_cast hrem
    have hrem0 : (0 : ℝ) ≤ ((m1 * 2 ^ k % m2 : Nat) : ℝ) := Nat.cast_nonneg _
    have hQlo : (Q : ℝ) ≤ (m1 : ℝ) * (2 : ℝ) ^ k / (m2 : ℝ) := by
      rw [le_div_iff₀ hm2R]
      nlinarith
    have hQhi : (m1 : ℝ) * (2 : ℝ) ^ k / (m2 : ℝ) < (Q : ℝ) + 1 := by
      rw [div_lt_iff₀ hm2R]
      nlinarith
    have hQbig : 2 ^ 55 ≤ Q := by
      rw [hQ, Nat.le_div_iff_mul_le hm2pos]
      have h1 : m2 < 2 ^ bitLength m2 := (bitLength_spec m2 hm2).2
      have h2 : 2 ^ 55 * m2 ≤ 2 ^ 55 * 2 ^ bitLength m2 := Nat.mul_le_mul_left _ h1.le
      have h3 : 2 ^ 55 * 2 ^ bitLength m2 = 2 ^ k := by rw [hk, pow_add, mul_comm]
      have h4 : 1 * 2 ^ k ≤ m1 * 2 ^ k := Nat.mul_le_mul_right _ (Nat.pos_of_ne_zero hm1)
      omega
    have hQ0 : Q ≠ 0 := by
      intro h
      rw [h] at hQbig
      norm_num at hQbig
    rw [habs] at hov
    obtain ⟨mant, exp, hr, hm53, hx1, hx2, herr⟩ :=
      round_cases (xor n1 n2) Q E (decide (m1 * 2 ^ k % m2 ≠ 0)) v hQ0
        (mul_le_mul_of_nonneg_right hQlo hPE.le)
        (mul_lt_mul_of_pos_right hQhi hPE)
        (by
          intro hst
          have h0 : m1 * 2 ^ k % m2 = 0 := by simpa using hst
          rw [h0, Nat.cast_zero, add_zero] at hdmR
          have : (Q : ℝ) = (m1 : ℝ) * (2 : ℝ) ^ k / (m2 : ℝ) := by
            rw [eq_div_iff hm2R.ne']
            linarith
          rw [hv, this])
        (fun _ => le_trans (by norm_num) hQbig) hov
    rw [hr]
    refine ⟨⟨_, mant, exp, rfl, hm53, hx1, hx2⟩, ?_⟩
    have hs : |(if xor n1 n2 = true then (-1 : ℝ) else 1)| = 1 := by
      split_ifs <;> simp
    have hdiff : |toReal (fin (xor n1 n2) mant exp) -
        toReal (fin n1 m1 e1) / toReal (fin n2 m2 e2)| = |(mant : ℝ) * (2 : ℝ) ^ exp - v| := by
      rw [hquot, toReal_fin, mul_assoc, ← mul_sub, abs_mul, hs, one_mul]
    rw [hdiff, habs]
    rcases herr with h | ⟨h1, _, h2⟩
    · exact Or.inl h
    · exact Or.inr ⟨h1, h2⟩

end Double

namespace Double

theorem Canon.value_eq {d : Double} (h : Canon d) : d.value = some d.toRat := by
  obtain ⟨n, m, e, rfl, -⟩ := h
  rfl

theorem Canon.within_iff {d : Double} (h : Canon d) (lo hi : ℚ) :
    within lo hi d ↔ (lo : ℝ) ≤ toReal d ∧ toReal d ≤ (hi : ℝ) := by
  unfold within
  rw [h.value_eq]
  constructor
  · rintro ⟨q, hq, h1, h2⟩
    cases hq
    exact ⟨by unfold toReal; exact_mod_cast h1, by unfold toReal; exact_mod_cast h2⟩
  · rintro ⟨h1, h2⟩
    exact ⟨_, rfl, by unfold toReal at h1; exact_mod_cast h1, by unfold toReal at h2; exact_mod_cast h2⟩

theorem canon_zero : Canon zero := canon_fin_zero false

theorem toReal_zero : toReal zero = 0 := by
  unfold zero
  rw [toReal_fin]
  simp

theorem Canon.falsy_iff {d : Double} (h : Canon d) : falsy d = true ↔ toReal d = 0 := by
  obtain ⟨n, m, e, rfl, -⟩ := h
  rw [toReal_fin]
  simp only [falsy, decide_eq_true_eq]
  constructor
  · intro h0
    rw [h0]
    simp
  · intro h0
    rcases mul_eq_zero.mp h0 with h1 | h1
    · rcases mul_eq_zero.mp h1 with h2 | h2
      · split_ifs at h2 <;> norm_num at h2
      · exact_mod_cast h2
    · exact absurd h1 (two_zpow_pos e).ne'

theorem Canon.mul_approx {x y : Double} (hx : Canon x) (hy : Canon y)
    (hnu : toReal x * toReal y = 0 ∨ (2 : ℝ) ^ (-1022 : Int) ≤ |toReal x * toReal y|)
    (hov : |toReal x * toReal y| < (2 : ℝ) ^ (1023 : Int)) :
    Canon (mul x y) ∧
      |toReal (mul x y) - toReal x * toReal y| ≤ (2 : ℝ) ^ (-53 : Int) * |toReal x * toReal y| := by
  obtain ⟨n1, m1, e1, rfl, -⟩ := hx
  obtain ⟨n2, m2, e2, rfl, -⟩ := hy
  exact mul_fin_approx n1 m1 e1 n2 m2 e2 hnu hov

theorem Canon.add_approx {x y : Double} (hx : Canon x) (hy : Canon y)
    (hov : |toReal x + toReal y| < (2 : ℝ) ^ (1023 : Int)) :
    Canon (add x y) ∧
      |toReal (add x y) - (toReal x + toReal y)| ≤ (2 : ℝ) ^ (-53 : Int) * |toReal x + toReal y| := by
  obtain ⟨n1, m1, e1, rfl, -, h1, -⟩ := hx
  obtain ⟨n2, m2, e2, rfl, -, h2, -⟩ := hy
  exact add_fin_approx n1 m1 e1 n2 m2 e2 h1 h2 hov

theorem Canon.sqrt_approx {x : Double} (hx : Canon x) (hpos : 0 < toReal x) :
    Canon (sqrt x) ∧
      |toReal (sqrt x) - Real.sqrt (toReal x)| ≤ (2 : ℝ) ^ (-53 : Int) * Real.sqrt (toReal x) := by
  obtain ⟨n, m, e, rfl, hm, h1, h2⟩ := hx
  have hm0 : m ≠ 0 := by
    rintro rfl
    rw [toReal_fin] at hpos
    simp at hpos
  have hn : n = false := by
    cases n
    · rfl
    · exfalso
      rw [toReal_fin] at hpos
      have : (0 : ℝ) ≤ (m : ℝ) * (2 : ℝ) ^ e := mul_nonneg (Nat.cast_nonneg _) (two_zpow_pos e).le
      simp only [if_true] at hpos
      linarith
  subst hn
  exact sqrt_fin_approx m e hm0 hm h1 h2

theorem Canon.div_approx {x y : Double} (hx : Canon x) (hy : Canon y) (hy0 : toReal y ≠ 0)
    (hov : |toReal x / toReal y| < (2 : ℝ) ^ (1023 : Int)) :
    Canon (div x y) ∧
      (|toReal (div x y) - toReal x / toReal y| ≤ (2 : ℝ) ^ (-53 : Int) * |toReal x / toReal y| ∨
       (|toReal x / toReal y| < (2 : ℝ) ^ (-1022 : Int) ∧
        |toReal (div x y) - toReal x / toReal y| ≤ (2 : ℝ) ^ (-1075 : Int))) := by
  obtain ⟨n1, m1, e1, rfl, -⟩ := hx
  obtain ⟨n2, m2, e2, rfl, -⟩ := hy
  have hm2 : m2 ≠ 0 := by
    rintro rfl
    apply hy0
    rw [toReal_fin]
    simp
  exact div_fin_approx n1 m1 e1 n2 m2 e2 hm2 hov

/-- A moderate double is canonical, and zero or of magnitude in `[2^-500, 2^500)`. -/
theorem moderate_spec {x : Double} (h : moderate x = true) :
    Canon x ∧ (toReal x = 0 ∨
      ((2 : ℝ) ^ (-500 : Int) ≤ |toReal x| ∧ |toReal x| < (2 : ℝ) ^ (500 : Int))) := by
  cases x with
  | nan => simp [moderate] at h
  | inf n => simp [moderate] at h
  | fin n m e =>
    simp only [moderate, Bool.and_eq_true, Bool.or_eq_true, decide_eq_true_eq] at h
    obtain ⟨⟨⟨hm, h1⟩, h2⟩, h3⟩ := h
    refine ⟨⟨n, m, e, rfl, hm, h1, h2⟩, ?_⟩
    by_cases hm0 : m = 0
    · left
      rw [toReal_fin, hm0]
      simp
    rcases h3 with h0 | ⟨hlo, hhi⟩
    · exact absurd h0 hm0
    · right
      rw [abs_toReal_fin]
      have hb := bitLength_spec m hm0
      have hbpos := bitLength_pos m hm0
      have hP := two_zpow_pos e
      constructor
      · have h4 : (2 : ℝ) ^ (-500 : Int) ≤ (2 : ℝ) ^ (e + (bitLength m : Int) - 1) :=
          zpow_le_zpow_right₀ (by norm_num) hlo
        have h5 : (2 : ℝ) ^ (e + (bitLength m : Int) - 1) = (2 : ℝ) ^ (bitLength m - 1) * (2 : ℝ) ^ e := by
          rw [← zpow_natCast, ← zpow_add₀ (by norm_num : (2 : ℝ) ≠ 0)]
          congr 1
          omega
        have h6 : ((2 : ℝ) ^ (bitLength m - 1)) ≤ (m : ℝ) := by exact_mod_cast hb.1
        calc (2 : ℝ) ^ (-500 : Int) ≤ (2 : ℝ) ^ (bitLength m - 1) * (2 : ℝ) ^ e := by rw [← h5]; exact h4
          _ ≤ (m : ℝ) * (2 : ℝ) ^ e := mul_le_mul_of_nonneg_right h6 hP.le
      · have h4 : (2 : ℝ) ^ (e + (bitLength m : Int)) ≤ (2 : ℝ) ^ (500 : Int) :=
          zpow_le_zpow_right₀ (by norm_num) hhi
        have h5 : (2 : ℝ) ^ (e + (bitLength m : Int)) = (2 : ℝ) ^ (bitLength m) * (2 : ℝ) ^ e := by
          rw [← zpow_natCast, ← zpow_add₀ (by norm_num : (2 : ℝ) ≠ 0)]
          congr 1
          omega
        have h6 : (m : ℝ) < ((2 : ℝ) ^ (bitLength m)) := by exact_mod_cast hb.2
        calc (m : ℝ) * (2 : ℝ) ^ e < (2 : ℝ) ^ (bitLength m) * (2 : ℝ) ^ e :=
              mul_lt_mul_of_pos_right h6 hP
          _ ≤ (2 : ℝ) ^ (500 : Int) := by rw [← h5]; exact h4

end Double

namespace Double

theorem abs_le_of_rel {z v u : ℝ} (h : |z - v| ≤ u * |v|) : |z| ≤ (1 + u) * |v| := by
  have := abs_sub_abs_le_abs_sub z v
  linarith

theorem le_of_rel {z v u : ℝ} (hv : 0 ≤ v) (h : |z - v| ≤ u * |v|) :
    (1 - u) * v ≤ z ∧ z ≤ (1 + u) * v := by
  rw [abs_of_nonneg hv] at h
  have := abs_le.mp h
  constructor <;> linarith

theorem one_add_pow_le (u : ℝ) (hu : 0 ≤ u) :
    ∀ N : Nat, 2 * (N : ℝ) * u ≤ 1 → (1 + u) ^ N ≤ 1 + 2 * (N : ℝ) * u := by
  intro N
  induction N with
  | zero => intro _; simp
  | succ N ih =>
    intro h
    push_cast at h ⊢
    have hN : (0 : ℝ) ≤ (N : ℝ) := Nat.cast_nonneg N
    have h1 : 2 * (N : ℝ) * u ≤ 1 := by nlinarith
    have h2 := ih h1
    have h3 : (1 + u) ^ (N + 1) = (1 + u) ^ N * (1 + u) := pow_succ _ _
    rw [h3]
    have h4 : (1 + u) ^ N * (1 + u) ≤ (1 + 2 * (N : ℝ) * u) * (1 + u) :=
      mul_le_mul_of_nonneg_right h2 (by linarith)
    have h5 : 2 * (N : ℝ) * u * u ≤ 1 * u := mul_le_mul_of_nonneg_right h1 hu
    nlinarith

theorem one_sub_pow_ge (u : ℝ) (hu : u ≤ 1) (N : Nat) : 1 - (N : ℝ) * u ≤ (1 - u) ^ N := by
  have := one_add_mul_le_pow (show (-2 : ℝ) ≤ -u by linarith) N
  simpa [sub_eq_add_neg] using this

theorem ulp_pos : (0 : ℝ) < (2 : ℝ) ^ (-53 : Int) := two_zpow_pos _

theorem ulp_eq : (2 : ℝ) ^ (-53 : Int) = 1 / 9007199254740992 := by
  rw [zpow_neg, show ((53 : Int)) = ((53 : Nat) : Int) from rfl, zpow_natCast]
  norm_num

/-- The product of two moderate doubles is `0` or of magnitude in `[2^-1000, 2^1000)`. -/
theorem moderate_mul_range {x y : Double} (hx : moderate x = true) (hy : moderate y = true) :
    toReal x * toReal y = 0 ∨
      ((2 : ℝ) ^ (-1000 : Int) ≤ |toReal x * toReal y| ∧
        |toReal x * toReal y| < (2 : ℝ) ^ (1000 : Int)) := by
  rcases (moderate_spec hx).2 with h1 | ⟨h1, h2⟩
  · left; rw [h1, zero_mul]
  rcases (moderate_spec hy).2 with h3 | ⟨h3, h4⟩
  · left; rw [h3, mul_zero]
  right
  rw [abs_mul]
  have hP := two_zpow_pos (-500)
  constructor
  · have : (2 : ℝ) ^ (-1000 : Int) = (2 : ℝ) ^ (-500 : Int) * (2 : ℝ) ^ (-500 : Int) := by
      rw [← zpow_add₀ (by norm_num : (2 : ℝ) ≠ 0)]; norm_num
    rw [this]
    exact mul_le_mul h1 h3 hP.le (abs_nonneg _)
  · have : (2 : ℝ) ^ (1000 : Int) = (2 : ℝ) ^ (500 : Int) * (2 : ℝ) ^ (500 : Int) := by
      rw [← zpow_add₀ (by norm_num : (2 : ℝ) ≠ 0)]; norm_num
    rw [this]
    exact mul_lt_mul'' h2 h4 (abs_nonneg _) (abs_nonneg _)

/-- One accumulation `s + x * y` of the loop, for moderate `x`, `y` and an
accumulator of magnitude at most `2^1022`. -/
theorem step_approx {s x y : Double} (hs : Canon s) (hx : moderate x = true)
    (hy : moderate y = true) (hsb : |toReal s| ≤ (2 : ℝ) ^ (1022 : Int)) :
    Canon (add s (mul x y)) ∧
      |toReal (add s (mul x y))| ≤
        (1 + (2 : ℝ) ^ (-53 : Int)) *
          (|toReal s| + (1 + (2 : ℝ) ^ (-53 : Int)) * |toReal x * toReal y|) ∧
      (0 ≤ toReal s → 0 ≤ toReal x * toReal y →
        (1 - (2 : ℝ) ^ (-53 : Int)) *
          (toReal s + (1 - (2 : ℝ) ^ (-53 : Int)) * (toReal x * toReal y)) ≤
        toReal (add s (mul x y))) := by
  have hu := ulp_pos
  have hu1 : (2 : ℝ) ^ (-53 : Int) ≤ 1 := by rw [ulp_eq]; norm_num
  set u : ℝ := (2 : ℝ) ^ (-53 : Int) with hudef
  set P : ℝ := toReal x * toReal y with hP
  have hrange := moderate_mul_range hx hy
  rw [← hP] at hrange
  have h1000 : (2 : ℝ) ^ (1000 : Int) < (2 : ℝ) ^ (1021 : Int) :=
    zpow_lt_zpow_right₀ (by norm_num) (by norm_num)
  have h1021 : (2 : ℝ) ^ (1021 : Int) + (2 : ℝ) ^ (1021 : Int) = (2 : ℝ) ^ (1022 : Int) := by
    rw [show (1022 : Int) = 1021 + 1 by norm_num, zpow_add_one₀ (by norm_num : (2 : ℝ) ≠ 0)]
    ring
  have h1022 : (2 : ℝ) ^ (1022 : Int) + (2 : ℝ) ^ (1022 : Int) = (2 : ℝ) ^ (1023 : Int) := by
    rw [show (1023 : Int) = 1022 + 1 by norm_num, zpow_add_one₀ (by norm_num : (2 : ℝ) ≠ 0)]
    ring
  have hPlt : |P| < (2 : ℝ) ^ (1000 : Int) := by
    rcases hrange with h | ⟨_, h⟩
    · rw [h, abs_zero]; exact two_zpow_pos _
    · exact h
  have hnu : P = 0 ∨ (2 : ℝ) ^ (-1022 : Int) ≤ |P| := by
    rcases hrange with h | ⟨h, _⟩
    · exact Or.inl h
    · right
      have : (2 : ℝ) ^ (-1022 : Int) ≤ (2 : ℝ) ^ (-1000 : Int) :=
        zpow_le_zpow_right₀ (by norm_num) (by norm_num)
      linarith
  have h1000' : (2 : ℝ) ^ (1000 : Int) < (2 : ℝ) ^ (1023 : Int) :=
    zpow_lt_zpow_right₀ (by norm_num) (by norm_num)
  obtain ⟨hpc, hperr⟩ := (moderate_spec hx).1.mul_approx (moderate_spec hy).1 hnu
    (lt_trans hPlt h1000')
  rw [← hP, ← hudef] at hperr
  have hpabs : |toReal (mul x y)| ≤ (1 + u) * |P| := abs_le_of_rel hperr
  have hpb : |toReal (mul x y)| < (2 : ℝ) ^ (1021 : Int) := by
    have h0 : (0 : ℝ) < (2 : ℝ) ^ (1000 : Int) := two_zpow_pos _
    have : (1 + u) * |P| ≤ 2 * (2 : ℝ) ^ (1000 : Int) := by
      have hPn := abs_nonneg P
      nlinarith
    have h2 : 2 * (2 : ℝ) ^ (1000 : Int) ≤ (2 : ℝ) ^ (1021 : Int) := by
      have : (2 : ℝ) ^ (1001 : Int) = 2 * (2 : ℝ) ^ (1000 : Int) := by
        rw [show (1001 : Int) = 1000 + 1 by norm_num, zpow_add_one₀ (by norm_num : (2 : ℝ) ≠ 0)]
        ring
      rw [← this]
      exact zpow_le_zpow_right₀ (by norm_num) (by norm_num)
    calc |toReal (mul x y)| ≤ (1 + u) * |P| := hpabs
      _ < 2 * (2 : ℝ) ^ (1000 : Int) := by
        have hPn := abs_nonneg P
        nlinarith
      _ ≤ _ := h2
  have hov : |toReal s + toReal (mul x y)| < (2 : ℝ) ^ (1023 : Int) := by
    have := abs_add (toReal s) (toReal (mul x y))
    have h3 : (2 : ℝ) ^ (1021 : Int) < (2 : ℝ) ^ (1022 : Int) :=
      zpow_lt_zpow_right₀ (by norm_num) (by norm_num)
    linarith
  obtain ⟨hac, haerr⟩ := hs.add_approx hpc hov
  rw [← hudef] at haerr
  refine ⟨hac, ?_, ?_⟩
  · have h4 := abs_le_of_rel haerr
    have h5 := abs_add (toReal s) (toReal (mul x y))
    have h6 : |toReal s + toReal (mul x y)| ≤ |toReal s| + (1 + u) * |P| := by linarith
    calc |toReal (add s (mul x y))| ≤ (1 + u) * |toReal s + toReal (mul x y)| := h4
      _ ≤ (1 + u) * (|toReal s| + (1 + u) * |P|) :=
        mul_le_mul_of_nonneg_left h6 (by linarith)
  · intro hs0 hP0
    have h7 := (le_of_rel hP0 hperr).1
    have h8 : 0 ≤ (1 - u) * P := mul_nonneg (by linarith) hP0
    have h9 : 0 ≤ toReal s + toReal (mul x y) := by linarith
    have h10 := (le_of_rel h9 haerr).1
    have h11 : toReal s + (1 - u) * P ≤ toReal s + toReal (mul x y) := by linarith
    calc (1 - u) * (toReal s + (1 - u) * P) ≤ (1 - u) * (toReal s + toReal (mul x y)) :=
        mul_le_mul_of_nonneg_left h11 (by linarith)
      _ ≤ _ := h10

end Double

namespace Double

theorem two_pow_1021 : 2 * ((2 : ℝ) ^ (20 : Int) * (2 : ℝ) ^ (1000 : Int)) = (2 : ℝ) ^ (1021 : Int) := by
  rw [← zpow_add₀ (by norm_num : (2 : ℝ) ≠ 0),
    show (1021 : Int) = (20 + 1000) + 1 by norm_num, zpow_add_one₀ (by norm_num : (2 : ℝ) ≠ 0)]
  ring

/-- The factor `(1 + 2^-53)^(2k)` is at most `2` for `k ≤ 2^20`. -/
theorem one_add_ulp_pow_le_two (k : Nat) (hk : k ≤ 2 ^ 20) :
    (1 + (2 : ℝ) ^ (-53 : Int)) ^ (2 * k) ≤ 2 := by
  have hkR : (k : ℝ) ≤ 1048576 := by exact_mod_cast hk
  have h := one_add_pow_le ((2 : ℝ) ^ (-53 : Int)) ulp_pos.le (2 * k) (by
    rw [ulp_eq]
    push_cast
    linarith)
  refine h.trans ?_
  rw [ulp_eq]
  push_cast
  linarith

/-- Invariant of an accumulation `s (k+1) = s k + x k * y k` from `s 0 = 0` over
at most `2^20` moderate terms: the accumulator stays a canonical double, within
the factors `(1 ± 2^-53)^(2k)` of the exact sums. -/
theorem acc_inv (x y s : Nat → Double) (n : Nat) (hn : n ≤ 2 ^ 20)
    (hs0 : s 0 = zero) (hstep : ∀ k < n, s (k + 1) = add (s k) (mul (x k) (y k)))
    (hx : ∀ i < n, moderate (x i) = true) (hy : ∀ i < n, moderate (y i) = true) :
    ∀ k ≤ n, Canon (s k) ∧
      |toReal (s k)| ≤ (1 + (2 : ℝ) ^ (-53 : Int)) ^ (2 * k) *
        ∑ i in Finset.range k, |toReal (x i) * toReal (y i)| ∧
      ((∀ i < n, 0 ≤ toReal (x i) * toReal (y i)) →
        (1 - (2 : ℝ) ^ (-53 : Int)) ^ (2 * k) *
          ∑ i in Finset.range k, toReal (x i) * toReal (y i) ≤ toReal (s k)) := by
  have hu := ulp_pos
  have hu1 : (2 : ℝ) ^ (-53 : Int) ≤ 1 := by rw [ulp_eq]; norm_num
  set u : ℝ := (2 : ℝ) ^ (-53 : Int) with hudef
  intro k
  induction k with
  | zero =>
    intro _
    rw [hs0]
    refine ⟨canon_zero, ?_, ?_⟩
    · simp [toReal_zero]
    · intro _
      simp [toReal_zero]
  | succ k ih =>
    intro hk
    have hkn : k < n := hk
    obtain ⟨hc, hup, hlow⟩ := ih hkn.le
    set T : ℝ := ∑ i in Finset.range k, |toReal (x i) * toReal (y i)| with hT
    set c : ℝ := (1 + u) ^ (2 * k) with hcdef
    have hT0 : 0 ≤ T := Finset.sum_nonneg fun i _ => abs_nonneg _
    have hc1 : 1 ≤ c := one_le_pow₀ (by linarith)
    have hc2 : c ≤ 2 := one_add_ulp_pow_le_two k (hkn.le.trans hn)
    have hTle : T ≤ (2 : ℝ) ^ (20 : Int) * (2 : ℝ) ^ (1000 : Int) := by
      have h1 : T ≤ ∑ _i in Finset.range k, (2 : ℝ) ^ (1000 : Int) := by
        apply Finset.sum_le_sum
        intro i hi
        have hi' : i < n := lt_trans (Finset.mem_range.mp hi) hkn
        rcases moderate_mul_range (hx i hi') (hy i hi') with h | ⟨_, h⟩
        · rw [h, abs_zero]; exact (two_zpow_pos _).le
        · exact h.le
      rw [Finset.sum_const, Finset.card_range, nsmul_eq_mul] at h1
      have h2 : (k : ℝ) ≤ (2 : ℝ) ^ (20 : Int) := by
        have : (k : ℝ) ≤ ((2 ^ 20 : Nat) : ℝ) := by exact_mod_cast hkn.le.trans hn
        rw [show ((2 : ℝ) ^ (20 : Int)) = ((2 ^ 20 : Nat) : ℝ) by norm_num]
        exact this
      exact h1.trans (mul_le_mul_of_nonneg_right h2 (two_zpow_pos _).le)
    have hsb : |toReal (s k)| ≤ (2 : ℝ) ^ (1022 : Int) := by
      have h1 : c * T ≤ 2 * ((2 : ℝ) ^ (20 : Int) * (2 : ℝ) ^ (1000 : Int)) :=
        mul_le_mul hc2 hTle hT0 (by norm_num)
      rw [two_pow_1021] at h1
      have h2 : (2 : ℝ) ^ (1021 : Int) ≤ (2 : ℝ) ^ (1022 : Int) :=
        zpow_le_zpow_right₀ (by norm_num) (by norm_num)
      linarith
    obtain ⟨hc', hup', hlow'⟩ := step_approx hc (hx k hkn) (hy k hkn) hsb
    rw [← hudef] at hup' hlow'
    rw [hstep k hkn]
    set p : ℝ := toReal (x k) * toReal (y k) with hp
    have hpow : (1 + u) ^ (2 * (k + 1)) = c * ((1 + u) * (1 + u)) := by
      rw [hcdef, show 2 * (k + 1) = 2 * k + 1 + 1 by ring, pow_succ, pow_succ]
      ring
    have hpow' : (1 - u) ^ (2 * (k + 1)) = (1 - u) ^ (2 * k) * ((1 - u) * (1 - u)) := by
      rw [show 2 * (k + 1) = 2 * k + 1 + 1 by ring, pow_succ, pow_succ]
      ring
    refine ⟨hc', ?_, ?_⟩
    · rw [Finset.sum_range_succ, ← hT, ← hp, hpow]
      have hp0 := abs_nonneg p
      have hw : 1 ≤ 1 + u := by linarith
      have h1 : (1 + u) * (|toReal (s k)| + (1 + u) * |p|) ≤
          (1 + u) * (c * T + (1 + u) * |p|) :=
        mul_le_mul_of_nonneg_left (by linarith) (by linarith)
      have h2 : (1 + u) * (c * T) ≤ (1 + u) * ((1 + u) * (c * T)) :=
        le_mul_of_one_le_left (mul_nonneg (by linarith) (mul_nonneg (by linarith) hT0)) hw
      have h3 : (1 + u) * (1 + u) * |p| ≤ c * ((1 + u) * (1 + u) * |p|) :=
        le_mul_of_one_le_left (mul_nonneg (mul_nonneg (by linarith) (by linarith)) hp0) hc1
      have e1 : (1 + u) * (c * T + (1 + u) * |p|) =
          (1 + u) * (c * T) + (1 + u) * (1 + u) * |p| := by ring
      have e2 : c * ((1 + u) * (1 + u)) * (T + |p|) =
          (1 + u) * ((1 + u) * (c * T)) + c * ((1 + u) * (1 + u) * |p|) := by ring
      calc |toReal (add (s k) (mul (x k) (y k)))| ≤ _ := hup'
        _ ≤ (1 + u) * (c * T + (1 + u) * |p|) := h1
        _ ≤ c * ((1 + u) * (1 + u)) * (T + |p|) := by rw [e1, e2]; linarith
    · intro hnn
      have hlow2 := hlow hnn
      set T' : ℝ := ∑ i in Finset.range k, toReal (x i) * toReal (y i) with hT'
      set d : ℝ := (1 - u) ^ (2 * k) with hddef
      have hT'0 : 0 ≤ T' := Finset.sum_nonneg fun i hi =>
        hnn i (lt_trans (Finset.mem_range.mp hi) hkn)
      have hd0 : 0 ≤ d := pow_nonneg (by linarith) _
      have hd1 : d ≤ 1 := pow_le_one₀ (by linarith) (by linarith)
      have hp0 : 0 ≤ p := hnn k hkn
      have hs0' : 0 ≤ toReal (s k) := le_trans (mul_nonneg hd0 hT'0) hlow2
      have h1 := hlow' hs0' hp0
      rw [Finset.sum_range_succ, ← hT', ← hp, hpow']
      have hv0 : 0 ≤ 1 - u := by linarith
      have hv1 : 1 - u ≤ 1 := by linarith
      have h2 : (1 - u) * (d * T' + (1 - u) * p) ≤
          (1 - u) * (toReal (s k) + (1 - u) * p) :=
        mul_le_mul_of_nonneg_left (by linarith) hv0
      have h3 : (1 - u) * ((1 - u) * (d * T')) ≤ (1 - u) * (d * T') :=
        mul_le_of_le_one_left (mul_nonneg hv0 (mul_nonneg hd0 hT'0)) hv1
      have h4 : d * ((1 - u) * (1 - u) * p) ≤ (1 - u) * (1 - u) * p :=
        mul_le_of_le_one_left (mul_nonneg (mul_nonneg hv0 hv0) hp0) hd1
      have e1 : d * ((1 - u) * (1 - u)) * (T' + p) =
          (1 - u) * ((1 - u) * (d * T')) + d * ((1 - u) * (1 - u) * p) := by ring
      have e2 : (1 - u) * (d * T' + (1 - u) * p) =
          (1 - u) * (d * T') + (1 - u) * (1 - u) * p := by ring
      calc d * ((1 - u) * (1 - u)) * (T' + p) ≤ (1 - u) * (d * T' + (1 - u) * p) := by
            rw [e1, e2]; linarith
        _ ≤ _ := h2
        _ ≤ _ := h1

end Double

theorem cosineLoopDouble_succ (a b : List Double) (k : Nat) :
    cosineLoopDouble a b (k + 1) = cosineStepDouble a b (cosineLoopDouble a b k) k := by
  unfold cosineLoopDouble
  rw [List.range_succ, List.foldl_append]
  rfl

namespace Double

theorem getD_moderate (a : List Double) (ha : ∀ x ∈ a, moderate x = true) (i : Nat)
    (hi : i < a.length) : moderate (a.getD i nan) = true := by
  rw [List.getD_eq_getElem _ _ hi]
  exact ha _ (List.getElem_mem _)

/-- A sum of at most `2^20` products of moderate doubles is below `2^1020`. -/
theorem sum_abs_mul_le (x y : Nat → Double) (k : Nat) (hk : k ≤ 2 ^ 20)
    (hx : ∀ i < k, moderate (x i) = true) (hy : ∀ i < k, moderate (y i) = true) :
    ∑ i in Finset.range k, |toReal (x i) * toReal (y i)| ≤
      (2 : ℝ) ^ (20 : Int) * (2 : ℝ) ^ (1000 : Int) := by
  have h1 : ∑ i in Finset.range k, |toReal (x i) * toReal (y i)| ≤
      ∑ _i in Finset.range k, (2 : ℝ) ^ (1000 : Int) := by
    apply Finset.sum_le_sum
    intro i hi
    have hi' : i < k := Finset.mem_range.mp hi
    rcases moderate_mul_range (hx i hi') (hy i hi') with h | ⟨_, h⟩
    · rw [h, abs_zero]; exact (two_zpow_pos _).le
    · exact h.le
  rw [Finset.sum_const, Finset.card_range, nsmul_eq_mul] at h1
  have h2 : (k : ℝ) ≤ (2 : ℝ) ^ (20 : Int) := by
    have : (k : ℝ) ≤ ((2 ^ 20 : Nat) : ℝ) := by exact_mod_cast hk
    rw [show ((2 : ℝ) ^ (20 : Int)) = ((2 ^ 20 : Nat) : ℝ) by norm_num]
    exact this
  exact h1.trans (mul_le_mul_of_nonneg_right h2 (two_zpow_pos _).le)

end Double

open Double in
/-- The accumulator `dot` after `n` iterations: a canonical double of magnitude at
most `(1 + 2^-53)^(2n)` times the sum of the magnitudes of the exact products. -/
theorem cosineLoopDouble_dot_inv (a b : List Double) (ha : ∀ x ∈ a, moderate x = true)
    (hb : ∀ x ∈ b, moderate x = true) (n : Nat) (hna : n ≤ a.length) (hnb : n ≤ b.length)
    (hn : n ≤ 2 ^ 20) :
    Canon (cosineLoopDouble a b n).dot ∧
      |toReal (cosineLoopDouble a b n).dot| ≤ (1 + (2 : ℝ) ^ (-53 : Int)) ^ (2 * n) *
        ∑ i in Finset.range n, |toReal (a.getD i nan) * toReal (b.getD i nan)| := by
  have h := acc_inv (fun i => a.getD i nan) (fun i => b.getD i nan)
    (fun k => (cosineLoopDouble a b k).dot) n hn rfl
    (fun k _ => by show (cosineLoopDouble a b (k + 1)).dot = _; rw [cosineLoopDouble_succ]; rfl)
    (fun i hi => getD_moderate a ha i (lt_of_lt_of_le hi hna))
    (fun i hi => getD_moderate b hb i (lt_of_lt_of_le hi hnb)) n le_rfl
  exact ⟨h.1, h.2.1⟩

open Double in
/-- The accumulator of a sum of squares after `n` iterations: a canonical double
within the factors `(1 ± 2^-53)^(2n)` of the exact sum of squares, and at most
`2^1021`. -/
theorem sumSquares_inv (a : List Double) (s : Nat → Double) (ha : ∀ x ∈ a, moderate x = true)
    (n : Nat) (hna : n ≤ a.length) (hn : n ≤ 2 ^ 20) (hs0 : s 0 = zero)
    (hstep : ∀ k < n, s (k + 1) = add (s k) (mul (a.getD k nan) (a.getD k nan))) :
    Canon (s n) ∧
      (1 - (2 : ℝ) ^ (-53 : Int)) ^ (2 * n) *
          ∑ i in Finset.range n, toReal (a.getD i nan) * toReal (a.getD i nan) ≤ toReal (s n) ∧
      toReal (s n) ≤ (1 + (2 : ℝ) ^ (-53 : Int)) ^ (2 * n) *
          ∑ i in Finset.range n, toReal (a.getD i nan) * toReal (a.getD i nan) ∧
      toReal (s n) ≤ (2 : ℝ) ^ (1021 : Int) := by
  have hmod : ∀ i < n, moderate (a.getD i nan) = true :=
    fun i hi => getD_moderate a ha i (lt_of_lt_of_le hi hna)
  have h := acc_inv (fun i => a.getD i nan) (fun i => a.getD i nan) s n hn hs0 hstep
    hmod hmod n le_rfl
  have habs : ∀ i, |toReal (a.getD i nan) * toReal (a.getD i nan)| =
      toReal (a.getD i nan) * toReal (a.getD i nan) :=
    fun i => abs_of_nonneg (mul_self_nonneg _)
  have hup : toReal (s n) ≤ (1 + (2 : ℝ) ^ (-53 : Int)) ^ (2 * n) *
      ∑ i in Finset.range n, toReal (a.getD i nan) * toReal (a.getD i nan) := by
    have h1 := h.2.1
    simp only [habs] at h1
    exact (le_abs_self _).trans h1
  refine ⟨h.1, h.2.2 (fun i _ => mul_self_nonneg _), hup, hup.trans ?_⟩
  have h2 := sum_abs_mul_le (fun i => a.getD i nan) (fun i => a.getD i nan) n hn hmod hmod
  simp only [habs] at h2
  have h3 := one_add_ulp_pow_le_two n hn
  have h4 : (0 : ℝ) ≤ ∑ i in Finset.range n, toReal (a.getD i nan) * toReal (a.getD i nan) :=
    Finset.sum_nonneg fun i _ => mul_self_nonneg _
  rw [← two_pow_1021]
  exact mul_le_mul h3 h2 h4 (by norm_num)

open Double in
/-- A non-zero sum of squares of moderate doubles is at least `2^-1000`. -/
theorem sumSquares_ge (a : List Double) (ha : ∀ x ∈ a, moderate x = true)
    (n : Nat) (hna : n ≤ a.length)
    (hpos : ∑ i in Finset.range n, toReal (a.getD i nan) * toReal (a.getD i nan) ≠ 0) :
    (2 : ℝ) ^ (-1000 : Int) ≤
      ∑ i in Finset.range n, toReal (a.getD i nan) * toReal (a.getD i nan) := by
  obtain ⟨i, hi, hne⟩ := Finset.exists_ne_zero_of_sum_ne_zero hpos
  have hi' : i < n := Finset.mem_range.mp hi
  have hm := getD_moderate a ha i (lt_of_lt_of_le hi' hna)
  have h1 : (2 : ℝ) ^ (-1000 : Int) ≤ toReal (a.getD i nan) * toReal (a.getD i nan) := by
    rcases moderate_mul_range hm hm with h | ⟨h, _⟩
    · exact absurd h hne
    · rwa [abs_of_nonneg (mul_self_nonneg _)] at h
  exact h1.trans (Finset.single_le_sum
    (f := fun i => toReal (a.getD i nan) * toReal (a.getD i nan))
    (fun j _ => mul_self_nonneg _) hi)

namespace Double

theorem one_sub_ulp_pow_ge_half (n : Nat) (hn : n ≤ 2 ^ 20) :
    (1 : ℝ) / 2 ≤ (1 - (2 : ℝ) ^ (-53 : Int)) ^ (2 * n) := by
  have hkR : (n : ℝ) ≤ 1048576 := by exact_mod_cast hn
  have h := one_sub_pow_ge ((2 : ℝ) ^ (-53 : Int)) (by rw [ulp_eq]; norm_num) (2 * n)
  refine le_trans ?_ h
  rw [ulp_eq]
  push_cast
  linarith

end Double

open Double in
/-- The accumulator of a sum of squares that is not all zeros lies in
`[2^-1001, 2^1021]`. -/
theorem sumSquares_range (a : List Double) (s : Nat → Double) (ha : ∀ x ∈ a, moderate x = true)
    (n : Nat) (hna : n ≤ a.length) (hn : n ≤ 2 ^ 20) (hs0 : s 0 = zero)
    (hstep : ∀ k < n, s (k + 1) = add (s k) (mul (a.getD k nan) (a.getD k nan)))
    (hpos : ∑ i in Finset.range n, toReal (a.getD i nan) * toReal (a.getD i nan) ≠ 0) :
    (2 : ℝ) ^ (-1001 : Int) ≤ toReal (s n) ∧ toReal (s n) ≤ (2 : ℝ) ^ (1021 : Int) := by
  obtain ⟨_, hlo, _, hhi⟩ := sumSquares_inv a s ha n hna hn hs0 hstep
  refine ⟨le_trans ?_ hlo, hhi⟩
  have h1 := sumSquares_ge a ha n hna hpos
  have h2 := one_sub_ulp_pow_ge_half n hn
  have h3 : (2 : ℝ) ^ (-1001 : Int) = 1 / 2 * (2 : ℝ) ^ (-1000 : Int) := by
    rw [show (-1000 : Int) = -1001 + 1 by norm_num, zpow_add_one₀ (by norm_num : (2 : ℝ) ≠ 0)]
    ring
  rw [h3]
  exact mul_le_mul h2 h1 (two_zpow_pos _).le (le_trans (by norm_num) h2)

open Double in
/-- If the accumulator of a sum of squares is not falsy, the exact sum of squares
is not zero. -/
theorem sumSquares_ne_zero (a : List Double) (s : Nat → Double) (ha : ∀ x ∈ a, moderate x = true)
    (n : Nat) (hna : n ≤ a.length) (hn : n ≤ 2 ^ 20) (hs0 : s 0 = zero)
    (hstep : ∀ k < n, s (k + 1) = add (s k) (mul (a.getD k nan) (a.getD k nan)))
    (hf : falsy (s n) = false) :
    ∑ i in Finset.range n, toReal (a.getD i nan) * toReal (a.getD i nan) ≠ 0 := by
  obtain ⟨hc, hlo, hup, _⟩ := sumSquares_inv a s ha n hna hn hs0 hstep
  intro h0
  rw [h0, mul_zero] at hlo hup
  have : toReal (s n) = 0 := le_antisymm hup hlo
  rw [← hc.falsy_iff, hf] at this
  cases this

namespace Double

theorem sqrt_range {X : ℝ} (h1 : (2 : ℝ) ^ (-1001 : Int) ≤ X) (h2 : X ≤ (2 : ℝ) ^ (1021 : Int)) :
    (2 : ℝ) ^ (-501 : Int) ≤ Real.sqrt X ∧ Real.sqrt X ≤ (2 : ℝ) ^ (511 : Int) := by
  constructor
  · rw [Real.le_sqrt' (two_zpow_pos _), sq, ← zpow_add₀ (by norm_num : (2 : ℝ) ≠ 0)]
    refine le_trans (zpow_le_zpow_right₀ (by norm_num) ?_) h1
    norm_num
  · rw [Real.sqrt_le_left (two_zpow_pos _).le, sq, ← zpow_add₀ (by norm_num : (2 : ℝ) ≠ 0)]
    refine le_trans h2 (zpow_le_zpow_right₀ (by norm_num) ?_)
    norm_num

/-- The denominator `Math.sqrt(na) * Math.sqrt(nb)` for sums of squares in
`[2^-1001, 2^1021]`: a canonical double within the factors `(1 ± 2^-53)^3` of
the exact product of the square roots. -/
theorem denominator_approx {x y : Double} (hx : Canon x) (hy : Canon y)
    (hx1 : (2 : ℝ) ^ (-1001 : Int) ≤ toReal x) (hx2 : toReal x ≤ (2 : ℝ) ^ (1021 : Int))
    (hy1 : (2 : ℝ) ^ (-1001 : Int) ≤ toReal y) (hy2 : toReal y ≤ (2 : ℝ) ^ (1021 : Int)) :
    Canon (mul (sqrt x) (sqrt y)) ∧
      (1 - (2 : ℝ) ^ (-53 : Int)) ^ 3 * (Real.sqrt (toReal x) * Real.sqrt (toReal y)) ≤
        toReal (mul (sqrt x) (sqrt y)) ∧
      toReal (mul (sqrt x) (sqrt y)) ≤
        (1 + (2 : ℝ) ^ (-53 : Int)) ^ 3 * (Real.sqrt (toReal x) * Real.sqrt (toReal y)) := by
  have hu := ulp_pos
  have hu4 : (2 : ℝ) ^ (-53 : Int) ≤ 1 / 4 := by rw [ulp_eq]; norm_num
  set u : ℝ := (2 : ℝ) ^ (-53 : Int) with hudef
  clear_value u
  have hxpos : 0 < toReal x := lt_of_lt_of_le (two_zpow_pos _) hx1
  have hypos : 0 < toReal y := lt_of_lt_of_le (two_zpow_pos _) hy1
  obtain ⟨hsxc, hsx⟩ := hx.sqrt_approx hxpos
  obtain ⟨hsyc, hsy⟩ := hy.sqrt_approx hypos
  rw [← hudef] at hsx hsy
  set rx : ℝ := Real.sqrt (toReal x) with hrx
  set ry : ℝ := Real.sqrt (toReal y) with hry
  obtain ⟨hrx1, hrx2⟩ := sqrt_range hx1 hx2
  obtain ⟨hry1, hry2⟩ := sqrt_range hy1 hy2
  rw [← hrx] at hrx1 hrx2
  rw [← hry] at hry1 hry2
  have hP := two_zpow_pos (-501)
  have hrx0 : 0 < rx := lt_of_lt_of_le hP hrx1
  have hry0 : 0 < ry := lt_of_lt_of_le hP hry1
  obtain ⟨hsx1, hsx2⟩ := le_of_rel hrx0.le (by rw [abs_of_pos hrx0]; exact hsx)
  obtain ⟨hsy1, hsy2⟩ := le_of_rel hry0.le (by rw [abs_of_pos hry0]; exact hsy)
  set sx : ℝ := toReal (sqrt x) with hsxdef
  set sy : ℝ := toReal (sqrt y) with hsydef
  have hv0 : 0 < 1 - u := by linarith
  have hsx0 : 0 < sx := lt_of_lt_of_le (mul_pos hv0 hrx0) hsx1
  have hsy0 : 0 < sy := lt_of_lt_of_le (mul_pos hv0 hry0) hsy1
  -- the exact product of the rounded square roots
  have hWlo : (1 - u) * rx * ((1 - u) * ry) ≤ sx * sy :=
    mul_le_mul hsx1 hsy1 (mul_pos hv0 hry0).le hsx0.le
  have hWhi : sx * sy ≤ (1 + u) * rx * ((1 + u) * ry) :=
    mul_le_mul hsx2 hsy2 hsy0.le (mul_pos (by linarith) hrx0).le
  have hrr_lo : (2 : ℝ) ^ (-1002 : Int) ≤ rx * ry := by
    have : (2 : ℝ) ^ (-1002 : Int) = (2 : ℝ) ^ (-501 : Int) * (2 : ℝ) ^ (-501 : Int) := by
      rw [← zpow_add₀ (by norm_num : (2 : ℝ) ≠ 0)]; norm_num
    rw [this]
    exact mul_le_mul hrx1 hry1 hP.le hrx0.le
  have hrr_hi : rx * ry ≤ (2 : ℝ) ^ (1022 : Int) := by
    have : (2 : ℝ) ^ (1022 : Int) = (2 : ℝ) ^ (511 : Int) * (2 : ℝ) ^ (511 : Int) := by
      rw [← zpow_add₀ (by norm_num : (2 : ℝ) ≠ 0)]; norm_num
    rw [this]
    exact mul_le_mul hrx2 hry2 hry0.le (two_zpow_pos _).le
  have hrr0 : 0 < rx * ry := mul_pos hrx0 hry0
  have hW0 : 0 < sx * sy := mul_pos hsx0 hsy0
  have hnu : (2 : ℝ) ^ (-1022 : Int) ≤ |sx * sy| := by
    rw [abs_of_pos hW0]
    have h1 : (1 : ℝ) / 4 * (rx * ry) ≤ (1 - u) * rx * ((1 - u) * ry) := by
      have : (1 : ℝ) / 4 ≤ (1 - u) * (1 - u) := by nlinarith
      calc (1 : ℝ) / 4 * (rx * ry) ≤ (1 - u) * (1 - u) * (rx * ry) :=
            mul_le_mul_of_nonneg_right this hrr0.le
        _ = _ := by ring
    have h2 : (2 : ℝ) ^ (-1022 : Int) ≤ 1 / 4 * (2 : ℝ) ^ (-1002 : Int) := by
      have : (1 : ℝ) / 4 * (2 : ℝ) ^ (-1002 : Int) = (2 : ℝ) ^ (-1004 : Int) := by
        rw [show (-1002 : Int) = -1004 + 1 + 1 by norm_num,
          zpow_add_one₀ (by norm_num : (2 : ℝ) ≠ 0), zpow_add_one₀ (by norm_num : (2 : ℝ) ≠ 0)]
        ring
      rw [this]
      exact zpow_le_zpow_right₀ (by norm_num) (by norm_num)
    have h3 : (1 : ℝ) / 4 * (2 : ℝ) ^ (-1002 : Int) ≤ 1 / 4 * (rx * ry) :=
      mul_le_mul_of_nonneg_left hrr_lo (by norm_num)
    exact h2.trans (h3.trans (h1.trans hWlo))
  have hov : |sx * sy| < (2 : ℝ) ^ (1023 : Int) := by
    rw [abs_of_pos hW0]
    have h1 : (1 + u) * rx * ((1 + u) * ry) ≤ 25 / 16 * (rx * ry) := by
      have : (1 + u) * (1 + u) ≤ 25 / 16 := by nlinarith
      calc (1 + u) * rx * ((1 + u) * ry) = (1 + u) * (1 + u) * (rx * ry) := by ring
        _ ≤ 25 / 16 * (rx * ry) := mul_le_mul_of_nonneg_right this hrr0.le
    have h2 : (25 : ℝ) / 16 * (rx * ry) ≤ 25 / 16 * (2 : ℝ) ^ (1022 : Int) :=
      mul_le_mul_of_nonneg_left hrr_hi (by norm_num)
    have h3 : (2 : ℝ) ^ (1023 : Int) = 2 * (2 : ℝ) ^ (1022 : Int) := by
      rw [show (1023 : Int) = 1022 + 1 by norm_num, zpow_add_one₀ (by norm_num : (2 : ℝ) ≠ 0)]
      ring
    have h4 := two_zpow_pos 1022
    rw [h3]
    have h5 : (25 : ℝ) / 16 * (2 : ℝ) ^ (1022 : Int) < 2 * (2 : ℝ) ^ (1022 : Int) :=
      mul_lt_mul_of_pos_right (by norm_num) h4
    exact lt_of_le_of_lt (hWhi.trans (h1.trans h2)) h5
  obtain ⟨hdc, hd⟩ := hsxc.mul_approx hsyc (Or.inr hnu) hov
  rw [← hudef, ← hsxdef, ← hsydef] at hd
  obtain ⟨hd1, hd2⟩ := le_of_rel hW0.le hd
  refine ⟨hdc, ?_, ?_⟩
  · calc (1 - u) ^ 3 * (rx * ry) = (1 - u) * ((1 - u) * rx * ((1 - u) * ry)) := by ring
      _ ≤ (1 - u) * (sx * sy) := mul_le_mul_of_nonneg_left hWlo hv0.le
      _ ≤ _ := hd1
  · calc toReal (mul (sqrt x) (sqrt y)) ≤ (1 + u) * (sx * sy) := hd2
      _ ≤ (1 + u) * ((1 + u) * rx * ((1 + u) * ry)) :=
        mul_le_mul_of_nonneg_left hWhi (by linarith)
      _ = _ := by ring

end Double

theorem cosineSimilarityDouble_eq (a b : List Double) :
    cosineSimilarityDouble a b =
      if Double.falsy (cosineLoopDouble a b (min a.length b.length)).na ||
          Double.falsy (cosineLoopDouble a b (min a.length b.length)).nb then Double.zero
      else Double.div (cosineLoopDouble a b (min a.length b.length)).dot
        (Double.mul (Double.sqrt (cosineLoopDouble a b (min a.length b.length)).na)
          (Double.sqrt (cosineLoopDouble a b (min a.length b.length)).nb)) := rfl

namespace Double

theorem pow_consts (n : Nat) (hn : n ≤ 2 ^ 20) :
    (1 + (2 : ℝ) ^ (-53 : Int)) ^ (2 * n) ≤ 1 + 1 / 2 ^ 31 ∧
      1 - 1 / 2 ^ 32 ≤ (1 - (2 : ℝ) ^ (-53 : Int)) ^ (2 * n) := by
  have hkR : (n : ℝ) ≤ 1048576 := by exact_mod_cast hn
  constructor
  · have h := one_add_pow_le ((2 : ℝ) ^ (-53 : Int)) ulp_pos.le (2 * n) (by
      rw [ulp_eq]
      push_cast
      linarith)
    refine h.trans ?_
    rw [ulp_eq]
    push_cast
    norm_num
    linarith
  · have h := one_sub_pow_ge ((2 : ℝ) ^ (-53 : Int)) (by rw [ulp_eq]; norm_num) (2 * n)
    refine le_trans ?_ h
    rw [ulp_eq]
    push_cast
    norm_num
    linarith

/-- Cauchy-Schwarz for the sums of the loop. -/
theorem sum_abs_mul_le_sqrt (α β : Nat → ℝ) (n : Nat) :
    ∑ i in Finset.range n, |α i * β i| ≤
      Real.sqrt (∑ i in Finset.range n, α i * α i) *
        Real.sqrt (∑ i in Finset.range n, β i * β i) := by
  have h := Real.sum_mul_le_sqrt_mul_sqrt (Finset.range n) (fun i => |α i|) (fun i => |β i|)
  simp only [sq_abs] at h
  have e1 : ∀ i, |α i * β i| = |α i| * |β i| := fun i => abs_mul _ _
  have e2 : ∀ i, α i * α i = α i ^ 2 := fun i => (sq _).symm
  have e3 : ∀ i, β i * β i = β i ^ 2 := fun i => (sq _).symm
  simp only [e1, e2, e3]
  exact h

end Double

open Double in
/-- In double arithmetic, for vectors of moderate doubles with at most `2^20`
common components, `cosineSimilarity(a, b)` is a finite double of magnitude at
most `1 + 2^-30`. -/
theorem cosineSimilarityDouble_abs_le (a b : List Double) (ha : ∀ x ∈ a, moderate x = true)
    (hb : ∀ x ∈ b, moderate x = true) (hlen : min a.length b.length ≤ 2 ^ 20) :
    Canon (cosineSimilarityDouble a b) ∧
      |toReal (cosineSimilarityDouble a b)| ≤ 1 + 1 / 2 ^ 30 := by
  rw [cosineSimilarityDouble_eq]
  set n : Nat := min a.length b.length with hn
  have hna : n ≤ a.length := min_le_left _ _
  have hnb : n ≤ b.length := min_le_right _ _
  have hstepA : ∀ k < n, (cosineLoopDouble a b (k + 1)).na =
      add (cosineLoopDouble a b k).na (mul (a.getD k nan) (a.getD k nan)) :=
    fun k _ => by rw [cosineLoopDouble_succ]; rfl
  have hstepB : ∀ k < n, (cosineLoopDouble a b (k + 1)).nb =
      add (cosineLoopDouble a b k).nb (mul (b.getD k nan) (b.getD k nan)) :=
    fun k _ => by rw [cosineLoopDouble_succ]; rfl
  by_cases hf : (falsy (cosineLoopDouble a b n).na || falsy (cosineLoopDouble a b n).nb) = true
  · rw [if_pos hf]
    refine ⟨canon_zero, ?_⟩
    rw [toReal_zero, abs_zero]
    positivity
  rw [if_neg hf]
  simp only [Bool.or_eq_true, not_or, Bool.not_eq_true] at hf
  obtain ⟨hfa, hfb⟩ := hf
  obtain ⟨hDc, hD⟩ := cosineLoopDouble_dot_inv a b ha hb n hna hnb hlen
  obtain ⟨hAc, hAlo, -, -⟩ := sumSquares_inv a (fun k => (cosineLoopDouble a b k).na) ha n hna
    hlen rfl hstepA
  obtain ⟨hBc, hBlo, -, -⟩ := sumSquares_inv b (fun k => (cosineLoopDouble a b k).nb) hb n hnb
    hlen rfl hstepB
  have hSA := sumSquares_ne_zero a (fun k => (cosineLoopDouble a b k).na) ha n hna hlen rfl
    hstepA hfa
  have hSB := sumSquares_ne_zero b (fun k => (cosineLoopDouble a b k).nb) hb n hnb hlen rfl
    hstepB hfb
  obtain ⟨hA1, hA2⟩ := sumSquares_range a (fun k => (cosineLoopDouble a b k).na) ha n hna hlen
    rfl hstepA hSA
  obtain ⟨hB1, hB2⟩ := sumSquares_range b (fun k => (cosineLoopDouble a b k).nb) hb n hnb hlen
    rfl hstepB hSB
  obtain ⟨hdenc, hdenlo, -⟩ := denominator_approx hAc hBc hA1 hA2 hB1 hB2
  obtain ⟨hc1, hc2⟩ := pow_consts n hlen
  have hCS := sum_abs_mul_le_sqrt (fun i => toReal (a.getD i nan))
    (fun i => toReal (b.getD i nan)) n
  beta_reduce at hCS
  -- names for the real quantities
  have hu := ulp_pos
  have hueq := ulp_eq
  set u : ℝ := (2 : ℝ) ^ (-53 : Int) with hudef
  clear_value u
  set c1 : ℝ := (1 + u) ^ (2 * n) with hc1def
  set c2 : ℝ := (1 - u) ^ (2 * n) with hc2def
  set SAB : ℝ := ∑ i in Finset.range n, |toReal (a.getD i nan) * toReal (b.getD i nan)| with hSABdef
  set SA : ℝ := ∑ i in Finset.range n, toReal (a.getD i nan) * toReal (a.getD i nan) with hSAdef
  set SB : ℝ := ∑ i in Finset.range n, toReal (b.getD i nan) * toReal (b.getD i nan) with hSBdef
  set D : ℝ := toReal (cosineLoopDouble a b n).dot with hDdef
  set A : ℝ := toReal (cosineLoopDouble a b n).na with hAdef
  set B : ℝ := toReal (cosineLoopDouble a b n).nb with hBdef
  set Rd : ℝ := toReal (mul (sqrt (cosineLoopDouble a b n).na) (sqrt (cosineLoopDouble a b n).nb))
    with hRddef
  clear_value c1 c2 SAB SA SB D A B Rd
  have hSA0 : 0 ≤ SA := by rw [hSAdef]; exact Finset.sum_nonneg fun i _ => mul_self_nonneg _
  have hSB0 : 0 ≤ SB := by rw [hSBdef]; exact Finset.sum_nonneg fun i _ => mul_self_nonneg _
  have hc2pos : 0 < c2 := lt_of_lt_of_le (by norm_num) hc2
  have hc1pos : 0 < c1 := by rw [hc1def]; exact pow_pos (by linarith) _
  have hApos : 0 < A := lt_of_lt_of_le (two_zpow_pos _) hA1
  have hBpos : 0 < B := lt_of_lt_of_le (two_zpow_pos _) hB1
  have hXY : 0 < Real.sqrt A * Real.sqrt B :=
    mul_pos (Real.sqrt_pos.mpr hApos) (Real.sqrt_pos.mpr hBpos)
  -- Cauchy-Schwarz, transported to the computed sums of squares
  have h1 : c2 * (Real.sqrt SA * Real.sqrt SB) ≤ Real.sqrt A * Real.sqrt B := by
    have e : c2 * (Real.sqrt SA * Real.sqrt SB) = Real.sqrt (c2 * SA) * Real.sqrt (c2 * SB) := by
      rw [Real.sqrt_mul hc2pos.le, Real.sqrt_mul hc2pos.le]
      have := Real.mul_self_sqrt hc2pos.le
      calc c2 * (Real.sqrt SA * Real.sqrt SB)
          = (Real.sqrt c2 * Real.sqrt c2) * (Real.sqrt SA * Real.sqrt SB) := by rw [this]
        _ = _ := by ring
    rw [e]
    exact mul_le_mul (Real.sqrt_le_sqrt hAlo) (Real.sqrt_le_sqrt hBlo) (Real.sqrt_nonneg _)
      (Real.sqrt_nonneg _)
  have h2 : c2 * |D| ≤ c1 * (Real.sqrt A * Real.sqrt B) := by
    calc c2 * |D| ≤ c2 * (c1 * SAB) := mul_le_mul_of_nonneg_left hD hc2pos.le
      _ = c1 * (c2 * SAB) := by ring
      _ ≤ c1 * (c2 * (Real.sqrt SA * Real.sqrt SB)) :=
        mul_le_mul_of_nonneg_left (mul_le_mul_of_nonneg_left hCS hc2pos.le) hc1pos.le
      _ ≤ _ := mul_le_mul_of_nonneg_left h1 hc1pos.le
  have hv3 : 0 < (1 - u) ^ 3 := pow_pos (by rw [hueq]; norm_num) _
  have hRdpos : 0 < Rd := lt_of_lt_of_le (mul_pos hv3 hXY) hdenlo
  have h3 : c2 * (1 - u) ^ 3 * |D| ≤ c1 * Rd := by
    calc c2 * (1 - u) ^ 3 * |D| = (1 - u) ^ 3 * (c2 * |D|) := by ring
      _ ≤ (1 - u) ^ 3 * (c1 * (Real.sqrt A * Real.sqrt B)) :=
        mul_le_mul_of_nonneg_left h2 hv3.le
      _ = c1 * ((1 - u) ^ 3 * (Real.sqrt A * Real.sqrt B)) := by ring
      _ ≤ _ := mul_le_mul_of_nonneg_left hdenlo hc1pos.le
  -- the numeric constants
  have hnum : (1 + u) * (1 + 1 / 2 ^ 31) ≤ (1 + 1 / 2 ^ 30) * ((1 - 1 / 2 ^ 32) * (1 - u) ^ 3) := by
    rw [hueq]; norm_num
  have hK : 0 < c2 * (1 - u) ^ 3 := mul_pos hc2pos hv3
  have h4 : (1 + u) * |D| ≤ (1 + 1 / 2 ^ 30) * Rd := by
    have hh : (1 + u) * |D| * (c2 * (1 - u) ^ 3) ≤ (1 + 1 / 2 ^ 30) * Rd * (c2 * (1 - u) ^ 3) := by
      calc (1 + u) * |D| * (c2 * (1 - u) ^ 3) = (1 + u) * (c2 * (1 - u) ^ 3 * |D|) := by ring
        _ ≤ (1 + u) * (c1 * Rd) := mul_le_mul_of_nonneg_left h3 (by linarith)
        _ = ((1 + u) * c1) * Rd := by ring
        _ ≤ ((1 + u) * (1 + 1 / 2 ^ 31)) * Rd :=
          mul_le_mul_of_nonneg_right (mul_le_mul_of_nonneg_left hc1 (by linarith)) hRdpos.le
        _ ≤ ((1 + 1 / 2 ^ 30) * ((1 - 1 / 2 ^ 32) * (1 - u) ^ 3)) * Rd :=
          mul_le_mul_of_nonneg_right hnum hRdpos.le
        _ ≤ ((1 + 1 / 2 ^ 30) * (c2 * (1 - u) ^ 3)) * Rd :=
          mul_le_mul_of_nonneg_right
            (mul_le_mul_of_nonneg_left (mul_le_mul_of_nonneg_right hc2 hv3.le) (by norm_num))
            hRdpos.le
        _ = _ := by ring
    exact le_of_mul_le_mul_right hh hK
  have hquot : (1 + u) * |D / Rd| ≤ 1 + 1 / 2 ^ 30 := by
    rw [abs_div, abs_of_pos hRdpos, ← mul_div_assoc, div_le_iff₀ hRdpos]
    exact h4
  have hquot2 : |D / Rd| ≤ 1 + 1 / 2 ^ 30 := by
    refine le_trans ?_ hquot
    exact le_mul_of_one_le_left (abs_nonneg _) (by linarith)
  have hov : |D / Rd| < (2 : ℝ) ^ (1023 : Int) := by
    have : (2 : ℝ) ^ (1 : Int) ≤ (2 : ℝ) ^ (1023 : Int) :=
      zpow_le_zpow_right₀ (by norm_num) (by norm_num)
    have h5 : (1 : ℝ) + 1 / 2 ^ 30 < (2 : ℝ) ^ (1 : Int) := by norm_num
    exact lt_of_le_of_lt hquot2 (lt_of_lt_of_le h5 this)
  obtain ⟨hqc, hq⟩ := hDc.div_approx hdenc (by rw [← hRddef]; exact hRdpos.ne')
    (by rw [← hDdef, ← hRddef]; exact hov)
  rw [← hDdef, ← hRddef, ← hudef] at hq
  refine ⟨hqc, ?_⟩
  rcases hq with h | ⟨h5, h6⟩
  · exact (abs_le_of_rel h).trans hquot
  · have h7 : (2 : ℝ) ^ (-1022 : Int) ≤ (2 : ℝ) ^ (-1 : Int) :=
      zpow_le_zpow_right₀ (by norm_num) (by norm_num)
    have h8 : (2 : ℝ) ^ (-1075 : Int) ≤ (2 : ℝ) ^ (-1 : Int) :=
      zpow_le_zpow_right₀ (by norm_num) (by norm_num)
    have h9 : (2 : ℝ) ^ (-1 : Int) = 1 / 2 := by norm_num
    rw [h9] at h7 h8
    have h10 := abs_sub_abs_le_abs_sub
      (toReal (div (cosineLoopDouble a b n).dot
        (mul (sqrt (cosineLoopDouble a b n).na) (sqrt (cosineLoopDouble a b n).nb)))) (D / Rd)
    have h11 : |toReal (div (cosineLoopDouble a b n).dot
        (mul (sqrt (cosineLoopDouble a b n).na) (sqrt (cosineLoopDouble a b n).nb)))| ≤ 1 := by
      have := h6.trans h8
      have := h5.le.trans h7
      linarith
    exact h11.trans (by norm_num)

theorem cosineLoopDouble_self (a : List Double) (k : Nat) :
    (cosineLoopDouble a a k).dot = (cosineLoopDouble a a k).na ∧
      (cosineLoopDouble a a k).nb = (cosineLoopDouble a a k).na := by
  induction k with
  | zero => exact ⟨rfl, rfl⟩
  | succ k ih =>
    rw [cosineLoopDouble_succ]
    simp only [cosineStepDouble, ih.1, ih.2, and_self]

open Double in
/-- In double arithmetic, for a vector of at most `2^20` moderate doubles with a
non-zero component, `cosineSimilarity(a, a)` is a finite double within `2^-50`
of `1`. -/
theorem cosineSimilarityDouble_self_canon (a : List Double)
    (ha : ∀ x ∈ a, moderate x = true) (hnz : ∃ x ∈ a, falsy x = false)
    (hlen : a.length ≤ 2 ^ 20) :
    Canon (cosineSimilarityDouble a a) ∧
      1 - 1 / 2 ^ 50 ≤ toReal (cosineSimilarityDouble a a) ∧
      toReal (cosineSimilarityDouble a a) ≤ 1 + 1 / 2 ^ 50 := by
  rw [cosineSimilarityDouble_eq, min_self]
  obtain ⟨hdot, hnb⟩ := cosineLoopDouble_self a a.length
  rw [hdot, hnb, Bool.or_self]
  have hstepA : ∀ k < a.length, (cosineLoopDouble a a (k + 1)).na =
      add (cosineLoopDouble a a k).na (mul (a.getD k nan) (a.getD k nan)) :=
    fun k _ => by rw [cosineLoopDouble_succ]; rfl
  obtain ⟨hAc, hAlo, -, -⟩ := sumSquares_inv a (fun k => (cosineLoopDouble a a k).na) ha
    a.length le_rfl hlen rfl hstepA
  -- the exact sum of squares is positive
  have hSA : ∑ i in Finset.range a.length, toReal (a.getD i nan) * toReal (a.getD i nan) ≠ 0 := by
    obtain ⟨x, hx, hxf⟩ := hnz
    obtain ⟨i, hi, rfl⟩ := List.getElem_of_mem hx
    have hxne : toReal a[i] ≠ 0 := by
      intro h0
      rw [← (moderate_spec (ha _ hx)).1.falsy_iff, hxf] at h0
      cases h0
    have hpos : 0 < toReal (a.getD i nan) * toReal (a.getD i nan) := by
      rw [List.getD_eq_getElem _ _ hi]
      exact mul_self_pos.mpr hxne
    have hle := Finset.single_le_sum
      (f := fun j => toReal (a.getD j nan) * toReal (a.getD j nan))
      (fun j _ => mul_self_nonneg _) (Finset.mem_range.mpr hi)
    beta_reduce at hle
    linarith
  obtain ⟨hA1, hA2⟩ := sumSquares_range a (fun k => (cosineLoopDouble a a k).na) ha a.length
    le_rfl hlen rfl hstepA hSA
  have hApos : 0 < toReal (cosineLoopDouble a a a.length).na :=
    lt_of_lt_of_le (two_zpow_pos _) hA1
  have hnf : falsy (cosineLoopDouble a a a.length).na = false := by
    rw [← Bool.not_eq_true, hAc.falsy_iff]
    exact hApos.ne'
  rw [hnf, if_neg (by simp)]
  obtain ⟨hdenc, hdenlo, hdenhi⟩ := denominator_approx hAc hAc hA1 hA2 hA1 hA2
  rw [Real.mul_self_sqrt hApos.le] at hdenlo hdenhi
  have hu := ulp_pos
  have hueq := ulp_eq
  set u : ℝ := (2 : ℝ) ^ (-53 : Int) with hudef
  clear_value u
  set S : ℝ := toReal (cosineLoopDouble a a a.length).na with hSdef
  set Rd : ℝ := toReal (mul (sqrt (cosineLoopDouble a a a.length).na)
    (sqrt (cosineLoopDouble a a a.length).na)) with hRddef
  clear_value S Rd
  have hv3 : 0 < (1 - u) ^ 3 := pow_pos (by rw [hueq]; norm_num) _
  have hw3 : 0 < (1 + u) ^ 3 := pow_pos (by linarith) _
  have hRdpos : 0 < Rd := lt_of_lt_of_le (mul_pos hv3 hApos) hdenlo
  have hvpos : 0 < S / Rd := div_pos hApos hRdpos
  -- the exact quotient is between `1 / (1 + u)^3` and `1 / (1 - u)^3`
  have hqhi : S / Rd ≤ 1 / (1 - u) ^ 3 := by
    rw [div_le_div_iff₀ hRdpos hv3]
    linarith
  have hqlo : 1 / (1 + u) ^ 3 ≤ S / Rd := by
    rw [div_le_div_iff₀ hw3 hRdpos]
    linarith
  have hnum1 : (1 + u) * (1 / (1 - u) ^ 3) ≤ 1 + 1 / 2 ^ 50 := by
    rw [hueq]; norm_num
  have hnum2 : 1 - 1 / 2 ^ 50 ≤ (1 - u) * (1 / (1 + u) ^ 3) := by
    rw [hueq]; norm_num
  have hnum3 : (1 : ℝ) / 8 ≤ 1 / (1 + u) ^ 3 := by
    rw [hueq]; norm_num
  have hnum4 : 1 / (1 - u) ^ 3 ≤ (2 : ℝ) := by
    rw [hueq]; norm_num
  have hov : |S / Rd| < (2 : ℝ) ^ (1023 : Int) := by
    rw [abs_of_pos hvpos]
    have : (2 : ℝ) ^ (2 : Int) ≤ (2 : ℝ) ^ (1023 : Int) :=
      zpow_le_zpow_right₀ (by norm_num) (by norm_num)
    have h5 : (2 : ℝ) < (2 : ℝ) ^ (2 : Int) := by norm_num
    exact lt_of_le_of_lt (hqhi.trans hnum4) (lt_of_lt_of_le h5 this)
  obtain ⟨hqc, hq⟩ := hAc.div_approx hdenc (by rw [← hRddef]; exact hRdpos.ne')
    (by rw [← hSdef, ← hRddef]; exact hov)
  rw [← hSdef, ← hRddef, ← hudef] at hq
  refine ⟨hqc, ?_⟩
  rcases hq with h | ⟨h5, _⟩
  · obtain ⟨h1, h2⟩ := le_of_rel hvpos.le h
    have hu1 : 0 ≤ 1 - u := by rw [hueq]; norm_num
    constructor
    · calc 1 - 1 / 2 ^ 50 ≤ (1 - u) * (1 / (1 + u) ^ 3) := hnum2
        _ ≤ (1 - u) * (S / Rd) := mul_le_mul_of_nonneg_left hqlo hu1
        _ ≤ _ := h1
    · calc _ ≤ (1 + u) * (S / Rd) := h2
        _ ≤ (1 + u) * (1 / (1 - u) ^ 3) := mul_le_mul_of_nonneg_left hqhi (by linarith)
        _ ≤ _ := hnum1
  · exfalso
    rw [abs_of_pos hvpos] at h5
    have h7 : (2 : ℝ) ^ (-1022 : Int) ≤ (2 : ℝ) ^ (-3 : Int) :=
      zpow_le_zpow_right₀ (by norm_num) (by norm_num)
    have h9 : (2 : ℝ) ^ (-3 : Int) = 1 / 8 := by norm_num
    rw [h9] at h7
    have := hnum3.trans hqlo
    exact absurd (lt_of_le_of_lt (h7.trans this) h5) (lt_irrefl _)

/-! ### The range of `cosineSimilarity` in double arithmetic -/

theorem sortInsertDouble_perm {α : Type} (cmp : α → α → Double) (x : α) (l : List α) :
    (sortInsertDouble cmp x l).Perm (x :: l) := by
  induction l with
  | nil => exact List.Perm.refl _
  | cons y ys ih =>
    simp only [sortInsertDouble]
    split_ifs
    · exact List.Perm.refl _
    · exact (List.Perm.cons y ih).trans (List.Perm.swap x y ys)

theorem arraySortDouble_perm {α : Type} (cmp : α → α → Double) (l : List α) :
    (arraySortDouble cmp l).Perm l := by
  induction l with
  | nil => exact List.Perm.refl _
  | cons x xs ih =>
    simp only [arraySortDouble]
    exact (sortInsertDouble_perm cmp x _).trans (List.Perm.cons x ih)

theorem mem_retrieveTopKChunksDouble (q : List Double) (chunks : List (Chunk Double)) (k : Int)
    (r : ScoredChunk Double) (hr : r ∈ retrieveTopKChunksDouble q chunks k) :
    ∃ c ∈ chunks,
      r = { id := c.id, text := c.text, score := cosineSimilarityDouble q c.embedding } := by
  unfold retrieveTopKChunksDouble at hr
  have h1 := (slice0_sublist _ k).subset hr
  have h2 := (arraySortDouble_perm _ _).mem_iff.mp h1
  unfold scoreChunksDouble at h2
  obtain ⟨c, hc, rfl⟩ := List.mem_map.mp h2
  exact ⟨c, hc, rfl⟩

/-- A canonical double of magnitude at most `1 + 2^-30` is within
`[-(1 + 2^-30), 1 + 2^-30]`. -/
theorem Double.within_of_abs_le {d : Double} (hc : Double.Canon d)
    (h : |Double.toReal d| ≤ 1 + 1 / 2 ^ 30) :
    Double.within (-(1 + 1 / 2 ^ 30)) (1 + 1 / 2 ^ 30) d := by
  rw [hc.within_iff]
  obtain ⟨h1, h2⟩ := abs_le.mp h
  push_cast
  exact ⟨h1, h2⟩

/-- C9 (amended). In the IEEE-754 double arithmetic the code computes in: for
vectors `a`, `b` of finite doubles that are `0` or of magnitude in
`[2^-500, 2^500)`, with at most `2^20` common components,
`cosineSimilarity(a, b)` is a finite number in `[-(1 + 2^-30), 1 + 2^-30]`
(rounding can take it out of `[-1, 1]`, but no further); so is every score in a
result of `retrieveTopKChunks(q, chunks, k)` for such a query `q` of at most
`2^20` components and such chunk embeddings; and the exact cosine similarity of
the same vectors, computed without rounding, lies in `[-1, 1]`. -/
theorem cosineSimilarityDouble_bounded (a b q : List Double) (chunks : List (Chunk Double))
    (k : Int) (ha : ∀ x ∈ a, x.moderate = true) (hb : ∀ x ∈ b, x.moderate = true)
    (hab : min a.length b.length ≤ 2 ^ 20) (hq : ∀ x ∈ q, x.moderate = true)
    (hql : q.length ≤ 2 ^ 20) (hc : ∀ c ∈ chunks, ∀ x ∈ c.embedding, x.moderate = true) :
    Double.within (-(1 + 1 / 2 ^ 30)) (1 + 1 / 2 ^ 30) (cosineSimilarityDouble a b) ∧
      (∀ r ∈ retrieveTopKChunksDouble q chunks k,
        Double.within (-(1 + 1 / 2 ^ 30)) (1 + 1 / 2 ^ 30) r.score) ∧
      (-1 ≤ cosineSimilarity Real.sqrt (a.map Double.toReal) (b.map Double.toReal) ∧
        cosineSimilarity Real.sqrt (a.map Double.toReal) (b.map Double.toReal) ≤ 1) := by
  refine ⟨?_, ?_, abs_le.mp (cosineSimilarity_abs_le_one _ _)⟩
  · obtain ⟨h1, h2⟩ := cosineSimilarityDouble_abs_le a b ha hb hab
    exact Double.within_of_abs_le h1 h2
  · intro r hr
    obtain ⟨c, hcm, rfl⟩ := mem_retrieveTopKChunksDouble q chunks k r hr
    obtain ⟨h1, h2⟩ := cosineSimilarityDouble_abs_le q c.embedding hq (hc c hcm)
      ((min_le_left _ _).trans hql)
    exact Double.within_of_abs_le h1 h2

set_option maxRecDepth 100000 in
theorem cosineSimilarityDouble_bounded_witness :
    ((∀ x ∈ [Double.fin false 7205759403792794 (-53), Double.fin false 6755399441055744 (-52)],
        x.moderate = true) ∧
      (∀ x ∈ [Double.fin true 7205759403792794 (-53), Double.fin false 0 (-1074),
          Double.fin false 6755399441055744 (-52)], x.moderate = true) ∧
      min [Double.fin false 7205759403792794 (-53), Double.fin false 6755399441055744 (-52)].length
          [Double.fin true 7205759403792794 (-53), Double.fin false 0 (-1074),
            Double.fin false 6755399441055744 (-52)].length ≤ 2 ^ 20 ∧
      [Double.fin false 7205759403792794 (-53), Double.fin false 6755399441055744 (-52)].length ≤
        2 ^ 20 ∧
      (∀ c ∈ [Chunk.mk 0 []
            [Double.fin false 7205759403792794 (-53), Double.fin false 6755399441055744 (-52)]],
        ∀ x ∈ c.embedding, x.moderate = true)) ∧
    (Double.within (-(1 + 1 / 2 ^ 30)) (1 + 1 / 2 ^ 30)
        (cosineSimilarityDouble
          [Double.fin false 7205759403792794 (-53), Double.fin false 6755399441055744 (-52)]
          [Double.fin true 7205759403792794 (-53), Double.fin false 0 (-1074),
            Double.fin false 6755399441055744 (-52)]) ∧
      (∀ r ∈ retrieveTopKChunksDouble
          [Double.fin false 7205759403792794 (-53), Double.fin false 6755399441055744 (-52)]
          [Chunk.mk 0 []
            [Double.fin false 7205759403792794 (-53), Double.fin false 6755399441055744 (-52)]] 3,
        Double.within (-(1 + 1 / 2 ^ 30)) (1 + 1 / 2 ^ 30) r.score) ∧
      (-1 ≤ cosineSimilarity Real.sqrt
          ([Double.fin false 7205759403792794 (-53),
            Double.fin false 6755399441055744 (-52)].map Double.toReal)
          ([Double.fin true 7205759403792794 (-53), Double.fin false 0 (-1074),
            Double.fin false 6755399441055744 (-52)].map Double.toReal) ∧
        cosineSimilarity Real.sqrt
          ([Double.fin false 7205759403792794 (-53),
            Double.fin false 6755399441055744 (-52)].map Double.toReal)
          ([Double.fin true 7205759403792794 (-53), Double.fin false 0 (-1074),
            Double.fin false 6755399441055744 (-52)].map Double.toReal) ≤ 1)) :=
  ⟨⟨by decide, by decide, by decide, by decide, by decide⟩,
    cosineSimilarityDouble_bounded
      [Double.fin false 7205759403792794 (-53), Double.fin false 6755399441055744 (-52)]
      [Double.fin true 7205759403792794 (-53), Double.fin false 0 (-1074),
        Double.fin false 6755399441055744 (-52)]
      [Double.fin false 7205759403792794 (-53), Double.fin false 6755399441055744 (-52)]
      [Chunk.mk 0 []
        [Double.fin false 7205759403792794 (-53), Double.fin false 6755399441055744 (-52)]] 3
      (by decide) (by decide) (by decide) (by decide) (by decide) (by decide)⟩

/-- C10 (amended). In the IEEE-754 double arithmetic the code computes in: for
a vector `a` of at most `2^20` finite doubles that are `0` or of magnitude in
`[2^-500, 2^500)`, at least one of them non-zero, `cosineSimilarity(a, a)` is a
finite number within `2^-50` of `1` (it need not be `1`); the exact cosine
similarity of the same vector with itself, computed without rounding, is `1`. -/
theorem cosineSimilarityDouble_self_near_one (a : List Double)
    (ha : ∀ x ∈ a, x.moderate = true) (hnz : ∃ x ∈ a, x.falsy = false)
    (hlen : a.length ≤ 2 ^ 20) :
    Double.within (1 - 1 / 2 ^ 50) (1 + 1 / 2 ^ 50) (cosineSimilarityDouble a a) ∧
      cosineSimilarity Real.sqrt (a.map Double.toReal) (a.map Double.toReal) = 1 := by
  constructor
  · obtain ⟨hc, h1, h2⟩ := cosineSimilarityDouble_self_canon a ha hnz hlen
    rw [hc.within_iff]
    push_cast
    exact ⟨h1, h2⟩
  · apply cosineSimilarity_self
    obtain ⟨x, hx, hxf⟩ := hnz
    refine ⟨Double.toReal x, List.mem_map.mpr ⟨x, hx, rfl⟩, ?_⟩
    intro h0
    rw [← (Double.moderate_spec (ha x hx)).1.falsy_iff, hxf] at h0
    cases h0

set_option maxRecDepth 100000 in
theorem cosineSimilarityDouble_self_near_one_witness :
    ((∀ x ∈ [Double.fin false 7205759403792794 (-53), Double.fin false 6755399441055744 (-52)],
        x.moderate = true) ∧
      (∃ x ∈ [Double.fin false 7205759403792794 (-53), Double.fin false 6755399441055744 (-52)],
        x.falsy = false) ∧
      [Double.fin false 7205759403792794 (-53), Double.fin false 6755399441055744 (-52)].length ≤
        2 ^ 20) ∧
    (Double.within (1 - 1 / 2 ^ 50) (1 + 1 / 2 ^ 50)
        (cosineSimilarityDouble
          [Double.fin false 7205759403792794 (-53), Double.fin false 6755399441055744 (-52)]
          [Double.fin false 7205759403792794 (-53), Double.fin false 6755399441055744 (-52)]) ∧
      cosineSimilarity Real.sqrt
          ([Double.fin false 7205759403792794 (-53),
            Double.fin false 6755399441055744 (-52)].map Double.toReal)
          ([Double.fin false 7205759403792794 (-53),
            Double.fin false 6755399441055744 (-52)].map Double.toReal) = 1) :=
  ⟨⟨by decide, by decide, by decide⟩,
    cosineSimilarityDouble_self_near_one
      [Double.fin false 7205759403792794 (-53), Double.fin false 6755399441055744 (-52)]
      (by decide) (by decide) (by decide)⟩

end RagChatbot
